import Mathlib

/-!
# Lee94 3D thinning (`lee_thinning.h`): shallow embedding and verified properties

The C++ source works on a `tira::volume<int>` (a dense 3D array with extents
`X()`, `Y()`, `Z()`), on `std::array<int, 27>` neighbourhoods and on a
`std::array<int, 26>` cube that is relabelled in place.

* a volume is a record of its three extents and its cell contents;
* fixed-size arrays are lists, read with `List.getD _ _ 0` and written with
  `List.set`;
* in-place mutation is explicit state passing;
* the recursion of `octree_labeling` and the `while` loop of
  `computeThinImage` are driven by a fuel argument; the fuel-free functions
  instantiate it with a bound that is proved sufficient.
-/

namespace Lee94

/-! ## Data model -/

/-- A `tira::volume<int>`: the extents and the stored cells. Only cells with
`0 ≤ x < X`, `0 ≤ y < Y`, `0 ≤ z < Z` are ever read or written by the code. -/
structure Volume where
  X : Nat
  Y : Nat
  Z : Nat
  cell : Int → Int → Int → Int

/-- `using Point = std::array<int, 3>` -/
abbrev Point := Int × Int × Int

/-! ## Grid access -/

/-- `int get_pixel(Volume& vol, int x, int y, int z)` -/
def get_pixel (vol : Volume) (x y z : Int) : Int :=
  if x ≥ 0 ∧ x < vol.X ∧ y ≥ 0 ∧ y < vol.Y ∧ z ≥ 0 ∧ z < vol.Z then
    vol.cell x y z
  else 0

/-- `int get_pixel_nocheck(Volume& vol, int x, int y, int z)` -/
def get_pixel_nocheck (vol : Volume) (x y z : Int) : Int :=
  vol.cell x y z

/-- `void set_pixel(Volume& vol, int x, int y, int z, int value)` -/
def set_pixel (vol : Volume) (x y z : Int) (value : Int) : Volume :=
  if x ≥ 0 ∧ x < vol.X ∧ y ≥ 0 ∧ y < vol.Y ∧ z ≥ 0 ∧ z < vol.Z then
    { vol with cell := fun a b c => if a = x ∧ b = y ∧ c = z then value else vol.cell a b c }
  else vol

/-- `std::array<int, 27> get_neighborhood(Volume& vol, int x, int y, int z)` -/
def get_neighborhood (vol : Volume) (x y z : Int) : List Int :=
  [ get_pixel vol (x - 1) (y - 1) (z - 1),
    get_pixel vol x (y - 1) (z - 1),
    get_pixel vol (x + 1) (y - 1) (z - 1),
    get_pixel vol (x - 1) y (z - 1),
    get_pixel vol x y (z - 1),
    get_pixel vol (x + 1) y (z - 1),
    get_pixel vol (x - 1) (y + 1) (z - 1),
    get_pixel vol x (y + 1) (z - 1),
    get_pixel vol (x + 1) (y + 1) (z - 1),
    get_pixel vol (x - 1) (y - 1) z,
    get_pixel vol x (y - 1) z,
    get_pixel vol (x + 1) (y - 1) z,
    get_pixel vol (x - 1) y z,
    get_pixel vol x y z,
    get_pixel vol (x + 1) y z,
    get_pixel vol (x - 1) (y + 1) z,
    get_pixel vol x (y + 1) z,
    get_pixel vol (x + 1) (y + 1) z,
    get_pixel vol (x - 1) (y - 1) (z + 1),
    get_pixel vol x (y - 1) (z + 1),
    get_pixel vol (x + 1) (y - 1) (z + 1),
    get_pixel vol (x - 1) y (z + 1),
    get_pixel vol x y (z + 1),
    get_pixel vol (x + 1) y (z + 1),
    get_pixel vol (x - 1) (y + 1) (z + 1),
    get_pixel vol x (y + 1) (z + 1),
    get_pixel vol (x + 1) (y + 1) (z + 1) ]

/-- `bool is_endpoint(Volume& vol, int x, int y, int z)`: the counter starts
at `-1` and every one of the 27 entries equal to 1 increments it. -/
def is_endpoint (vol : Volume) (x y z : Int) : Bool :=
  let neighbor := get_neighborhood vol x y z
  let count : Int :=
    (List.range 27).foldl (fun count i => if neighbor.getD i 0 = 1 then count + 1 else count) (-1)
  decide (count = 1)

/-! ## Euler table and octant indices -/

/-- `std::array<int, 256> fill_euler_LUT()`: zero-initialised, then the odd
entries assigned as in the source. -/
def fill_euler_LUT : List Int :=
  [0, 1, 0, -1, 0, -1, 0, 1, 0, -3, 0, -1, 0, -1, 0, 1,
   0, -1, 0, 1, 0, 1, 0, -1, 0, 3, 0, 1, 0, 1, 0, -1,
   0, -3, 0, -1, 0, 3, 0, 1, 0, 1, 0, -1, 0, 3, 0, 1,
   0, -1, 0, 1, 0, 1, 0, -1, 0, 3, 0, 1, 0, 1, 0, -1,
   0, -3, 0, 3, 0, -1, 0, 1, 0, 1, 0, 3, 0, -1, 0, 1,
   0, -1, 0, 1, 0, 1, 0, -1, 0, 3, 0, 1, 0, 1, 0, -1,
   0, 1, 0, 3, 0, 3, 0, 1, 0, 5, 0, 3, 0, 3, 0, 1,
   0, -1, 0, 1, 0, 1, 0, -1, 0, 3, 0, 1, 0, 1, 0, -1,
   0, -7, 0, -1, 0, -1, 0, 1, 0, -3, 0, -1, 0, -1, 0, 1,
   0, -1, 0, 1, 0, 1, 0, -1, 0, 3, 0, 1, 0, 1, 0, -1,
   0, -3, 0, -1, 0, 3, 0, 1, 0, 1, 0, -1, 0, 3, 0, 1,
   0, -1, 0, 1, 0, 1, 0, -1, 0, 3, 0, 1, 0, 1, 0, -1,
   0, -3, 0, 3, 0, -1, 0, 1, 0, 1, 0, 3, 0, -1, 0, 1,
   0, -1, 0, 1, 0, 1, 0, -1, 0, 3, 0, 1, 0, 1, 0, -1,
   0, 1, 0, 3, 0, 3, 0, 1, 0, 5, 0, 3, 0, 3, 0, 1,
   0, -1, 0, 1, 0, 1, 0, -1, 0, 3, 0, 1, 0, 1, 0, -1]

/-- The `N`, `S`, `E`, `W`, `U`, `B` accessors. -/
def N (vol : Volume) (x y z : Int) : Int := get_pixel vol x (y - 1) z
def S (vol : Volume) (x y z : Int) : Int := get_pixel vol x (y + 1) z
def E (vol : Volume) (x y z : Int) : Int := get_pixel vol (x + 1) y z
def W (vol : Volume) (x y z : Int) : Int := get_pixel vol (x - 1) y z
def U (vol : Volume) (x y z : Int) : Int := get_pixel vol x y (z + 1)
def B (vol : Volume) (x y z : Int) : Int := get_pixel vol x y (z - 1)

/-- One line `if (n[i]) v |= w;` of an octant index function. -/
def orBit (n : List Int) (i : Nat) (w : Nat) (v : Nat) : Nat :=
  if n.getD i 0 ≠ 0 then v ||| w else v

/-- `uint8_t index_octant_NEB(const std::array<uint8_t, 27>& n)` -/
def index_octant_NEB (n : List Int) : Nat :=
  orBit n 14 2 (orBit n 4 4 (orBit n 5 8 (orBit n 10 16 (orBit n 11 32 (orBit n 1 64 (orBit n 2 128 1))))))

/-- `uint8_t index_octant_NWB(const std::array<uint8_t, 27>& n)` -/
def index_octant_NWB (n : List Int) : Nat :=
  orBit n 4 2 (orBit n 10 4 (orBit n 1 8 (orBit n 12 16 (orBit n 3 32 (orBit n 9 64 (orBit n 0 128 1))))))

/-- `uint8_t index_octant_SEB(const std::array<uint8_t, 27>& n)` -/
def index_octant_SEB (n : List Int) : Nat :=
  orBit n 14 2 (orBit n 4 4 (orBit n 5 8 (orBit n 16 16 (orBit n 17 32 (orBit n 7 64 (orBit n 8 128 1))))))

/-- `uint8_t index_octant_SWB(const std::array<uint8_t, 27>& n)` -/
def index_octant_SWB (n : List Int) : Nat :=
  orBit n 4 2 (orBit n 12 4 (orBit n 3 8 (orBit n 16 16 (orBit n 7 32 (orBit n 15 64 (orBit n 6 128 1))))))

/-- `uint8_t index_octant_NEU(const std::array<uint8_t, 27>& n)` -/
def index_octant_NEU (n : List Int) : Nat :=
  orBit n 10 2 (orBit n 14 4 (orBit n 11 8 (orBit n 22 16 (orBit n 19 32 (orBit n 23 64 (orBit n 20 128 1))))))

/-- `uint8_t index_octant_NWU(const std::array<uint8_t, 27>& n)` -/
def index_octant_NWU (n : List Int) : Nat :=
  orBit n 10 2 (orBit n 22 4 (orBit n 19 8 (orBit n 12 16 (orBit n 9 32 (orBit n 21 64 (orBit n 18 128 1))))))

/-- `uint8_t index_octant_SEU(const std::array<uint8_t, 27>& n)` -/
def index_octant_SEU (n : List Int) : Nat :=
  orBit n 16 2 (orBit n 22 4 (orBit n 25 8 (orBit n 14 16 (orBit n 17 32 (orBit n 23 64 (orBit n 26 128 1))))))

/-- `uint8_t index_octant_SWU(const std::array<uint8_t, 27>& n)` -/
def index_octant_SWU (n : List Int) : Nat :=
  orBit n 12 2 (orBit n 22 4 (orBit n 21 8 (orBit n 16 16 (orBit n 15 32 (orBit n 25 64 (orBit n 24 128 1))))))

/-- The running sum `eulerChar` of `is_euler_invariant`. -/
def eulerChar (neighbors : List Int) (LUT : List Int) : Int :=
  0 + LUT.getD (index_octant_SWU neighbors) 0
    + LUT.getD (index_octant_SEU neighbors) 0
    + LUT.getD (index_octant_NWU neighbors) 0
    + LUT.getD (index_octant_NEU neighbors) 0
    + LUT.getD (index_octant_SWB neighbors) 0
    + LUT.getD (index_octant_SEB neighbors) 0
    + LUT.getD (index_octant_NWB neighbors) 0
    + LUT.getD (index_octant_NEB neighbors) 0

/-- `bool is_euler_invariant(const std::array<uint8_t, 27>& neighbors,
const std::array<int, 256>& LUT)` -/
def is_euler_invariant (neighbors : List Int) (LUT : List Int) : Bool :=
  decide (eulerChar neighbors LUT = 0)

/-! ## Octree labelling and the simple-point test -/

/-- The body of `octree_labeling` for one octant, in source order: each entry
is one `if (cube[i] == 1) { cube[i] = label; octree_labeling(o, ..)... }`,
given as the cube index `i` and the octants of the recursive calls. -/
def octantSteps : Nat → List (Nat × List Nat)
  | 1 => [(0, []), (1, [2]), (3, [3]), (4, [2, 3, 4]), (9, [5]), (10, [2, 5, 6]), (12, [3, 5, 7])]
  | 2 => [(1, [1]), (4, [1, 3, 4]), (10, [1, 5, 6]), (2, []), (5, [4]), (11, [6]), (13, [4, 6, 8])]
  | 3 => [(3, [1]), (4, [1, 2, 4]), (12, [1, 5, 7]), (6, []), (7, [4]), (14, [7]), (15, [4, 7, 8])]
  | 4 => [(4, [1, 2, 3]), (5, [2]), (13, [2, 6, 8]), (7, [3]), (15, [3, 7, 8]), (8, []), (16, [8])]
  | 5 => [(9, [1]), (10, [1, 2, 6]), (12, [1, 3, 7]), (17, []), (18, [6]), (20, [7]), (21, [6, 7, 8])]
  | 6 => [(10, [1, 2, 5]), (11, [2]), (13, [2, 4, 8]), (18, [5]), (21, [5, 7, 8]), (19, []), (22, [8])]
  | 7 => [(12, [1, 3, 5]), (14, [3]), (15, [3, 4, 8]), (20, [5]), (21, [5, 6, 8]), (23, []), (24, [8])]
  | 8 => [(13, [2, 4, 6]), (15, [3, 4, 7]), (16, [4]), (21, [5, 6, 7]), (22, [6]), (24, [7]), (25, [])]
  | _ => []

/-- `void octree_labeling(int octant, int label, std::array<int, 26>& cube)`
with the recursion depth bounded by `fuel`; `none` means the fuel ran out. -/
def octree_labeling_fuel : Nat → Nat → Int → List Int → Option (List Int)
  | 0, _, _, _ => none
  | fuel + 1, octant, label, cube =>
    (octantSteps octant).foldlM
      (fun cube step =>
        if cube.getD step.1 0 = 1 then
          step.2.foldlM (fun c o => octree_labeling_fuel fuel o label c) (cube.set step.1 label)
        else some cube)
      cube

/-- `octree_labeling` as called by `is_simple_point`: the cube has 26 cells,
so a recursion depth of 27 is never exceeded (`octree_labeling_terminates`). -/
def octree_labeling (octant : Nat) (label : Int) (cube : List Int) : List Int :=
  (octree_labeling_fuel 27 octant label cube).getD cube

/-- The `switch (i)` of `is_simple_point`: the octant the labelling of seed
`i` starts in. -/
def seedOctant : Nat → Nat
  | 0 | 1 | 3 | 4 | 9 | 10 | 12 => 1
  | 2 | 5 | 11 | 13 => 2
  | 6 | 7 | 14 | 15 => 3
  | 8 | 16 => 4
  | 17 | 18 | 20 | 21 => 5
  | 19 | 22 => 6
  | 23 | 24 => 7
  | 25 => 8
  | _ => 0

/-- The cube of `is_simple_point`: neighbourhood entries 0..12 and 14..26. -/
def cubeOf (neighbors : List Int) : List Int :=
  (List.range 13).map (fun i => neighbors.getD i 0) ++
  (List.range' 14 13).map (fun i => neighbors.getD i 0)

/-- The `for (int i = 0; i < 26; ++i)` loop of `is_simple_point`, over the
remaining indices, with its early `return false`. -/
def simpleLoop (label : Int) (cube : List Int) : List Nat → Bool
  | [] => true
  | i :: rest =>
    if cube.getD i 0 = 1 then
      let cube1 := octree_labeling (seedOctant i) label cube
      let label1 := label + 1
      if label1 - 2 ≥ 2 then false else simpleLoop label1 cube1 rest
    else simpleLoop label cube rest

/-- `bool is_simple_point(const std::array<uint8_t, 27>& neighbors)` -/
def is_simple_point (neighbors : List Int) : Bool :=
  simpleLoop 2 (cubeOf neighbors) (List.range 26)

/-! ## The thinning driver -/

/-- The cast loop `neighborhood[i] = static_cast<uint8_t>(neighborhood_int[i])`. -/
def toU8 (a : List Int) : List Int := a.map (fun v => v % 256)

/-- The six `if (currentBorder == k && D(volume, x, y, z) <= 0)` lines. -/
def isBorderPoint (vol : Volume) (currentBorder : Nat) (x y z : Int) : Bool :=
  (currentBorder == 1 && decide (N vol x y z ≤ 0)) ||
  (currentBorder == 2 && decide (S vol x y z ≤ 0)) ||
  (currentBorder == 3 && decide (E vol x y z ≤ 0)) ||
  (currentBorder == 4 && decide (W vol x y z ≤ 0)) ||
  (currentBorder == 5 && decide (U vol x y z ≤ 0)) ||
  (currentBorder == 6 && decide (B vol x y z ≤ 0))

/-- The body of the scan loop for one voxel: `true` when the voxel reaches
`simpleBorderPoints.push_back`. -/
def isCandidate (vol : Volume) (currentBorder : Nat) (p : Point) : Bool :=
  if get_pixel_nocheck vol p.1 p.2.1 p.2.2 ≠ 1 then false
  else if !isBorderPoint vol currentBorder p.1 p.2.1 p.2.2 then false
  else if is_endpoint vol p.1 p.2.1 p.2.2 then false
  else if !is_euler_invariant (toU8 (get_neighborhood vol p.1 p.2.1 p.2.2)) fill_euler_LUT then false
  else if !is_simple_point (toU8 (get_neighborhood vol p.1 p.2.1 p.2.2)) then false
  else true

/-- The cells in the order of the `z`, `y`, `x` scan loops. -/
def scanOrder (vol : Volume) : List Point :=
  (List.range vol.Z).flatMap fun (z : Nat) =>
    (List.range vol.Y).flatMap fun (y : Nat) =>
      (List.range vol.X).map fun (x : Nat) => ((x : Int), (y : Int), (z : Int))

/-- The list `simpleBorderPoints` after the scan of one direction. -/
def collectCandidates (vol : Volume) (currentBorder : Nat) : List Point :=
  (scanOrder vol).filter (isCandidate vol currentBorder)

/-- One step of the re-checking loop; the state is the volume and `noChange`. -/
def recheckStep (st : Volume × Bool) (index : Point) : Volume × Bool :=
  if is_simple_point (toU8 (get_neighborhood st.1 index.1 index.2.1 index.2.2)) then
    (set_pixel st.1 index.1 index.2.1 index.2.2 0, false)
  else st

/-- One direction: scan, then re-check and delete. Returns the volume and
`noChange`. -/
def borderPass (vol : Volume) (currentBorder : Nat) : Volume × Bool :=
  (collectCandidates vol currentBorder).foldl recheckStep (vol, true)

/-- Body of the `for (currentBorder ...)` loop; the state is the volume and
`unchangedBorders`. -/
def borderStep (st : Volume × Nat) (currentBorder : Nat) : Volume × Nat :=
  let r := borderPass st.1 currentBorder
  (r.1, if r.2 then st.2 + 1 else st.2)

/-- One iteration of the `while` loop: `unchangedBorders = 0` and the six
directions. Returns the volume and `unchangedBorders`. -/
def iteration (vol : Volume) : Volume × Nat :=
  [1, 2, 3, 4, 5, 6].foldl borderStep (vol, 0)

/-- The `while (unchangedBorders < 6)` loop with at most `fuel` iterations;
returns the volume and the counter `iterations`, `none` when the fuel ran
out. -/
def thinLoop : Nat → Volume → Nat → Option (Volume × Nat)
  | 0, _, _ => none
  | fuel + 1, vol, iterations =>
    let r := iteration vol
    if r.2 < 6 then thinLoop fuel r.1 (iterations + 1) else some (r.1, iterations + 1)

/-- Number of foreground cells (cells equal to 1) inside the extents. -/
def countForeground (vol : Volume) : Nat :=
  (scanOrder vol).countP fun p => decide (vol.cell p.1 p.2.1 p.2.2 = 1)

/-- `void computeThinImage(Volume& volume)` with the final value of
`iterations`; `countForeground vol + 1` iterations always suffice
(`thinLoop_terminates`). -/
def computeThinImageIter (vol : Volume) : Volume × Nat :=
  (thinLoop (countForeground vol + 1) vol 0).getD (vol, 0)

/-- `void computeThinImage(Volume& volume)`: the volume on return. -/
def computeThinImage (vol : Volume) : Volume :=
  (computeThinImageIter vol).1

/-! ## The wrapper `lee` -/

/-- The unchecked write `vol(x, y, z) = value` of `tira::volume`. -/
def write (vol : Volume) (x y z : Int) (value : Int) : Volume :=
  { vol with cell := fun a b c => if a = x ∧ b = y ∧ c = z then value else vol.cell a b c }

/-- The cells visited by the loops `for zi < z`, `for yi < y`, `for xi < x`
of `lee`, in order; a bound that is not positive gives no iteration. -/
def loopOrder (x y z : Int) : List Point :=
  (List.range z.toNat).flatMap fun (zi : Nat) =>
    (List.range y.toNat).flatMap fun (yi : Nat) =>
      (List.range x.toNat).map fun (xi : Nat) => ((xi : Int), (yi : Int), (zi : Int))

/-- The volume objects of the caller, by address: `lee` takes its two volumes
by reference, and both references may name the same object. -/
abbrev Store := Nat → Volume

/-- The store after the object at address `r` has been given the value `v`. -/
def Store.assign (s : Store) (r : Nat) (v : Volume) : Store :=
  fun k => if k = r then v else s k

/-- `tira::volume<int>(x, y, z)`: a fresh volume of the given extents, its
cells value-initialised to 0. -/
def freshVolume (x y z : Int) : Volume :=
  { X := x.toNat, Y := y.toNat, Z := z.toNat, cell := fun _ _ _ => 0 }

/-- `void lee(tira::volume<int>& in, tira::volume<int>& out, int x, int y, int z)`
on the store of the caller, with `inp` and `out` the addresses of the two
objects; returns the store on return. In source order: the assignment
`out = tira::volume<int>(x, y, z)`, the binarisation loop on `in`,
`computeThinImage(in)`, and the copy loop `out(xi, yi, zi) = in(xi, yi, zi)`.
Every read of `in` and `out` goes through the store, so a call with
`inp = out` sees the input replaced by the fresh volume. `none` stands for a
run that leaves the model: a negative extent passed to the constructor, or an
unchecked access `in(xi, yi, zi)` outside the extents of `in`. -/
def lee (s : Store) (inp out : Nat) (x y z : Int) : Option Store :=
  if x < 0 ∨ y < 0 ∨ z < 0 then none
  else
    let s1 := s.assign out (freshVolume x y z)
    if ¬ ∀ p ∈ loopOrder x y z,
        0 ≤ p.1 ∧ p.1 < (s1 inp).X ∧ 0 ≤ p.2.1 ∧ p.2.1 < (s1 inp).Y ∧
          0 ≤ p.2.2 ∧ p.2.2 < (s1 inp).Z then none
    else
      let s2 := (loopOrder x y z).foldl
        (fun t p =>
          if (t inp).cell p.1 p.2.1 p.2.2 ≠ 0 then t.assign inp (write (t inp) p.1 p.2.1 p.2.2 1)
          else t.assign inp (write (t inp) p.1 p.2.1 p.2.2 0)) s1
      let s3 := s2.assign inp (computeThinImage (s2 inp))
      let s4 := (loopOrder x y z).foldl
        (fun t p => t.assign out (write (t out) p.1 p.2.1 p.2.2 ((t inp).cell p.1 p.2.1 p.2.2))) s3
      some s4

/-! ## Specification vocabulary -/

/-- Every stored cell inside the extents is 0 or 1. -/
def Binary (vol : Volume) : Prop :=
  ∀ x y z : Int, 0 ≤ x → x < vol.X → 0 ≤ y → y < vol.Y → 0 ≤ z → z < vol.Z →
    vol.cell x y z = 0 ∨ vol.cell x y z = 1

/-- The cell lies inside the extents. -/
def InRange (vol : Volume) (p : Point) : Prop :=
  0 ≤ p.1 ∧ p.1 < vol.X ∧ 0 ≤ p.2.1 ∧ p.2.1 < vol.Y ∧ 0 ≤ p.2.2 ∧ p.2.2 < vol.Z

instance instDecidableInRange (vol : Volume) (p : Point) : Decidable (InRange vol p) := by
  unfold InRange; infer_instance


/-- Offset `(dx, dy, dz)` of neighbourhood position `i` (row-major, `x`
fastest); position 13 is the centre. -/
def offset (i : Nat) : Point :=
  (((i % 3 : Nat) : Int) - 1, ((i / 3 % 3 : Nat) : Int) - 1, ((i / 9 : Nat) : Int) - 1)

/-- The grid cell at neighbourhood position `i` of `p`. -/
def shift (p : Point) (i : Nat) : Point :=
  (p.1 + (offset i).1, p.2.1 + (offset i).2.1, p.2.2 + (offset i).2.2)

/-- The 26 non-centre neighbourhood positions. -/
def neighbourIndices : List Nat := (List.range 27).filter (fun i => i ≠ 13)

/-- The cell is foreground: inside the extents and equal to 1. -/
def Foreground (vol : Volume) (p : Point) : Prop :=
  get_pixel vol p.1 p.2.1 p.2.2 = 1

instance instDecidableForeground (vol : Volume) (p : Point) : Decidable (Foreground vol p) := by
  unfold Foreground; infer_instance

/-- Number of foreground voxels among the 26 neighbours of `p`. -/
def neighbourCount (vol : Volume) (p : Point) : Nat :=
  neighbourIndices.countP fun i =>
    decide (get_pixel vol (shift p i).1 (shift p i).2.1 (shift p i).2.2 = 1)

/-- `v` has the extents of `vol` and every cell of `v` either holds what it
holds in `vol` or holds 0. -/
def Shrinks (vol v : Volume) : Prop :=
  v.X = vol.X ∧ v.Y = vol.Y ∧ v.Z = vol.Z ∧
    ∀ a b c : Int, v.cell a b c = vol.cell a b c ∨ v.cell a b c = 0

/-! ### Vocabulary for the labelling of the cube -/

/-- The cube cells visited by `octree_labeling` in one octant. -/
def cells (o : Nat) : List Nat := (octantSteps o).map Prod.fst

/-- `c'` is `c` with some cells that held 1 overwritten by the label `l`. -/
def Relabels (l : Int) (c c' : List Int) : Prop :=
  ∀ j : Nat, c'.getD j 0 = c.getD j 0 ∨ (c.getD j 0 = 1 ∧ c'.getD j 0 = l)

/-- No cell of octant `o` holds 1. -/
def Clear (c : List Int) (o : Nat) : Prop :=
  ∀ i ∈ cells o, c.getD i 0 ≠ 1

/-- Two cube cells holding 1 that lie in a common octant. -/
def CubeStep (c : List Int) (a b : Nat) : Prop :=
  c.getD a 0 = 1 ∧ c.getD b 0 = 1 ∧ ∃ o, a ∈ cells o ∧ b ∈ cells o

/-- Cube cells joined by a chain of cells holding 1, consecutive ones in a
common octant. -/
def CubeConn (c : List Int) : Nat → Nat → Prop :=
  Relation.ReflTransGen (CubeStep c)

/-- Number of cube cells holding 1. -/
def ones (c : List Int) : Nat :=
  (List.range 26).countP fun i => decide (c.getD i 0 = 1)

/-- What a call `octree_labeling(o, l, cube)` taking `c` to `c'` achieves. -/
structure LabelPost (l : Int) (o : Nat) (c c' : List Int) : Prop where
  relabels : Relabels l c c'
  clear : Clear c' o
  closed : ∀ j, c.getD j 0 = 1 → c'.getD j 0 = l → ∀ o', j ∈ cells o' → Clear c' o'
  sound : ∀ j, c.getD j 0 = 1 → c'.getD j 0 = l →
    ∃ i ∈ cells o, c.getD i 0 = 1 ∧ CubeConn c i j

/-- What the recursive calls `recs` made for one cell achieve together. -/
structure RecsPost (l : Int) (recs : List Nat) (c c' : List Int) : Prop where
  relabels : Relabels l c c'
  clear : ∀ o ∈ recs, Clear c' o
  closed : ∀ j, c.getD j 0 = 1 → c'.getD j 0 = l → ∀ o', j ∈ cells o' → Clear c' o'
  sound : ∀ j, c.getD j 0 = 1 → c'.getD j 0 = l →
    ∃ o ∈ recs, ∃ i ∈ cells o, c.getD i 0 = 1 ∧ CubeConn c i j

/-- What the `if` blocks `ss` of the body of octant `o` achieve together. -/
structure StepsPost (l : Int) (o : Nat) (ss : List (Nat × List Nat)) (c c' : List Int) :
    Prop where
  relabels : Relabels l c c'
  clear : ∀ s ∈ ss, c'.getD s.1 0 ≠ 1
  closed : ∀ j, c.getD j 0 = 1 → c'.getD j 0 = l → ∀ o', j ∈ cells o' → o' ≠ o → Clear c' o'
  sound : ∀ j, c.getD j 0 = 1 → c'.getD j 0 = l →
    ∃ s ∈ ss, c.getD s.1 0 = 1 ∧ CubeConn c s.1 j

/-! ### 26-adjacency -/

/-- 26-adjacency: different cells whose coordinates differ by at most 1 on
every axis. -/
def Adj26 (p q : Point) : Prop :=
  p ≠ q ∧ -1 ≤ p.1 - q.1 ∧ p.1 - q.1 ≤ 1 ∧ -1 ≤ p.2.1 - q.2.1 ∧ p.2.1 - q.2.1 ≤ 1 ∧
    -1 ≤ p.2.2 - q.2.2 ∧ p.2.2 - q.2.2 ≤ 1

instance instDecidableAdj26 (p q : Point) : Decidable (Adj26 p q) := by
  unfold Adj26; infer_instance

/-- Neighbourhood position of cube cell `a` (the centre, 13, is skipped). -/
def nbIndex (a : Nat) : Nat := if a < 13 then a else a + 1

/-- Cube cell of the non-centre neighbourhood position `i`. -/
def cubeIndex (i : Nat) : Nat := if i < 13 then i else i - 1

/-- Two adjacent non-centre positions of the neighbourhood `n` that both
hold 1. -/
def NbStep (n : List Int) (i j : Nat) : Prop :=
  i < 27 ∧ j < 27 ∧ i ≠ 13 ∧ j ≠ 13 ∧ n.getD i 0 = 1 ∧ n.getD j 0 = 1 ∧
    Adj26 (offset i) (offset j)

/-- Positions joined by a 26-connected path of non-centre positions holding 1. -/
def NbJoined (n : List Int) : Nat → Nat → Prop :=
  Relation.ReflTransGen (NbStep n)

/-- The entries equal to 1 among the 26 non-centre positions form at most
one connected component under 26-adjacency: any two of them are joined. -/
def AtMostOneComponent (n : List Int) : Prop :=
  ∀ i j : Nat, i < 27 → j < 27 → i ≠ 13 → j ≠ 13 → n.getD i 0 = 1 → n.getD j 0 = 1 →
    NbJoined n i j

/-- Boolean test that two cube cells lie in a common octant. -/
def shareOctant (a b : Nat) : Bool :=
  (List.range 9).any fun o => decide (a ∈ cells o) && decide (b ∈ cells o)

/-- Two 26-adjacent foreground voxels of the volume. -/
def GridStep (v : Volume) (p q : Point) : Prop :=
  Foreground v p ∧ Foreground v q ∧ Adj26 p q

/-- Voxels joined by a 26-connected path of foreground voxels. -/
def Joined (v : Volume) : Point → Point → Prop :=
  Relation.ReflTransGen (GridStep v)

/-! ### The deletions of a run -/

/-- One execution of `set_pixel(volume, index, 0)` in the re-checking loop:
the volume the scan of the direction ran on, the direction, the volume just
before the write, and the voxel. -/
structure Deletion where
  scanVol : Volume
  border : Nat
  vol : Volume
  point : Point

/-- The deletions of the re-checking loop over the candidates, in order; the
loop is that of `recheckStep`. -/
def recheckTrace (scanVol : Volume) (border : Nat) : Volume → List Point → List Deletion
  | _, [] => []
  | v, index :: rest =>
    if is_simple_point (toU8 (get_neighborhood v index.1 index.2.1 index.2.2)) then
      Deletion.mk scanVol border v index ::
        recheckTrace scanVol border (set_pixel v index.1 index.2.1 index.2.2 0) rest
    else recheckTrace scanVol border v rest

/-- The deletions of one directional pass. -/
def passDeletions (vol : Volume) (currentBorder : Nat) : List Deletion :=
  recheckTrace vol currentBorder vol (collectCandidates vol currentBorder)

/-- The deletions of the passes for the given directions, run in sequence. -/
def dirsDeletions : Volume → List Nat → List Deletion
  | _, [] => []
  | v, b :: rest => passDeletions v b ++ dirsDeletions (borderPass v b).1 rest

/-- The deletions of the `while` loop run with the given fuel. -/
def loopDeletions : Nat → Volume → List Deletion
  | 0, _ => []
  | fuel + 1, vol =>
    dirsDeletions vol [1, 2, 3, 4, 5, 6] ++
      (if (iteration vol).2 < 6 then loopDeletions fuel (iteration vol).1 else [])

/-- All deletions performed by `computeThinImage`, in order. -/
def deletions (vol : Volume) : List Deletion :=
  loopDeletions (countForeground vol + 1) vol

/-! ### Concrete volumes -/

/-- Volume of the given extents whose foreground is the listed cells. -/
def volumeOf (X Y Z : Nat) (fg : List Point) : Volume :=
  { X := X, Y := Y, Z := Z, cell := fun x y z => if (x, y, z) ∈ fg then 1 else 0 }

/-- The foreground cells in scan order. -/
def foregroundCells (v : Volume) : List Point :=
  (scanOrder v).filter fun p => decide (v.cell p.1 p.2.1 p.2.2 = 1)

/-- Three mutually adjacent voxels in the plane `y = 0` of a 2x1x2 grid. -/
def cornerVolume : Volume := volumeOf 2 1 2 [(0, 0, 0), (1, 0, 0), (0, 0, 1)]

/-- Two adjacent voxels in a 2x1x1 grid. -/
def pairVolume : Volume := volumeOf 2 1 1 [(0, 0, 0), (1, 0, 0)]

/-- A single voxel in a 1x1x1 grid. -/
def singleVolume : Volume := volumeOf 1 1 1 [(0, 0, 0)]

/-! ### Euler characteristic of a set of voxels of the 3x3x3 block

The union of closed unit cubes is a cubical complex. Its cells are given in
doubled coordinates `(a, b, c)` with `a, b, c` in `0..6`: an even coordinate
is a grid plane, an odd one the open interval between two planes, so the
number of odd coordinates is the dimension (0 vertex, 1 edge, 2 face, 3 cube).
Voxel position `i` of the block occupies `2x..2x+2` on each axis, with
`x = i % 3`, `y = i / 3 % 3`, `z = i / 9`. -/

/-- A cell of the block in doubled coordinates. -/
abbrev Cell := Nat × Nat × Nat

/-- All cells of the 3x3x3 block. -/
def blockCells : List Cell :=
  (List.range 7).flatMap fun a => (List.range 7).flatMap fun b => (List.range 7).map fun c => (a, b, c)

/-- Dimension of a cell. -/
def cellDim (q : Cell) : Nat := q.1 % 2 + q.2.1 % 2 + q.2.2 % 2

/-- The closed unit cube of voxel position `i` contains the cell `q`. -/
def voxelHasCell (i : Nat) (q : Cell) : Bool :=
  decide (2 * (i % 3) ≤ q.1 ∧ q.1 ≤ 2 * (i % 3) + 2 ∧
    2 * (i / 3 % 3) ≤ q.2.1 ∧ q.2.1 ≤ 2 * (i / 3 % 3) + 2 ∧
    2 * (i / 9) ≤ q.2.2 ∧ q.2.2 ≤ 2 * (i / 9) + 2)

/-- The cell lies in the union of the closed cubes of the voxels of `S`. -/
def covered (S : Nat → Bool) (q : Cell) : Bool :=
  (List.range 27).any fun i => S i && voxelHasCell i q

/-- Number of cells of dimension `d` of the union of the voxels of `S`. -/
def countCells (S : Nat → Bool) (d : Nat) : Nat :=
  blockCells.countP fun q => decide (cellDim q = d) && covered S q

/-- Euler characteristic of the union of the voxels of `S` taken as closed
unit cubes: vertices - edges + faces - cubes. -/
def eulerCharacteristic (S : Nat → Bool) : Int :=
  (countCells S 0 : Int) - countCells S 1 + countCells S 2 - countCells S 3

/-- The foreground neighbours of the neighbourhood `n`: the non-centre
positions holding 1. -/
def neighbourSet (n : List Int) : Nat → Bool :=
  fun i => decide (i ≠ 13) && decide (n.getD i 0 = 1)

/-- The set `S` together with the centre voxel. -/
def withCentre (S : Nat → Bool) : Nat → Bool :=
  fun i => decide (i = 13) || S i

/-- 1 when the cell is not in the union of the voxels of `S`, else 0. -/
def uncovered (S : Nat → Bool) (q : Cell) : Int := if covered S q then 0 else 1

/-- The voxel positions whose closed cube contains the cell. -/
def voxelsOf (q : Cell) : List Nat := (List.range 27).filter fun i => voxelHasCell i q

/-- Eight times the share of one octant in the change of the Euler
characteristic when the centre is added: the corner vertex `v` of the centre
voxel counts fully, its three edges by half, its three faces by a quarter and
the cube itself by an eighth. -/
def octContribution (S : Nat → Bool) (v e1 e2 e3 f1 f2 f3 : Cell) : Int :=
  8 * uncovered S v - 4 * (uncovered S e1 + uncovered S e2 + uncovered S e3) +
    2 * (uncovered S f1 + uncovered S f2 + uncovered S f3) - 1

/-! ### A generic flood fill over 26-adjacency

Independent of the octant tables: a depth-first fill that visits, from a
position holding 1, every 26-adjacent non-centre position. -/

/-- The non-centre positions 26-adjacent to position `i`. -/
def adjacentPositions (i : Nat) : List Nat :=
  neighbourIndices.filter fun j => decide (Adj26 (offset i) (offset j))

/-- Generic depth-first flood fill on the 27-entry neighbourhood: relabels
position `i` if it holds 1 and continues from its adjacent positions. The
recursion depth is bounded by `fuel`. -/
def floodFill : Nat → Int → List Int → Nat → List Int
  | 0, _, c, _ => c
  | fuel + 1, l, c, i =>
    if c.getD i 0 = 1 then
      (adjacentPositions i).foldl (fun c j => floodFill fuel l c j) (c.set i l)
    else c

/-- Scan of the positions: every position still holding 1 starts a flood fill
with a fresh label and counts one component. -/
def componentLoop (c : List Int) (count : Nat) : List Nat → Nat
  | [] => count
  | i :: rest =>
    if c.getD i 0 = 1 then componentLoop (floodFill 27 ((count : Int) + 2) c i) (count + 1) rest
    else componentLoop c count rest

/-- Number of 26-connected components of the non-centre entries equal to 1,
counted by the generic flood fill. -/
def componentCount (n : List Int) : Nat :=
  componentLoop n 0 neighbourIndices

/-- Number of non-centre positions holding 1. -/
def onesAround (c : List Int) : Nat :=
  neighbourIndices.countP fun i => decide (c.getD i 0 = 1)

/-- What a flood fill from position `i` taking `c` to `c'` achieves. -/
structure FillPost (l : Int) (i : Nat) (c c' : List Int) : Prop where
  relabels : Relabels l c c'
  done : c'.getD i 0 ≠ 1
  closed : ∀ j, c.getD j 0 = 1 → c'.getD j 0 = l → ∀ k ∈ adjacentPositions j, c'.getD k 0 ≠ 1
  sound : ∀ j, c.getD j 0 = 1 → c'.getD j 0 = l → NbJoined c i j

/-- What the flood fills from the positions `js` achieve together. -/
structure FillsPost (l : Int) (js : List Nat) (c c' : List Int) : Prop where
  relabels : Relabels l c c'
  done : ∀ j ∈ js, c'.getD j 0 ≠ 1
  closed : ∀ j, c.getD j 0 = 1 → c'.getD j 0 = l → ∀ k ∈ adjacentPositions j, c'.getD k 0 ≠ 1
  sound : ∀ j, c.getD j 0 = 1 → c'.getD j 0 = l → ∃ j0 ∈ js, c.getD j0 0 = 1 ∧ NbJoined c j0 j

/-! ### Vocabulary for the octant index functions -/

/-- Three cells in a row along `x`, the two outer ones foreground and the
middle one background. -/
def gapVolume : Volume := volumeOf 3 1 1 [(0, 0, 0), (2, 0, 0)]

/-- The non-centre positions of the 2x2x2 corner sub-cube of the 3x3x3 block
that lies towards `(dx, dy, dz)`: every offset component is 0 or that of the
corner. East is `dx = 1`, west `dx = -1`, north `dy = -1`, south `dy = 1`,
up `dz = 1`, bottom `dz = -1`. -/
def octantPositions (dx dy dz : Int) : List Nat :=
  neighbourIndices.filter fun i =>
    decide (((offset i).1 = 0 ∨ (offset i).1 = dx) ∧ ((offset i).2.1 = 0 ∨ (offset i).2.1 = dy) ∧
      ((offset i).2.2 = 0 ∨ (offset i).2.2 = dz))

/-- One plus the sum of the weights of the listed (position, weight) pairs
whose position holds a non-zero entry. -/
def weightedSum (n : List Int) (ps : List (Nat × Nat)) : Nat :=
  1 + (ps.map fun q => if n.getD q.1 0 ≠ 0 then q.2 else 0).sum

/-- The function `f` is one plus a weighted sum over seven distinct positions
with distinct weights from 2, 4, .., 128, and the positions are those of the
corner sub-cube towards `(dx, dy, dz)`. -/
def ReadsOctant (f : List Int → Nat) (dx dy dz : Int) : Prop :=
  ∃ ps : List (Nat × Nat), ps.length = 7 ∧ (ps.map Prod.fst).Nodup ∧ (ps.map Prod.snd).Nodup ∧
    (∀ q ∈ ps, q.2 ∈ [2, 4, 8, 16, 32, 64, 128]) ∧
    (∀ i, i ∈ ps.map Prod.fst ↔ i ∈ octantPositions dx dy dz) ∧
    ∀ n, f n = weightedSum n ps

/-! ### Euler characteristic of the foreground of a grid

The cubical complex of the whole grid in doubled coordinates: voxel `(x,y,z)`
occupies `2x..2x+2` on each axis, and the number of odd coordinates of a cell
is its dimension. -/

/-- All cells of the cubical complex of a grid with the given extents. -/
def gridCells (X Y Z : Nat) : List Cell :=
  (List.range (2 * X + 1)).flatMap fun a =>
    (List.range (2 * Y + 1)).flatMap fun b => (List.range (2 * Z + 1)).map fun c => (a, b, c)

/-- The closed unit cube of the voxel `p` contains the cell `q`. -/
def pointHasCell (p : Point) (q : Cell) : Bool :=
  decide (2 * p.1 ≤ q.1 ∧ (q.1 : Int) ≤ 2 * p.1 + 2 ∧ 2 * p.2.1 ≤ q.2.1 ∧
    (q.2.1 : Int) ≤ 2 * p.2.1 + 2 ∧ 2 * p.2.2 ≤ q.2.2 ∧ (q.2.2 : Int) ≤ 2 * p.2.2 + 2)

/-- The cell lies in the union of the closed cubes of the listed voxels. -/
def gridCovered (fg : List Point) (q : Cell) : Bool := fg.any fun p => pointHasCell p q

/-- Number of cells of dimension `d` of the union of the foreground voxels. -/
def gridCountCells (v : Volume) (d : Nat) : Nat :=
  (gridCells v.X v.Y v.Z).countP fun q =>
    decide (cellDim q = d) && gridCovered (foregroundCells v) q

/-- Euler characteristic of the foreground of the grid, the voxels taken as
closed unit cubes: vertices - edges + faces - cubes. -/
def gridEulerCharacteristic (v : Volume) : Int :=
  (gridCountCells v 0 : Int) - gridCountCells v 1 + gridCountCells v 2 - gridCountCells v 3

/-! ### Box-shaped foregrounds

A foreground that is a solid axis-parallel box `lo ≤ p ≤ hi`. The 3x3x3
neighbourhood of a voxel of the box is determined by six flags: whether the
box continues below and above the voxel on each axis. -/

/-- Coordinate `k` (0, 1, 2 for offsets -1, 0, 1) of an axis is inside the
box, given whether the box continues below (`m`) and above (`p`). -/
def sideOK (k : Nat) (m p : Bool) : Bool :=
  match k with
  | 0 => m
  | 1 => true
  | _ => p

/-- Entry `i` of the neighbourhood of a box voxel with the given flags. -/
def boxEntry (xm xp ym yp zm zp : Bool) (i : Nat) : Int :=
  if sideOK (i % 3) xm xp && sideOK (i / 3 % 3) ym yp && sideOK (i / 9) zm zp then 1 else 0

/-- The neighbourhood of a box voxel with the given flags. -/
def boxPattern (xm xp ym yp zm zp : Bool) : List Int :=
  (List.range 27).map (boxEntry xm xp ym yp zm zp)

/-- On some axis the box continues on exactly one side of the voxel. -/
def oneSided (xm xp ym yp zm zp : Bool) : Bool := (xm != xp) || (ym != yp) || (zm != zp)

/-- Number of sides on which the box continues. -/
def flagCount (xm xp ym yp zm zp : Bool) : Nat :=
  xm.toNat + xp.toNat + ym.toNat + yp.toNat + zm.toNat + zp.toNat

/-- The box does not continue in the direction `b` of the pass (1 = N, `y-1`;
2 = S, `y+1`; 3 = E, `x+1`; 4 = W, `x-1`; 5 = U, `z+1`; 6 = B, `z-1`). -/
def borderFlag (b : Nat) (xm xp ym yp zm zp : Bool) : Bool :=
  (b == 1 && !ym) || (b == 2 && !yp) || (b == 3 && !xp) || (b == 4 && !xm) ||
  (b == 5 && !zp) || (b == 6 && !zm)

/-- The point lies in the box `lo ≤ p ≤ hi`. -/
def InBox (lo hi p : Point) : Prop :=
  lo.1 ≤ p.1 ∧ p.1 ≤ hi.1 ∧ lo.2.1 ≤ p.2.1 ∧ p.2.1 ≤ hi.2.1 ∧ lo.2.2 ≤ p.2.2 ∧ p.2.2 ≤ hi.2.2

/-- The foreground of the volume is exactly the box `lo ≤ p ≤ hi`. -/
def IsBox (v : Volume) (lo hi : Point) : Prop :=
  ∀ p : Point, Foreground v p ↔ InBox lo hi p

/-- Boolean test that position `h` holds 1 and every other non-centre
position holding 1 is 26-adjacent to it. -/
def hubOK (n : List Int) (h : Nat) : Bool :=
  decide (n.getD h 0 = 1) &&
    (List.range 27).all fun j =>
      decide (j = 13) || decide (n.getD j 0 ≠ 1) || decide (j = h) ||
        decide (Adj26 (offset j) (offset h))

/-- The voxel `k` steps from `p` along the axis (0 = x, 1 = y, otherwise z). -/
def rodPoint (p : Point) (axis k : Nat) : Point :=
  match axis with
  | 0 => (p.1 + k, p.2.1, p.2.2)
  | 1 => (p.1, p.2.1 + k, p.2.2)
  | _ => (p.1, p.2.1, p.2.2 + k)

/-- The foreground of the volume is exactly the straight, one voxel wide rod
of `n` consecutive voxels starting at `p` along the axis. -/
def IsRod (v : Volume) (p : Point) (axis n : Nat) : Prop :=
  ∀ q : Point, Foreground v q ↔ ∃ k, k < n ∧ q = rodPoint p axis k

/-- A rod of five voxels along `x` filling a 5x1x1 grid. -/
def rodVolume : Volume := volumeOf 5 1 1 [(0, 0, 0), (1, 0, 0), (2, 0, 0), (3, 0, 0), (4, 0, 0)]

instance instDecidableInBox (lo hi p : Point) : Decidable (InBox lo hi p) := by
  unfold InBox; infer_instance

/-- The cells of the volume are 0 or 1 and its foreground is the box. -/
def BoxState (lo hi : Point) (w : Volume) : Prop := Binary w ∧ IsBox w lo hi

/-- The 5x5x5 grid in which every cell is 1. -/
def cubeVolume : Volume := { X := 5, Y := 5, Z := 5, cell := fun _ _ _ => 1 }

/-! ### The states of the loop and the directions -/

/-- The volumes on which the iterations of the `while` loop start, in order,
for a run with the given fuel. -/
def loopStates : Nat → Volume → List Volume
  | 0, _ => []
  | fuel + 1, vol =>
    vol :: (if (iteration vol).2 < 6 then loopStates fuel (iteration vol).1 else [])

/-- The neighbour of `p` in the direction of pass `b` (1 = N, `y-1`; 2 = S,
`y+1`; 3 = E, `x+1`; 4 = W, `x-1`; 5 = U, `z+1`; otherwise B, `z-1`). -/
def towards (b : Nat) (p : Point) : Point :=
  match b with
  | 1 => (p.1, p.2.1 - 1, p.2.2)
  | 2 => (p.1, p.2.1 + 1, p.2.2)
  | 3 => (p.1 + 1, p.2.1, p.2.2)
  | 4 => (p.1 - 1, p.2.1, p.2.2)
  | 5 => (p.1, p.2.1, p.2.2 + 1)
  | _ => (p.1, p.2.1, p.2.2 - 1)

/-- The function `f` depends only on the non-centre positions of the corner
sub-cube towards `(dx, dy, dz)`, and it reads the corner position `c` of that
sub-cube with weight 128. -/
def ReadsCorner (f : List Int → Nat) (dx dy dz : Int) (c : Nat) : Prop :=
  offset c = (dx, dy, dz) ∧ c ∈ octantPositions dx dy dz ∧ 13 ∉ octantPositions dx dy dz ∧
  (∀ n n' : List Int, (∀ i ∈ octantPositions dx dy dz, (n.getD i 0 ≠ 0 ↔ n'.getD i 0 ≠ 0)) →
    f n = f n') ∧
  (∀ n : List Int, 128 ≤ f n ↔ n.getD c 0 ≠ 0)

/-! ### Vocabulary for `lee` -/

/-- A 2x1x1 grid holding the values 7 and 0. -/
def grayVolume : Volume := { X := 2, Y := 1, Z := 1, cell := fun x _ _ => if x = 0 then 7 else 0 }

/-- The binarisation of a grid: every cell inside the extents becomes 1 if it
was non-zero and 0 otherwise. -/
def binarise (v : Volume) : Volume :=
  { v with cell := fun a b c =>
      if InRange v (a, b, c) then (if v.cell a b c ≠ 0 then 1 else 0) else v.cell a b c }

/-! ## Grid access lemmas -/

theorem mem_scanOrder (vol : Volume) (p : Point) :
    p ∈ scanOrder vol ↔ InRange vol p := by
  obtain ⟨a, b, c⟩ := p
  unfold scanOrder InRange
  constructor
  · intro h
    obtain ⟨z, hz, h⟩ := List.mem_flatMap.1 h
    obtain ⟨y, hy, h⟩ := List.mem_flatMap.1 h
    obtain ⟨x, hx, h⟩ := List.mem_map.1 h
    rw [List.mem_range] at hx hy hz
    simp only [Prod.mk.injEq] at h
    obtain ⟨rfl, rfl, rfl⟩ := h
    dsimp only
    omega
  · rintro ⟨h1, h2, h3, h4, h5, h6⟩
    dsimp only at h1 h2 h3 h4 h5 h6
    refine List.mem_flatMap.2 ⟨c.toNat, List.mem_range.2 (by omega), ?_⟩
    refine List.mem_flatMap.2 ⟨b.toNat, List.mem_range.2 (by omega), ?_⟩
    refine List.mem_map.2 ⟨a.toNat, List.mem_range.2 (by omega), ?_⟩
    simp only [Int.toNat_of_nonneg, h1, h3, h5]
theorem set_pixel_X (v : Volume) (x y z c : Int) : (set_pixel v x y z c).X = v.X := by
  unfold set_pixel; split <;> rfl

theorem set_pixel_Y (v : Volume) (x y z c : Int) : (set_pixel v x y z c).Y = v.Y := by
  unfold set_pixel; split <;> rfl

theorem set_pixel_Z (v : Volume) (x y z c : Int) : (set_pixel v x y z c).Z = v.Z := by
  unfold set_pixel; split <;> rfl

theorem set_pixel_cell (v : Volume) (x y z c a b d : Int) :
    (set_pixel v x y z c).cell a b d = v.cell a b d ∨
      ((set_pixel v x y z c).cell a b d = c ∧ a = x ∧ b = y ∧ d = z ∧ InRange v (x, y, z)) := by
  unfold set_pixel
  split
  · rename_i h
    by_cases hq : a = x ∧ b = y ∧ d = z
    · right
      simp only [hq, and_self, if_true, true_and]
      exact ⟨h.1, h.2.1, h.2.2.1, h.2.2.2.1, h.2.2.2.2.1, h.2.2.2.2.2⟩
    · left
      simp only [hq, if_false]
  · left; rfl

theorem set_pixel_cell_self (v : Volume) (x y z c : Int) (h : InRange v (x, y, z)) :
    (set_pixel v x y z c).cell x y z = c := by
  have h' : x ≥ 0 ∧ x < v.X ∧ y ≥ 0 ∧ y < v.Y ∧ z ≥ 0 ∧ z < v.Z := h
  simp [set_pixel, h']

theorem scanOrder_congr (v w : Volume) (hX : w.X = v.X) (hY : w.Y = v.Y) (hZ : w.Z = v.Z) :
    scanOrder w = scanOrder v := by
  simp [scanOrder, hX, hY, hZ]

theorem countP_le_of_imp {α : Type} (l : List α) (p q : α → Bool)
    (h : ∀ x ∈ l, p x = true → q x = true) : l.countP p ≤ l.countP q := by
  induction l with
  | nil => simp
  | cons a t ih =>
    have iht := ih (fun x hx => h x (List.mem_cons_of_mem _ hx))
    have ha := h a (List.mem_cons_self _ _)
    simp only [List.countP_cons]
    by_cases hp : p a = true
    · simp [hp, ha hp]; exact iht
    · simp [hp]; split <;> omega

theorem countP_lt_of_imp {α : Type} (l : List α) (p q : α → Bool)
    (h : ∀ x ∈ l, p x = true → q x = true) (a : α) (ha : a ∈ l) (hq : q a = true)
    (hp : p a = false) : l.countP p < l.countP q := by
  induction l with
  | nil => simp at ha
  | cons b t ih =>
    simp only [List.countP_cons]
    have hle := countP_le_of_imp t p q (fun x hx => h x (List.mem_cons_of_mem _ hx))
    rcases List.mem_cons.1 ha with rfl | hat
    · simp [hp, hq]; omega
    · have iht := ih (fun x hx => h x (List.mem_cons_of_mem _ hx)) hat
      have hb := h b (List.mem_cons_self _ _)
      by_cases hpb : p b = true
      · simp [hpb, hb hpb]; exact iht
      · simp [hpb]; split <;> omega

/-- Deleting a cell never increases the number of foreground cells. -/
theorem countForeground_set_le (v : Volume) (x y z : Int) :
    countForeground (set_pixel v x y z 0) ≤ countForeground v := by
  unfold countForeground
  rw [scanOrder_congr v (set_pixel v x y z 0) (set_pixel_X ..) (set_pixel_Y ..) (set_pixel_Z ..)]
  apply countP_le_of_imp
  intro p _ hp
  simp only [decide_eq_true_eq] at hp ⊢
  rcases set_pixel_cell v x y z 0 p.1 p.2.1 p.2.2 with h | h
  · rw [← h]; exact hp
  · rw [h.1] at hp; exact absurd hp (by decide)

/-- Deleting a foreground cell inside the extents decreases the count. -/
theorem countForeground_set_lt (v : Volume) (x y z : Int) (hr : InRange v (x, y, z))
    (h1 : v.cell x y z = 1) :
    countForeground (set_pixel v x y z 0) < countForeground v := by
  unfold countForeground
  rw [scanOrder_congr v (set_pixel v x y z 0) (set_pixel_X ..) (set_pixel_Y ..) (set_pixel_Z ..)]
  apply countP_lt_of_imp _ _ _ _ (x, y, z) ((mem_scanOrder v _).2 hr)
  · simpa using h1
  · simp [set_pixel_cell_self v x y z 0 hr]
  · intro p _ hp
    simp only [decide_eq_true_eq] at hp ⊢
    rcases set_pixel_cell v x y z 0 p.1 p.2.1 p.2.2 with h | h
    · rw [← h]; exact hp
    · rw [h.1] at hp; exact absurd hp (by decide)


/-! ## The driver: candidates, passes, iterations -/

theorem isCandidate_cell (vol : Volume) (b : Nat) (p : Point) (h : isCandidate vol b p = true) :
    vol.cell p.1 p.2.1 p.2.2 = 1 := by
  unfold isCandidate get_pixel_nocheck at h
  by_contra hne
  simp [hne] at h

theorem isCandidate_not_endpoint (vol : Volume) (b : Nat) (p : Point)
    (h : isCandidate vol b p = true) : is_endpoint vol p.1 p.2.1 p.2.2 = false := by
  unfold isCandidate at h
  split at h
  · exact absurd h (by decide)
  · split at h
    · exact absurd h (by decide)
    · split at h
      · exact absurd h (by decide)
      · rename_i h3; simpa using h3

theorem isCandidate_euler (vol : Volume) (b : Nat) (p : Point)
    (h : isCandidate vol b p = true) :
    is_euler_invariant (toU8 (get_neighborhood vol p.1 p.2.1 p.2.2)) fill_euler_LUT = true := by
  unfold isCandidate at h
  split at h
  · exact absurd h (by decide)
  · split at h
    · exact absurd h (by decide)
    · split at h
      · exact absurd h (by decide)
      · split at h
        · exact absurd h (by decide)
        · rename_i h4; simpa using h4

theorem mem_collectCandidates (vol : Volume) (b : Nat) (p : Point) :
    p ∈ collectCandidates vol b ↔ InRange vol p ∧ isCandidate vol b p = true := by
  unfold collectCandidates
  rw [List.mem_filter, mem_scanOrder]

/-- Invariants of the re-checking loop: a property kept by every deletion
the loop can perform is kept by the loop. -/
theorem recheck_fold_induct (P : Volume → Prop) (cs : List Point)
    (hdel : ∀ v p, p ∈ cs → P v →
      is_simple_point (toU8 (get_neighborhood v p.1 p.2.1 p.2.2)) = true →
      P (set_pixel v p.1 p.2.1 p.2.2 0)) :
    ∀ st : Volume × Bool, P st.1 → P (cs.foldl recheckStep st).1 := by
  induction cs with
  | nil => intro st h; exact h
  | cons p t ih =>
    intro st h
    rw [List.foldl_cons]
    apply ih (fun v q hq => hdel v q (List.mem_cons_of_mem _ hq))
    unfold recheckStep
    split
    · rename_i hs
      exact hdel st.1 p (List.mem_cons_self _ _) h hs
    · exact h

theorem borderPass_induct (P : Volume → Prop) (vol : Volume) (b : Nat)
    (hdel : ∀ v p, p ∈ collectCandidates vol b → P v →
      is_simple_point (toU8 (get_neighborhood v p.1 p.2.1 p.2.2)) = true →
      P (set_pixel v p.1 p.2.1 p.2.2 0))
    (h : P vol) : P (borderPass vol b).1 :=
  recheck_fold_induct P _ hdel (vol, true) h

theorem recheck_fold_count (vol : Volume) (cs : List Point)
    (hcs : ∀ p ∈ cs, InRange vol p ∧ vol.cell p.1 p.2.1 p.2.2 = 1) :
    ∀ st : Volume × Bool, (st.2 = true → st.1 = vol) →
      (st.2 = false → countForeground st.1 < countForeground vol) →
      ((cs.foldl recheckStep st).2 = true → (cs.foldl recheckStep st).1 = vol) ∧
      ((cs.foldl recheckStep st).2 = false →
        countForeground (cs.foldl recheckStep st).1 < countForeground vol) := by
  induction cs with
  | nil => intro st h1 h2; exact ⟨h1, h2⟩
  | cons p t ih =>
    intro st h1 h2
    rw [List.foldl_cons]
    apply ih (fun q hq => hcs q (List.mem_cons_of_mem _ hq))
    · unfold recheckStep
      split
      · intro hc; exact Bool.noConfusion hc
      · exact h1
    · unfold recheckStep
      split
      · intro _
        obtain ⟨hr, hc⟩ := hcs p (List.mem_cons_self _ _)
        cases hst : st.2 with
        | true =>
          rw [h1 hst]
          exact countForeground_set_lt vol _ _ _ hr hc
        | false =>
          exact lt_of_le_of_lt (countForeground_set_le _ _ _ _) (h2 hst)
      · exact h2

/-- A pass that reports `noChange` returns the volume it was given. -/
theorem borderPass_noChange (vol : Volume) (b : Nat) (h : (borderPass vol b).2 = true) :
    (borderPass vol b).1 = vol :=
  (recheck_fold_count vol (collectCandidates vol b)
    (fun p hp => ⟨((mem_collectCandidates vol b p).1 hp).1,
      isCandidate_cell vol b p ((mem_collectCandidates vol b p).1 hp).2⟩)
    (vol, true) (fun _ => rfl) (fun hc => Bool.noConfusion hc)).1 h

/-- A pass that reports a change has deleted at least one foreground voxel. -/
theorem borderPass_change (vol : Volume) (b : Nat) (h : (borderPass vol b).2 = false) :
    countForeground (borderPass vol b).1 < countForeground vol :=
  (recheck_fold_count vol (collectCandidates vol b)
    (fun p hp => ⟨((mem_collectCandidates vol b p).1 hp).1,
      isCandidate_cell vol b p ((mem_collectCandidates vol b p).1 hp).2⟩)
    (vol, true) (fun _ => rfl) (fun hc => Bool.noConfusion hc)).2 h

theorem borderStep_fold_spec (dirs : List Nat) :
    ∀ st : Volume × Nat,
      (dirs.foldl borderStep st).2 ≤ st.2 + dirs.length ∧
      countForeground (dirs.foldl borderStep st).1 ≤ countForeground st.1 ∧
      ((dirs.foldl borderStep st).2 = st.2 + dirs.length → (dirs.foldl borderStep st).1 = st.1) ∧
      ((dirs.foldl borderStep st).2 < st.2 + dirs.length →
        countForeground (dirs.foldl borderStep st).1 < countForeground st.1) := by
  induction dirs with
  | nil => intro st; simp
  | cons b t ih =>
    intro st
    rw [List.foldl_cons]
    obtain ⟨i1, i2, i3, i4⟩ := ih (borderStep st b)
    simp only [List.length_cons]
    cases hnc : (borderPass st.1 b).2 with
    | true =>
      have hv : (borderStep st b).1 = st.1 := by
        simp only [borderStep]; exact borderPass_noChange _ _ hnc
      have hu : (borderStep st b).2 = st.2 + 1 := by
        simp only [borderStep, hnc, if_true]
      simp only [hv, hu] at i1 i2 i3 i4
      refine ⟨by omega, i2, fun h => ?_, fun h => ?_⟩
      · rw [i3 (by omega)]
      · exact i4 (by omega)
    | false =>
      have hv : countForeground (borderStep st b).1 < countForeground st.1 := by
        simp only [borderStep]; exact borderPass_change _ _ hnc
      have hu : (borderStep st b).2 = st.2 := by
        simp [borderStep, hnc]
      simp only [hu] at i1 i3 i4
      refine ⟨by omega, by omega, fun h => ?_, fun _ => by omega⟩
      omega

theorem iteration_le (vol : Volume) : (iteration vol).2 ≤ 6 := by
  have h := (borderStep_fold_spec [1, 2, 3, 4, 5, 6] (vol, 0)).1
  simpa [iteration] using h

/-- An iteration that does not end the loop deleted at least one voxel. -/
theorem iteration_change (vol : Volume) (h : (iteration vol).2 < 6) :
    countForeground (iteration vol).1 < countForeground vol := by
  have h4 := (borderStep_fold_spec [1, 2, 3, 4, 5, 6] (vol, 0)).2.2.2
  exact h4 (by simpa [iteration] using h)

/-- The iteration that ends the loop left the volume as it was. -/
theorem iteration_noChange (vol : Volume) (h : ¬ (iteration vol).2 < 6) :
    iteration vol = (vol, 6) := by
  have h3 := (borderStep_fold_spec [1, 2, 3, 4, 5, 6] (vol, 0)).2.2.1
  have hle := iteration_le vol
  have h6 : (iteration vol).2 = 6 := by omega
  have hv : (iteration vol).1 = vol := h3 (by simpa [iteration] using h6)
  exact Prod.ext hv h6

theorem iteration_induct (P : Volume → Prop) (hpass : ∀ v b, P v → P (borderPass v b).1)
    (vol : Volume) (h : P vol) : P (iteration vol).1 := by
  have : ∀ (dirs : List Nat) (st : Volume × Nat), P st.1 → P (dirs.foldl borderStep st).1 := by
    intro dirs
    induction dirs with
    | nil => intro st h; exact h
    | cons b t ih =>
      intro st h
      rw [List.foldl_cons]
      exact ih _ (hpass _ _ h)
  exact this _ (vol, 0) h

theorem thinLoop_succ (f : Nat) (vol : Volume) (it : Nat) :
    thinLoop (f + 1) vol it =
      if (iteration vol).2 < 6 then thinLoop f (iteration vol).1 (it + 1)
      else some ((iteration vol).1, it + 1) := rfl

/-- The loop returns within `countForeground vol + 1` iterations, and the
volume it returns is unchanged by one more iteration. -/
theorem thinLoop_spec : ∀ (fuel : Nat) (vol : Volume) (it : Nat),
    countForeground vol < fuel →
    ∃ v k, thinLoop fuel vol it = some (v, it + k) ∧ 1 ≤ k ∧ k ≤ countForeground vol + 1 ∧
      iteration v = (v, 6) := by
  intro fuel
  induction fuel with
  | zero => intro vol it h; exact absurd h (Nat.not_lt_zero _)
  | succ f ih =>
    intro vol it h
    rw [thinLoop_succ]
    by_cases hu : (iteration vol).2 < 6
    · have hc := iteration_change vol hu
      obtain ⟨v, k, h1, h2, h3, h4⟩ := ih (iteration vol).1 (it + 1) (by omega)
      refine ⟨v, k + 1, ?_, by omega, by omega, h4⟩
      simp only [hu, if_true]
      rw [h1]; congr 2; omega
    · have he := iteration_noChange vol hu
      refine ⟨vol, 1, ?_, le_refl _, by omega, he⟩
      simp only [hu, if_false]
      rw [he]

/-- Any fuel above the foreground count gives the same result. -/
theorem thinLoop_fuel (vol : Volume) (it fuel : Nat) (h : countForeground vol < fuel) :
    thinLoop fuel vol it = thinLoop (countForeground vol + 1) vol it := by
  have key : ∀ (f1 : Nat) (v : Volume) (i f2 : Nat), countForeground v < f1 →
      countForeground v < f2 → thinLoop f1 v i = thinLoop f2 v i := by
    intro f1
    induction f1 with
    | zero => intro v i f2 h; exact absurd h (Nat.not_lt_zero _)
    | succ f ih =>
      intro v i f2 h1 h2
      cases f2 with
      | zero => exact absurd h2 (Nat.not_lt_zero _)
      | succ g =>
        rw [thinLoop_succ, thinLoop_succ]
        by_cases hu : (iteration v).2 < 6
        · have hc := iteration_change v hu
          simp only [hu, if_true]
          exact ih _ _ _ (by omega) (by omega)
        · simp only [hu, if_false]
  exact key _ _ _ _ h (Nat.lt_succ_self _)

theorem thinLoop_induct (P : Volume → Prop) (hpass : ∀ v b, P v → P (borderPass v b).1) :
    ∀ (fuel : Nat) (vol : Volume) (it : Nat) (r : Volume × Nat), P vol →
      thinLoop fuel vol it = some r → P r.1 := by
  intro fuel
  induction fuel with
  | zero => intro vol it r _ h; simp [thinLoop] at h
  | succ f ih =>
    intro vol it r hP h
    rw [thinLoop_succ] at h
    have hi := iteration_induct P hpass vol hP
    generalize iteration vol = r0 at h hi
    by_cases hu : r0.2 < 6
    · simp only [hu, if_true] at h
      exact ih _ _ _ hi h
    · simp only [hu, if_false, Option.some.injEq] at h
      subst h; exact hi

/-- What `computeThinImage` returns, in terms of the loop. -/
theorem computeThinImageIter_spec (vol : Volume) :
    ∃ k, thinLoop (countForeground vol + 1) vol 0 = some (computeThinImage vol, k) ∧
      (computeThinImageIter vol).2 = k ∧ 1 ≤ k ∧ k ≤ countForeground vol + 1 ∧
      iteration (computeThinImage vol) = (computeThinImage vol, 6) := by
  obtain ⟨v, k, h1, h2, h3, h4⟩ := thinLoop_spec (countForeground vol + 1) vol 0 (Nat.lt_succ_self _)
  have hr : computeThinImageIter vol = (v, 0 + k) := by
    unfold computeThinImageIter; rw [h1]; rfl
  have hv : computeThinImage vol = v := by
    unfold computeThinImage; rw [hr]
  refine ⟨0 + k, ?_, ?_, by omega, by omega, ?_⟩
  · rw [hv]; exact h1
  · rw [hr]
  · rw [hv]; exact h4

/-- Induction principle for the whole run: a property of the volume that
every directional pass preserves holds of the result. -/
theorem computeThinImage_induct (P : Volume → Prop)
    (hpass : ∀ v b, P v → P (borderPass v b).1) (vol : Volume) (h : P vol) :
    P (computeThinImage vol) := by
  obtain ⟨k, h1, _⟩ := computeThinImageIter_spec vol
  generalize computeThinImage vol = w at h1 ⊢
  exact thinLoop_induct P hpass _ vol 0 (w, k) h h1


/-! ## Neighbourhoods and the endpoint test -/

theorem get_neighborhood_getD (vol : Volume) (x y z : Int) (i : Nat) (hi : i < 27) :
    (get_neighborhood vol x y z).getD i 0 =
      get_pixel vol (shift (x, y, z) i).1 (shift (x, y, z) i).2.1 (shift (x, y, z) i).2.2 := by
  interval_cases i <;>
    simp [get_neighborhood, shift, offset, Int.add_neg_one]
theorem shift_centre (p : Point) : shift p 13 = p := by
  simp [shift, offset]

theorem foldl_count_range (p : Nat → Prop) [DecidablePred p] (n : Nat) (c0 : Int) :
    (List.range n).foldl (fun c i => if p i then c + 1 else c) c0 =
      c0 + ((List.range n).countP (fun i => decide (p i)) : Nat) := by
  induction n with
  | zero => simp
  | succ k ih =>
    rw [List.range_succ, List.foldl_append, ih, List.countP_append]
    by_cases h : p k
    · simp [h]; ring
    · simp [h]

theorem mem_neighbourIndices (i : Nat) : i ∈ neighbourIndices ↔ i < 27 ∧ i ≠ 13 := by
  simp [neighbourIndices]

/-- The counter of `is_endpoint` is the centre plus the 26 neighbours, minus one. -/
theorem is_endpoint_eq (vol : Volume) (x y z : Int) :
    is_endpoint vol x y z =
      decide ((if get_pixel vol x y z = 1 then 1 else 0) + neighbourCount vol (x, y, z) = 2) := by
  unfold is_endpoint
  simp only
  rw [foldl_count_range (fun i => (get_neighborhood vol x y z).getD i 0 = 1) 27 (-1)]
  have hsplit := List.countP_eq_countP_filter_add (List.range 27)
    (fun i => decide ((get_neighborhood vol x y z).getD i 0 = 1)) (fun i => decide (i ≠ 13))
  have h13 : (List.range 27).filter (fun a => !decide (a ≠ 13)) = [13] := by decide
  have hnb : ((List.range 27).filter (fun i => decide (i ≠ 13))).countP
      (fun i => decide ((get_neighborhood vol x y z).getD i 0 = 1)) = neighbourCount vol (x, y, z) := by
    unfold neighbourCount neighbourIndices
    apply List.countP_congr
    intro i hi
    have hi' : i < 27 := by
      have := (List.mem_filter.1 hi).1
      exact List.mem_range.1 this
    rw [get_neighborhood_getD vol x y z i hi']
  rw [h13, hnb] at hsplit
  rw [hsplit]
  have hc : (get_neighborhood vol x y z).getD 13 0 = get_pixel vol x y z := by
    rw [get_neighborhood_getD vol x y z 13 (by decide), shift_centre]
  simp only [List.countP_cons, List.countP_nil, hc, decide_eq_true_eq]
  by_cases h1 : get_pixel vol x y z = 1
  · simp only [h1, if_true]
    congr 1
    apply propext
    push_cast
    constructor <;> intro h <;> omega
  · simp only [h1, if_false]
    congr 1
    apply propext
    push_cast
    constructor <;> intro h <;> omega

theorem is_endpoint_of_count_one (vol : Volume) (p : Point) (hf : Foreground vol p)
    (h : neighbourCount vol p = 1) : is_endpoint vol p.1 p.2.1 p.2.2 = true := by
  rw [is_endpoint_eq]
  have hf' : get_pixel vol p.1 p.2.1 p.2.2 = 1 := hf
  simp [hf', h]


/-! ## Frame properties of the driver -/

theorem Shrinks.same (vol : Volume) : Shrinks vol vol :=
  ⟨rfl, rfl, rfl, fun _ _ _ => Or.inl rfl⟩

theorem Shrinks.chain {u v w : Volume} (h1 : Shrinks u v) (h2 : Shrinks v w) : Shrinks u w := by
  obtain ⟨a1, a2, a3, a4⟩ := h1
  obtain ⟨b1, b2, b3, b4⟩ := h2
  refine ⟨b1.trans a1, b2.trans a2, b3.trans a3, fun a b c => ?_⟩
  rcases b4 a b c with h | h
  · rcases a4 a b c with h' | h'
    · left; rw [h, h']
    · right; rw [h, h']
  · right; exact h

theorem Shrinks.of_delete (v : Volume) (x y z : Int) : Shrinks v (set_pixel v x y z 0) := by
  refine ⟨set_pixel_X .., set_pixel_Y .., set_pixel_Z .., fun a b c => ?_⟩
  rcases set_pixel_cell v x y z 0 a b c with h | h
  · left; exact h
  · right; exact h.1

theorem get_pixel_congr (u v : Volume) (hX : v.X = u.X) (hY : v.Y = u.Y) (hZ : v.Z = u.Z)
    (x y z : Int) (hc : v.cell x y z = u.cell x y z) : get_pixel v x y z = get_pixel u x y z := by
  unfold get_pixel
  rw [hX, hY, hZ, hc]

theorem Shrinks.pixel {u v : Volume} (h : Shrinks u v) (x y z : Int) :
    get_pixel v x y z = get_pixel u x y z ∨ get_pixel v x y z = 0 := by
  obtain ⟨a1, a2, a3, a4⟩ := h
  unfold Lee94.get_pixel
  rw [a1, a2, a3]
  split
  · exact a4 x y z
  · left; rfl

theorem Shrinks.foreground_of {u v : Volume} (h : Shrinks u v) (p : Point) (hp : Foreground v p) :
    Foreground u p := by
  unfold Foreground at hp ⊢
  rcases h.pixel p.1 p.2.1 p.2.2 with h' | h'
  · rw [← h']; exact hp
  · rw [h'] at hp; exact absurd hp (by decide)

theorem Shrinks.binary_of {u v : Volume} (h : Shrinks u v) (hb : Binary u) : Binary v := by
  obtain ⟨a1, a2, a3, a4⟩ := h
  intro x y z h1 h2 h3 h4 h5 h6
  rw [a1] at h2; rw [a2] at h4; rw [a3] at h6
  rcases a4 x y z with h' | h'
  · rw [h']; exact hb x y z h1 h2 h3 h4 h5 h6
  · left; exact h'

theorem Shrinks.count_le {u v : Volume} (h : Shrinks u v) (p : Point) :
    neighbourCount v p ≤ neighbourCount u p := by
  unfold Lee94.neighbourCount
  apply countP_le_of_imp
  intro i _ hi
  simp only [decide_eq_true_eq] at hi ⊢
  exact h.foreground_of (shift p i) hi

theorem Binary.pixel01 {v : Volume} (hb : Binary v) (x y z : Int) :
    get_pixel v x y z = 0 ∨ get_pixel v x y z = 1 := by
  unfold Lee94.get_pixel
  split
  · rename_i h
    exact hb x y z h.1 h.2.1 h.2.2.1 h.2.2.2.1 h.2.2.2.2.1 h.2.2.2.2.2
  · left; rfl

theorem Foreground.inRange {v : Volume} {p : Point} (h : Foreground v p) : InRange v p := by
  unfold Foreground get_pixel at h
  split at h
  · rename_i hr; exact hr
  · exact absurd h (by decide)

theorem Foreground.cell_eq {v : Volume} {p : Point} (h : Foreground v p) :
    v.cell p.1 p.2.1 p.2.2 = 1 := by
  unfold Foreground get_pixel at h
  split at h
  · exact h
  · exact absurd h (by decide)

theorem foreground_iff (v : Volume) (p : Point) :
    Foreground v p ↔ InRange v p ∧ v.cell p.1 p.2.1 p.2.2 = 1 := by
  constructor
  · intro h; exact ⟨h.inRange, h.cell_eq⟩
  · rintro ⟨hr, hc⟩
    have hr' : p.1 ≥ 0 ∧ p.1 < v.X ∧ p.2.1 ≥ 0 ∧ p.2.1 < v.Y ∧ p.2.2 ≥ 0 ∧ p.2.2 < v.Z := hr
    simp [Foreground, Lee94.get_pixel, hr', hc]

/-- What one directional pass can change: only candidates of its scan, and
only to 0. -/
theorem borderPass_frame (vol : Volume) (b : Nat) :
    (borderPass vol b).1.X = vol.X ∧ (borderPass vol b).1.Y = vol.Y ∧
    (borderPass vol b).1.Z = vol.Z ∧
    ∀ x y z : Int, (borderPass vol b).1.cell x y z = vol.cell x y z ∨
      ((borderPass vol b).1.cell x y z = 0 ∧ (x, y, z) ∈ collectCandidates vol b) := by
  apply borderPass_induct
    (fun v => v.X = vol.X ∧ v.Y = vol.Y ∧ v.Z = vol.Z ∧
      ∀ x y z : Int, v.cell x y z = vol.cell x y z ∨
        (v.cell x y z = 0 ∧ (x, y, z) ∈ collectCandidates vol b)) vol b
  · intro v p hp ⟨h1, h2, h3, h4⟩ _
    refine ⟨(set_pixel_X ..).trans h1, (set_pixel_Y ..).trans h2, (set_pixel_Z ..).trans h3, ?_⟩
    intro x y z
    rcases set_pixel_cell v p.1 p.2.1 p.2.2 0 x y z with h | h
    · rw [h]; exact h4 x y z
    · right
      obtain ⟨e0, e1, e2, e3, _⟩ := h
      refine ⟨e0, ?_⟩
      rw [e1, e2, e3]; exact hp
  · exact ⟨rfl, rfl, rfl, fun _ _ _ => Or.inl rfl⟩

theorem borderPass_shrinks (vol : Volume) (b : Nat) : Shrinks vol (borderPass vol b).1 := by
  obtain ⟨h1, h2, h3, h4⟩ := borderPass_frame vol b
  exact ⟨h1, h2, h3, fun a b c => (h4 a b c).imp id (fun h => h.1)⟩

/-- A voxel that is not a candidate of the scan keeps its value in the pass. -/
theorem borderPass_keeps (vol : Volume) (b : Nat) (p : Point)
    (h : isCandidate vol b p = false) :
    get_pixel (borderPass vol b).1 p.1 p.2.1 p.2.2 = get_pixel vol p.1 p.2.1 p.2.2 := by
  obtain ⟨h1, h2, h3, h4⟩ := borderPass_frame vol b
  apply get_pixel_congr _ _ h1 h2 h3
  rcases h4 p.1 p.2.1 p.2.2 with h' | h'
  · exact h'
  · have := ((mem_collectCandidates vol b _).1 h'.2).2
    rw [h] at this
    exact Bool.noConfusion this

theorem computeThinImage_shrinks (vol : Volume) : Shrinks vol (computeThinImage vol) :=
  computeThinImage_induct (fun v => Shrinks vol v)
    (fun v b h => h.chain (borderPass_shrinks v b)) vol (Shrinks.same vol)


/-! ## Voxels with at most one neighbour are never candidates -/

theorem list_eq_of_getD (l m : List Int) (n : Nat) (hl : l.length = n) (hm : m.length = n)
    (h : ∀ i, i < n → l.getD i 0 = m.getD i 0) : l = m := by
  apply List.ext_getElem (hl.trans hm.symm)
  intro i h1 h2
  have := h i (hl ▸ h1)
  rwa [List.getD_eq_getElem _ _ h1, List.getD_eq_getElem _ _ h2] at this

theorem get_neighborhood_length (vol : Volume) (x y z : Int) :
    (get_neighborhood vol x y z).length = 27 := rfl

theorem neighbourCount_zero {v : Volume} {p : Point} (h : neighbourCount v p = 0) (i : Nat)
    (hi : i < 27) (h13 : i ≠ 13) :
    get_pixel v (shift p i).1 (shift p i).2.1 (shift p i).2.2 ≠ 1 := by
  unfold neighbourCount at h
  rw [List.countP_eq_zero] at h
  have := h i ((mem_neighbourIndices i).2 ⟨hi, h13⟩)
  simpa using this

/-- The neighbourhood of an isolated foreground voxel of a binary volume. -/
theorem get_neighborhood_isolated {v : Volume} {p : Point} (hb : Binary v) (hf : Foreground v p)
    (h : neighbourCount v p = 0) :
    get_neighborhood v p.1 p.2.1 p.2.2 =
      [0, 0, 0, 0, 0, 0, 0, 0, 0, 0, 0, 0, 0, 1, 0, 0, 0, 0, 0, 0, 0, 0, 0, 0, 0, 0, 0] := by
  apply list_eq_of_getD _ _ 27 (get_neighborhood_length v _ _ _) (by rfl)
  intro i hi
  rw [get_neighborhood_getD v p.1 p.2.1 p.2.2 i hi]
  by_cases h13 : i = 13
  · subst h13
    rw [shift_centre]
    exact hf
  · have h0 := neighbourCount_zero h i hi h13
    have h01 := hb.pixel01 (shift p i).1 (shift p i).2.1 (shift p i).2.2
    have hz : get_pixel v (shift p i).1 (shift p i).2.1 (shift p i).2.2 = 0 := by
      rcases h01 with h' | h'
      · exact h'
      · exact absurd h' h0
    show get_pixel v (shift p i).1 (shift p i).2.1 (shift p i).2.2 = _
    rw [hz]
    interval_cases i <;> first | rfl | exact absurd rfl h13

theorem isCandidate_isolated {v : Volume} {p : Point} (hb : Binary v) (hf : Foreground v p)
    (h : neighbourCount v p = 0) (b : Nat) : isCandidate v b p = false := by
  cases hc : isCandidate v b p with
  | false => rfl
  | true =>
    have he := isCandidate_euler v b p hc
    rw [get_neighborhood_isolated hb hf h] at he
    exact absurd he (by decide)

theorem isCandidate_endpoint {v : Volume} {p : Point} (hf : Foreground v p)
    (h : neighbourCount v p = 1) (b : Nat) : isCandidate v b p = false := by
  cases hc : isCandidate v b p with
  | false => rfl
  | true =>
    have he := isCandidate_not_endpoint v b p hc
    rw [is_endpoint_of_count_one v p hf h] at he
    exact Bool.noConfusion he

/-- A foreground voxel with at most one foreground neighbour survives a pass,
still with at most one foreground neighbour. -/
theorem borderPass_keeps_tip {v : Volume} {p : Point} (hb : Binary v) (hf : Foreground v p)
    (h : neighbourCount v p ≤ 1) (b : Nat) :
    Foreground (borderPass v b).1 p ∧ neighbourCount (borderPass v b).1 p ≤ 1 := by
  have hnc : isCandidate v b p = false := by
    rcases Nat.le_one_iff_eq_zero_or_eq_one.1 h with h0 | h1
    · exact isCandidate_isolated hb hf h0 b
    · exact isCandidate_endpoint hf h1 b
  refine ⟨?_, le_trans ((borderPass_shrinks v b).count_le p) h⟩
  unfold Foreground
  rw [borderPass_keeps v b p hnc]
  exact hf

theorem computeThinImage_keeps_tip {vol : Volume} {p : Point} (hb : Binary vol)
    (hf : Foreground vol p) (h : neighbourCount vol p ≤ 1) :
    Foreground (computeThinImage vol) p := by
  have := computeThinImage_induct
    (fun v => Binary v ∧ Foreground v p ∧ neighbourCount v p ≤ 1)
    (fun v b ⟨h1, h2, h3⟩ =>
      ⟨(borderPass_shrinks v b).binary_of h1, borderPass_keeps_tip h1 h2 h3 b⟩)
    vol ⟨hb, hf, h⟩
  exact this.2.1

/-- A volume without candidates in any direction is returned as it is, after
one iteration. -/
theorem computeThinImageIter_of_no_candidates (vol : Volume)
    (h : ∀ b p, InRange vol p → isCandidate vol b p = false) :
    computeThinImageIter vol = (vol, 1) := by
  have hpass : ∀ b, borderPass vol b = (vol, true) := by
    intro b
    have : collectCandidates vol b = [] := by
      unfold collectCandidates
      rw [List.filter_eq_nil_iff]
      intro p hp
      rw [h b p ((mem_scanOrder vol p).1 hp)]
      exact Bool.false_ne_true
    unfold borderPass
    rw [this]
    rfl
  have hstep : ∀ (u b : Nat), borderStep (vol, u) b = (vol, u + 1) := by
    intro u b
    unfold borderStep
    simp only [hpass b, if_true]
  have hit : iteration vol = (vol, 6) := by
    unfold iteration
    simp only [List.foldl_cons, List.foldl_nil, hstep]
  unfold computeThinImageIter
  rw [thinLoop_succ, hit]
  rfl


/-! ## Relabelling lemmas -/

theorem getD_set_ne (c : List Int) (i j : Nat) (v : Int) (h : j ≠ i) :
    (c.set i v).getD j 0 = c.getD j 0 := by
  simp only [List.getD_eq_getElem?_getD]
  rw [List.getElem?_set_ne (Ne.symm h)]

theorem getD_set_self (c : List Int) (i : Nat) (v : Int) (h : c.getD i 0 = 1) :
    (c.set i v).getD i 0 = v := by
  have hi : i < c.length := by
    by_contra hn
    rw [List.getD_eq_default _ _ (not_lt.1 hn)] at h
    exact absurd h (by decide)
  simp only [List.getD_eq_getElem?_getD]
  rw [List.getElem?_set_self hi]
  rfl

theorem Relabels.unchanged (l : Int) (c : List Int) : Relabels l c c := fun _ => Or.inl rfl

theorem Relabels.compose {l : Int} {c c1 c2 : List Int} (h1 : Relabels l c c1)
    (h2 : Relabels l c1 c2) : Relabels l c c2 := by
  intro j
  rcases h2 j with h | ⟨ha, hb⟩
  · rcases h1 j with h' | ⟨hc, hd⟩
    · left; rw [h, h']
    · right; exact ⟨hc, by rw [h, hd]⟩
  · rcases h1 j with h' | ⟨hc, hd⟩
    · right; exact ⟨by rw [← h']; exact ha, hb⟩
    · right; exact ⟨hc, hb⟩

theorem Relabels.of_set (l : Int) (c : List Int) (i : Nat) (h : c.getD i 0 = 1) :
    Relabels l c (c.set i l) := by
  intro j
  by_cases hj : j = i
  · subst hj; right; exact ⟨h, getD_set_self c j l h⟩
  · left; exact getD_set_ne c i j l hj

theorem Relabels.one {l : Int} {c c1 : List Int} (h : Relabels l c c1) (j : Nat)
    (h1 : c1.getD j 0 = 1) : c.getD j 0 = 1 := by
  rcases h j with h' | ⟨ha, _⟩
  · rw [← h']; exact h1
  · exact ha

theorem Relabels.clear_of {l : Int} {c c1 : List Int} (h : Relabels l c c1) (o : Nat)
    (hc : Clear c o) : Clear c1 o := by
  intro i hi h1
  exact hc i hi (h.one i h1)

theorem Relabels.conn {l : Int} {c c1 : List Int} (h : Relabels l c c1)
    (a b : Nat) (hc : CubeConn c1 a b) : CubeConn c a b := by
  refine Relation.ReflTransGen.mono ?_ hc
  rintro x y ⟨hx, hy, ho⟩
  exact ⟨h.one x hx, h.one y hy, ho⟩

theorem Relabels.ones_le {l : Int} {c c1 : List Int} (h : Relabels l c c1) :
    ones c1 ≤ ones c := by
  unfold ones
  apply countP_le_of_imp
  intro i _ hi
  simp only [decide_eq_true_eq] at hi ⊢
  exact h.one i hi

theorem ones_set_lt (l : Int) (hl : l ≠ 1) (c : List Int) (i : Nat) (hi : i < 26)
    (h : c.getD i 0 = 1) : ones (c.set i l) < ones c := by
  unfold ones
  apply countP_lt_of_imp _ _ _ _ i (List.mem_range.2 hi)
  · simpa using h
  · show decide ((c.set i l).getD i 0 = 1) = false
    rw [getD_set_self c i l h]
    simpa using hl
  · intro j _ hj
    simp only [decide_eq_true_eq] at hj ⊢
    exact (Relabels.of_set l c i h).one j hj

/-- A cell that held 1 and no longer does holds the label. -/
theorem Relabels.labelled {l : Int} {c c1 : List Int} (h : Relabels l c c1) (j : Nat)
    (h0 : c.getD j 0 = 1) (h1 : c1.getD j 0 ≠ 1) : c1.getD j 0 = l := by
  rcases h j with h' | ⟨_, hb⟩
  · rw [h'] at h1; exact absurd h0 h1
  · exact hb

/-! ## Facts about the octant tables -/

theorem cells_bound (o i : Nat) (h : i ∈ cells o) : o < 9 := by
  by_contra hn
  have : octantSteps o = [] := by
    match o, hn with
    | 0, _ => rfl
    | n + 9, _ => rfl
    | 1, h | 2, h | 3, h | 4, h | 5, h | 6, h | 7, h | 8, h => exact absurd (by decide) h
  simp [cells, this] at h

/-- The recursive calls made for a cell go to exactly the other octants
that contain the cell. -/
theorem table_recs_complete : ∀ o < 9, ∀ s ∈ octantSteps o, ∀ o' < 9,
    s.1 ∈ cells o' → (o' = o ∨ o' ∈ s.2) := by decide

theorem table_recs_sound : ∀ o < 9, ∀ s ∈ octantSteps o, ∀ o' ∈ s.2, s.1 ∈ cells o' := by
  decide

theorem table_index_bound : ∀ o < 9, ∀ s ∈ octantSteps o, s.1 < 26 := by decide

theorem table_seed : ∀ i < 26, i ∈ cells (seedOctant i) := by decide


/-! ## Correctness of `octree_labeling` -/

theorem octree_labeling_fuel_succ (fuel o : Nat) (l : Int) (c : List Int) :
    octree_labeling_fuel (fuel + 1) o l c =
      (octantSteps o).foldlM
        (fun cube step =>
          if cube.getD step.1 0 = 1 then
            step.2.foldlM (fun c o => octree_labeling_fuel fuel o l c) (cube.set step.1 l)
          else some cube) c := rfl

theorem octantSteps_nil (o : Nat) (h : ¬ o < 9) : octantSteps o = [] := by
  match o, h with
  | 0, h => exact absurd (by decide) h
  | n + 9, _ => rfl
  | 1, h | 2, h | 3, h | 4, h | 5, h | 6, h | 7, h | 8, h => exact absurd (by decide) h

theorem recs_fold_post (l : Int) (hl : l ≠ 1) (fuel : Nat)
    (ih : ∀ o c, ones c < fuel →
      ∃ c', octree_labeling_fuel fuel o l c = some c' ∧ LabelPost l o c c') :
    ∀ (recs : List Nat) (c : List Int), ones c < fuel →
      ∃ c', recs.foldlM (fun c o => octree_labeling_fuel fuel o l c) c = some c' ∧
        RecsPost l recs c c' := by
  intro recs
  induction recs with
  | nil =>
    intro c _
    refine ⟨c, rfl, Relabels.unchanged l c, fun o ho => absurd ho (List.not_mem_nil _), ?_, ?_⟩
    · intro j h1 h2; rw [h1] at h2; exact absurd h2.symm hl
    · intro j h1 h2; rw [h1] at h2; exact absurd h2.symm hl
  | cons o t iht =>
    intro c hc
    obtain ⟨c1, e1, p1⟩ := ih o c hc
    obtain ⟨c2, e2, p2⟩ := iht c1 (lt_of_le_of_lt p1.relabels.ones_le hc)
    refine ⟨c2, ?_, ?_⟩
    · rw [List.foldlM_cons, e1]; exact e2
    · refine ⟨p1.relabels.compose p2.relabels, ?_, ?_, ?_⟩
      · intro o' ho'
        rcases List.mem_cons.1 ho' with rfl | ht
        · exact p2.relabels.clear_of _ p1.clear
        · exact p2.clear o' ht
      · intro j h1 h2 o' ho'
        by_cases hj : c1.getD j 0 = 1
        · exact p2.closed j hj h2 o' ho'
        · exact p2.relabels.clear_of _ (p1.closed j h1 (p1.relabels.labelled j h1 hj) o' ho')
      · intro j h1 h2
        by_cases hj : c1.getD j 0 = 1
        · obtain ⟨o', ho', i, hi, hi1, hconn⟩ := p2.sound j hj h2
          exact ⟨o', List.mem_cons_of_mem _ ho', i, hi, p1.relabels.one i hi1,
            p1.relabels.conn i j hconn⟩
        · obtain ⟨i, hi, hi1, hconn⟩ := p1.sound j h1 (p1.relabels.labelled j h1 hj)
          exact ⟨o, List.mem_cons_self _ _, i, hi, hi1, hconn⟩

theorem steps_fold_post (l : Int) (hl : l ≠ 1) (fuel : Nat)
    (ih : ∀ o c, ones c < fuel →
      ∃ c', octree_labeling_fuel fuel o l c = some c' ∧ LabelPost l o c c')
    (o : Nat) :
    ∀ (ss : List (Nat × List Nat)),
      (∀ s ∈ ss, ∀ o', s.1 ∈ cells o' → (o' = o ∨ o' ∈ s.2)) →
      (∀ s ∈ ss, ∀ o' ∈ s.2, s.1 ∈ cells o') →
      (∀ s ∈ ss, s.1 < 26) →
      ∀ (c : List Int), ones c ≤ fuel →
      ∃ c', ss.foldlM
          (fun cube step =>
            if cube.getD step.1 0 = 1 then
              step.2.foldlM (fun c o => octree_labeling_fuel fuel o l c) (cube.set step.1 l)
            else some cube) c = some c' ∧
        StepsPost l o ss c c' := by
  intro ss
  induction ss with
  | nil =>
    intro _ _ _ c _
    refine ⟨c, rfl, Relabels.unchanged l c, fun s hs => absurd hs (List.not_mem_nil _), ?_, ?_⟩
    · intro j h1 h2; rw [h1] at h2; exact absurd h2.symm hl
    · intro j h1 h2; rw [h1] at h2; exact absurd h2.symm hl
  | cons s t iht =>
    intro H1 H2 H4 c hc
    have H1t := fun s' (hs' : s' ∈ t) => H1 s' (List.mem_cons_of_mem _ hs')
    have H2t := fun s' (hs' : s' ∈ t) => H2 s' (List.mem_cons_of_mem _ hs')
    have H4t := fun s' (hs' : s' ∈ t) => H4 s' (List.mem_cons_of_mem _ hs')
    by_cases hs : c.getD s.1 0 = 1
    · -- the cell is labelled and the recursive calls are made
      have hlt : ones (c.set s.1 l) < fuel :=
        lt_of_lt_of_le (ones_set_lt l hl c s.1 (H4 s (List.mem_cons_self _ _)) hs) hc
      obtain ⟨c1, e1, p1⟩ := recs_fold_post l hl fuel ih s.2 (c.set s.1 l) hlt
      have R01 : Relabels l c (c.set s.1 l) := Relabels.of_set l c s.1 hs
      have R : Relabels l c c1 := R01.compose p1.relabels
      obtain ⟨c2, e2, p2⟩ := iht H1t H2t H4t c1
        (le_trans p1.relabels.ones_le (le_of_lt hlt))
      have hs1 : c1.getD s.1 0 = l := by
        rcases p1.relabels s.1 with h | ⟨h, _⟩
        · rw [h]; exact getD_set_self c s.1 l hs
        · rw [getD_set_self c s.1 l hs] at h; exact absurd h hl
      refine ⟨c2, ?_, ?_⟩
      · rw [List.foldlM_cons]
        simp only [hs, if_true, e1]
        exact e2
      · refine ⟨R.compose p2.relabels, ?_, ?_, ?_⟩
        · intro s' hs'
          rcases List.mem_cons.1 hs' with rfl | ht
          · intro h2
            have := p2.relabels.one _ h2
            rw [hs1] at this
            exact hl this
          · exact p2.clear s' ht
        · intro j h1 h2 o' ho' hne
          by_cases hj : c1.getD j 0 = 1
          · exact p2.closed j hj h2 o' ho' hne
          · apply p2.relabels.clear_of
            by_cases hjs : j = s.1
            · subst hjs
              rcases H1 s (List.mem_cons_self _ _) o' ho' with h | h
              · exact absurd h hne
              · exact p1.clear o' h
            · have h0 : (c.set s.1 l).getD j 0 = 1 := by
                rw [getD_set_ne c s.1 j l hjs]; exact h1
              exact p1.closed j h0 (R.labelled j h1 hj) o' ho'
        · intro j h1 h2
          by_cases hj : c1.getD j 0 = 1
          · obtain ⟨s', hs', hs1', hconn⟩ := p2.sound j hj h2
            exact ⟨s', List.mem_cons_of_mem _ hs', R.one _ hs1', R.conn _ _ hconn⟩
          · by_cases hjs : j = s.1
            · subst hjs
              exact ⟨s, List.mem_cons_self _ _, hs, Relation.ReflTransGen.refl⟩
            · have h0 : (c.set s.1 l).getD j 0 = 1 := by
                rw [getD_set_ne c s.1 j l hjs]; exact h1
              obtain ⟨o', ho', i, hi, hi1, hconn⟩ := p1.sound j h0 (R.labelled j h1 hj)
              have hstep : CubeStep c s.1 i :=
                ⟨hs, R01.one i hi1, o', H2 s (List.mem_cons_self _ _) o' ho', hi⟩
              exact ⟨s, List.mem_cons_self _ _, hs,
                Relation.ReflTransGen.head hstep (R01.conn i j hconn)⟩
    · -- the cell is skipped
      obtain ⟨c2, e2, p2⟩ := iht H1t H2t H4t c hc
      refine ⟨c2, ?_, ?_⟩
      · rw [List.foldlM_cons]
        simp only [hs, if_false]
        exact e2
      · refine ⟨p2.relabels, ?_, p2.closed, ?_⟩
        · intro s' hs'
          rcases List.mem_cons.1 hs' with rfl | ht
          · intro h2; exact hs (p2.relabels.one _ h2)
          · exact p2.clear s' ht
        · intro j h1 h2
          obtain ⟨s', hs', hs1', hconn⟩ := p2.sound j h1 h2
          exact ⟨s', List.mem_cons_of_mem _ hs', hs1', hconn⟩

/-- `octree_labeling` returns whenever the fuel exceeds the number of cells
holding 1, and then it has relabelled exactly the cells joined to a cell
holding 1 of the octant it was started in. -/
theorem octree_labeling_fuel_post (l : Int) (hl : l ≠ 1) :
    ∀ (fuel o : Nat) (c : List Int), ones c < fuel →
      ∃ c', octree_labeling_fuel fuel o l c = some c' ∧ LabelPost l o c c' := by
  intro fuel
  induction fuel with
  | zero => intro o c h; exact absurd h (Nat.not_lt_zero _)
  | succ f ih =>
    intro o c hc
    have H1 : ∀ s ∈ octantSteps o, ∀ o', s.1 ∈ cells o' → (o' = o ∨ o' ∈ s.2) := by
      intro s hs o' ho'
      by_cases ho : o < 9
      · exact table_recs_complete o ho s hs o' (cells_bound o' s.1 ho') ho'
      · rw [octantSteps_nil o ho] at hs; exact absurd hs (List.not_mem_nil _)
    have H2 : ∀ s ∈ octantSteps o, ∀ o' ∈ s.2, s.1 ∈ cells o' := by
      intro s hs
      by_cases ho : o < 9
      · exact table_recs_sound o ho s hs
      · rw [octantSteps_nil o ho] at hs; exact absurd hs (List.not_mem_nil _)
    have H4 : ∀ s ∈ octantSteps o, s.1 < 26 := by
      intro s hs
      by_cases ho : o < 9
      · exact table_index_bound o ho s hs
      · rw [octantSteps_nil o ho] at hs; exact absurd hs (List.not_mem_nil _)
    obtain ⟨c', e, p⟩ := steps_fold_post l hl f ih o (octantSteps o) H1 H2 H4 c
      (Nat.lt_succ_iff.1 hc)
    refine ⟨c', ?_, p.relabels, ?_, ?_, ?_⟩
    · rw [octree_labeling_fuel_succ]; exact e
    · intro i hi
      obtain ⟨s, hs, rfl⟩ := List.mem_map.1 hi
      exact p.clear s hs
    · intro j h1 h2 o' ho'
      by_cases hoo : o' = o
      · subst hoo
        intro i hi
        obtain ⟨s, hs, rfl⟩ := List.mem_map.1 hi
        exact p.clear s hs
      · exact p.closed j h1 h2 o' ho' hoo
    · intro j h1 h2
      obtain ⟨s, hs, hs1, hconn⟩ := p.sound j h1 h2
      exact ⟨s.1, List.mem_map.2 ⟨s, hs, rfl⟩, hs1, hconn⟩

theorem ones_le_cells (c : List Int) : ones c ≤ 26 := by
  unfold ones
  exact le_trans (List.countP_le_length _) (by simp)

/-- The fuel of `octree_labeling` is enough: the call returns, with the
postcondition of the labelling. -/
theorem octree_labeling_post (l : Int) (hl : l ≠ 1) (o : Nat) (c : List Int) :
    octree_labeling_fuel 27 o l c = some (octree_labeling o l c) ∧
      LabelPost l o c (octree_labeling o l c) := by
  obtain ⟨c', e, p⟩ := octree_labeling_fuel_post l hl 27 o c
    (Nat.lt_succ_of_le (ones_le_cells c))
  have : octree_labeling o l c = c' := by
    unfold octree_labeling; rw [e]; rfl
  rw [this]
  exact ⟨e, p⟩


/-! ## The simple-point test -/

theorem CubeStep.swap {c : List Int} {a b : Nat} (h : CubeStep c a b) : CubeStep c b a := by
  obtain ⟨h1, h2, o, h3, h4⟩ := h
  exact ⟨h2, h1, o, h4, h3⟩

theorem CubeConn.reverse {c : List Int} {a b : Nat} (h : CubeConn c a b) : CubeConn c b a :=
  Relation.ReflTransGen.symmetric (fun _ _ h => CubeStep.swap h) h

theorem simpleLoop_after (c : List Int) (rest : List Nat) :
    simpleLoop 3 c rest = true ↔ ∀ k ∈ rest, c.getD k 0 ≠ 1 := by
  induction rest with
  | nil => simp [simpleLoop]
  | cons i t ih =>
    unfold simpleLoop
    by_cases hi : c.getD i 0 = 1
    · simp only [hi, if_true]
      constructor
      · intro h; norm_num at h
      · intro h; exact absurd hi (h i (List.mem_cons_self _ _))
    · simp only [hi, if_false]
      rw [ih]
      constructor
      · intro h k hk
        rcases List.mem_cons.1 hk with rfl | hk'
        · exact hi
        · exact h k hk'
      · intro h k hk; exact h k (List.mem_cons_of_mem _ hk)

/-- After the labelling started from a seed, every cell joined to the seed
holds the label. -/
theorem labelled_of_conn {l : Int} {o : Nat} {c c' : List Int} (p : LabelPost l o c c')
    (i : Nat) (hi : i ∈ cells o) (hi1 : c.getD i 0 = 1) (y : Nat) (h : CubeConn c i y) :
    c.getD y 0 = 1 ∧ c'.getD y 0 = l := by
  induction h with
  | refl => exact ⟨hi1, p.relabels.labelled i hi1 (p.clear i hi)⟩
  | tail _ hstep ih =>
    obtain ⟨h1, h2, o', ho1, ho2⟩ := hstep
    exact ⟨h2, p.relabels.labelled _ h2 (p.closed _ ih.1 ih.2 o' ho1 _ ho2)⟩

theorem simpleLoop_iff (c : List Int) :
    ∀ rest : List Nat, (∀ k ∈ rest, k < 26) →
      (simpleLoop 2 c rest = true ↔
        ∀ a ∈ rest, ∀ b ∈ rest, c.getD a 0 = 1 → c.getD b 0 = 1 → CubeConn c a b) := by
  intro rest
  induction rest with
  | nil => intro _; simp [simpleLoop]
  | cons i t ih =>
    intro hb
    have hbt : ∀ k ∈ t, k < 26 := fun k hk => hb k (List.mem_cons_of_mem _ hk)
    unfold simpleLoop
    by_cases hi : c.getD i 0 = 1
    · simp only [hi, if_true]
      obtain ⟨_, p⟩ := octree_labeling_post 2 (by decide) (seedOctant i) c
      have hseed : i ∈ cells (seedOctant i) := table_seed i (hb i (List.mem_cons_self _ _))
      have hres : (if (2 : Int) + 1 - 2 ≥ 2 then false
          else simpleLoop (2 + 1) (octree_labeling (seedOctant i) 2 c) t) =
          simpleLoop 3 (octree_labeling (seedOctant i) 2 c) t := by
        norm_num
      rw [hres, simpleLoop_after]
      constructor
      · intro h
        have hlab : ∀ a ∈ i :: t, c.getD a 0 = 1 →
            (octree_labeling (seedOctant i) 2 c).getD a 0 = 2 := by
          intro a ha ha1
          apply p.relabels.labelled a ha1
          rcases List.mem_cons.1 ha with rfl | hat
          · exact p.clear _ hseed
          · exact h a hat
        intro a ha b hb' ha1 hb1
        obtain ⟨x, hx, hx1, hxa⟩ := p.sound a ha1 (hlab a ha ha1)
        obtain ⟨y, hy, hy1, hyb⟩ := p.sound b hb1 (hlab b hb' hb1)
        have hxy : CubeConn c x y :=
          Relation.ReflTransGen.single ⟨hx1, hy1, seedOctant i, hx, hy⟩
        exact (hxa.reverse.trans hxy).trans hyb
      · intro h k hk hk1
        have hck : c.getD k 0 = 1 := p.relabels.one k hk1
        have hconn := h i (List.mem_cons_self _ _) k (List.mem_cons_of_mem _ hk) hi hck
        have := (labelled_of_conn p i hseed hi k hconn).2
        rw [hk1] at this
        exact absurd this (by decide)
    · simp only [hi, if_false]
      rw [ih hbt]
      constructor
      · intro h a ha b hb' ha1 hb1
        rcases List.mem_cons.1 ha with rfl | hat
        · exact absurd ha1 hi
        · rcases List.mem_cons.1 hb' with rfl | hbt'
          · exact absurd hb1 hi
          · exact h a hat b hbt' ha1 hb1
      · intro h a ha b hb' ha1 hb1
        exact h a (List.mem_cons_of_mem _ ha) b (List.mem_cons_of_mem _ hb') ha1 hb1

/-- `is_simple_point` accepts exactly the cubes in which any two cells
holding 1 are joined. -/
theorem is_simple_point_iff_cube (n : List Int) :
    is_simple_point n = true ↔
      ∀ a < 26, ∀ b < 26, (cubeOf n).getD a 0 = 1 → (cubeOf n).getD b 0 = 1 →
        CubeConn (cubeOf n) a b := by
  unfold is_simple_point
  rw [simpleLoop_iff (cubeOf n) (List.range 26) (fun k hk => List.mem_range.1 hk)]
  constructor
  · intro h a ha b hb
    exact h a (List.mem_range.2 ha) b (List.mem_range.2 hb)
  · intro h a ha b hb
    exact h a (List.mem_range.1 ha) b (List.mem_range.1 hb)


/-! ## From the cube to the neighbourhood -/

theorem cubeOf_getD (n : List Int) (a : Nat) (ha : a < 26) :
    (cubeOf n).getD a 0 = n.getD (nbIndex a) 0 := by
  interval_cases a <;> rfl

theorem nbIndex_cubeIndex (i : Nat) (h13 : i ≠ 13) : nbIndex (cubeIndex i) = i := by
  unfold nbIndex cubeIndex
  split_ifs <;> omega

theorem cubeIndex_lt (i : Nat) (hi : i < 27) : cubeIndex i < 26 := by
  unfold cubeIndex
  split_ifs <;> omega

theorem nbIndex_lt (a : Nat) (ha : a < 26) : nbIndex a < 27 ∧ nbIndex a ≠ 13 := by
  unfold nbIndex
  split_ifs <;> omega

/-- Two different cube cells lie in a common octant exactly when their
positions in the 3x3x3 block are 26-adjacent. -/
theorem table_adjacent : ∀ a < 26, ∀ b < 26, a ≠ b →
    (shareOctant a b = true ↔ Adj26 (offset (nbIndex a)) (offset (nbIndex b))) := by
  decide

theorem shareOctant_iff (a b : Nat) :
    shareOctant a b = true ↔ ∃ o, a ∈ cells o ∧ b ∈ cells o := by
  unfold shareOctant
  simp only [List.any_eq_true, List.mem_range, Bool.and_eq_true, decide_eq_true_eq]
  constructor
  · rintro ⟨o, _, h⟩; exact ⟨o, h⟩
  · rintro ⟨o, h1, h2⟩; exact ⟨o, cells_bound o a h1, h1, h2⟩

theorem cells_lt (o i : Nat) (h : i ∈ cells o) : i < 26 := by
  obtain ⟨s, hs, rfl⟩ := List.mem_map.1 h
  exact table_index_bound o (cells_bound o s.1 h) s hs

theorem cubeConn_to_nb (n : List Int) (a b : Nat) (h : CubeConn (cubeOf n) a b) :
    NbJoined n (nbIndex a) (nbIndex b) := by
  refine Relation.ReflTransGen.lift' nbIndex ?_ h
  rintro x y ⟨hx, hy, o, hxo, hyo⟩
  by_cases hxy : x = y
  · subst hxy; exact Relation.ReflTransGen.refl
  · have hx26 := cells_lt o x hxo
    have hy26 := cells_lt o y hyo
    apply Relation.ReflTransGen.single
    refine ⟨(nbIndex_lt x hx26).1, (nbIndex_lt y hy26).1, (nbIndex_lt x hx26).2,
      (nbIndex_lt y hy26).2, ?_, ?_, ?_⟩
    · rw [← cubeOf_getD n x hx26]; exact hx
    · rw [← cubeOf_getD n y hy26]; exact hy
    · exact (table_adjacent x hx26 y hy26 hxy).1 ((shareOctant_iff x y).2 ⟨o, hxo, hyo⟩)

theorem nb_to_cubeConn (n : List Int) (i j : Nat) (h : NbJoined n i j) :
    CubeConn (cubeOf n) (cubeIndex i) (cubeIndex j) := by
  refine Relation.ReflTransGen.lift cubeIndex ?_ h
  rintro x y ⟨hx, hy, hx13, hy13, hx1, hy1, hadj⟩
  have hcx := cubeIndex_lt x hx
  have hcy := cubeIndex_lt y hy
  have hne : cubeIndex x ≠ cubeIndex y := by
    intro he
    have h1 := nbIndex_cubeIndex x hx13
    have h2 := nbIndex_cubeIndex y hy13
    rw [he, h2] at h1
    rw [h1] at hadj
    exact hadj.1 rfl
  refine ⟨?_, ?_, ?_⟩
  · rw [cubeOf_getD n _ hcx, nbIndex_cubeIndex x hx13]; exact hx1
  · rw [cubeOf_getD n _ hcy, nbIndex_cubeIndex y hy13]; exact hy1
  · have := (table_adjacent _ hcx _ hcy hne).2
      (by rw [nbIndex_cubeIndex x hx13, nbIndex_cubeIndex y hy13]; exact hadj)
    exact (shareOctant_iff _ _).1 this

/-- `is_simple_point` accepts exactly the neighbourhoods whose non-centre
entries equal to 1 form at most one 26-connected component. -/
theorem is_simple_point_iff (n : List Int) :
    is_simple_point n = true ↔ AtMostOneComponent n := by
  rw [is_simple_point_iff_cube]
  constructor
  · intro h i j hi hj hi13 hj13 hi1 hj1
    have hci := cubeIndex_lt i hi
    have hcj := cubeIndex_lt j hj
    have := cubeConn_to_nb n _ _ (h _ hci _ hcj
      (by rw [cubeOf_getD n _ hci, nbIndex_cubeIndex i hi13]; exact hi1)
      (by rw [cubeOf_getD n _ hcj, nbIndex_cubeIndex j hj13]; exact hj1))
    rwa [nbIndex_cubeIndex i hi13, nbIndex_cubeIndex j hj13] at this
  · intro h a ha b hb ha1 hb1
    have hna := nbIndex_lt a ha
    have hnb := nbIndex_lt b hb
    have := nb_to_cubeConn n _ _ (h _ _ hna.1 hnb.1 hna.2 hnb.2
      (by rw [← cubeOf_getD n a ha]; exact ha1) (by rw [← cubeOf_getD n b hb]; exact hb1))
    have ea : cubeIndex (nbIndex a) = a := by unfold nbIndex cubeIndex; split_ifs <;> omega
    have eb : cubeIndex (nbIndex b) = b := by unfold nbIndex cubeIndex; split_ifs <;> omega
    rwa [ea, eb] at this


/-! ## Deleting a simple point keeps the rest joined -/

theorem offset_surj (dx dy dz : Int) (h1 : -1 ≤ dx) (h2 : dx ≤ 1) (h3 : -1 ≤ dy) (h4 : dy ≤ 1)
    (h5 : -1 ≤ dz) (h6 : dz ≤ 1) : ∃ i, i < 27 ∧ offset i = (dx, dy, dz) := by
  interval_cases dx <;> interval_cases dy <;> interval_cases dz <;> decide

theorem offset_ne_zero : ∀ i < 27, i ≠ 13 → offset i ≠ (0, 0, 0) := by decide

theorem shift_ne (p : Point) (i : Nat) (hi : i < 27) (h13 : i ≠ 13) : shift p i ≠ p := by
  intro h
  apply offset_ne_zero i hi h13
  obtain ⟨x, y, z⟩ := p
  simp only [shift, Prod.mk.injEq] at h
  obtain ⟨e1, e2, e3⟩ := h
  apply Prod.ext
  · show (offset i).1 = 0; omega
  · apply Prod.ext
    · show (offset i).2.1 = 0; omega
    · show (offset i).2.2 = 0; omega

/-- A voxel adjacent to `p` is one of the 26 neighbourhood positions of `p`. -/
theorem adj_is_shift (p q : Point) (h : Adj26 q p) : ∃ i, i < 27 ∧ i ≠ 13 ∧ q = shift p i := by
  obtain ⟨hne, h1, h2, h3, h4, h5, h6⟩ := h
  obtain ⟨i, hi, ho⟩ := offset_surj (q.1 - p.1) (q.2.1 - p.2.1) (q.2.2 - p.2.2) h1 h2 h3 h4 h5 h6
  have hq : q = shift p i := by
    obtain ⟨x, y, z⟩ := p
    obtain ⟨a, b, c⟩ := q
    simp only [shift, ho, Prod.mk.injEq]
    refine ⟨?_, ?_, ?_⟩ <;> omega
  refine ⟨i, hi, ?_, hq⟩
  intro h13
  subst h13
  rw [shift_centre] at hq
  exact hne hq

theorem adj_shift (p : Point) (i j : Nat) (h : Adj26 (offset i) (offset j)) :
    Adj26 (shift p i) (shift p j) := by
  obtain ⟨hne, h1, h2, h3, h4, h5, h6⟩ := h
  refine ⟨?_, ?_, ?_, ?_, ?_, ?_, ?_⟩
  · intro he
    apply hne
    simp only [shift, Prod.mk.injEq] at he
    obtain ⟨e1, e2, e3⟩ := he
    apply Prod.ext
    · omega
    · apply Prod.ext <;> omega
  all_goals simp only [shift]; omega

theorem Adj26.flip {p q : Point} (h : Adj26 p q) : Adj26 q p := by
  obtain ⟨hne, h1, h2, h3, h4, h5, h6⟩ := h
  refine ⟨fun e => hne e.symm, ?_, ?_, ?_, ?_, ?_, ?_⟩ <;> omega

theorem toU8_getD (l : List Int) (i : Nat) (hi : i < l.length) :
    (toU8 l).getD i 0 = l.getD i 0 % 256 := by
  unfold toU8
  rw [List.getD_eq_getElem _ _ (by simpa using hi), List.getD_eq_getElem _ _ hi]
  simp

/-- On a binary volume the cast to `uint8_t` changes nothing. -/
theorem toU8_get_neighborhood (v : Volume) (hb : Binary v) (x y z : Int) :
    toU8 (get_neighborhood v x y z) = get_neighborhood v x y z := by
  apply list_eq_of_getD _ _ 27 (by simp [toU8, get_neighborhood_length])
    (get_neighborhood_length v x y z)
  intro i hi
  rw [toU8_getD _ _ (by rw [get_neighborhood_length]; exact hi), get_neighborhood_getD v x y z i hi]
  rcases hb.pixel01 (shift (x, y, z) i).1 (shift (x, y, z) i).2.1 (shift (x, y, z) i).2.2
    with h | h <;> rw [h] <;> rfl

theorem foreground_set_pixel (v : Volume) (p q : Point) :
    Foreground (set_pixel v p.1 p.2.1 p.2.2 0) q ↔ Foreground v q ∧ q ≠ p := by
  rw [foreground_iff, foreground_iff]
  have hr : InRange (set_pixel v p.1 p.2.1 p.2.2 0) q ↔ InRange v q := by
    unfold InRange; rw [set_pixel_X, set_pixel_Y, set_pixel_Z]
  rw [hr]
  constructor
  · rintro ⟨h1, h2⟩
    rcases set_pixel_cell v p.1 p.2.1 p.2.2 0 q.1 q.2.1 q.2.2 with h | h
    · refine ⟨⟨h1, by rw [← h]; exact h2⟩, ?_⟩
      intro e
      subst e
      rw [set_pixel_cell_self v _ _ _ 0 h1] at h2
      exact absurd h2 (by decide)
    · rw [h.1] at h2; exact absurd h2 (by decide)
  · rintro ⟨⟨h1, h2⟩, hne⟩
    refine ⟨h1, ?_⟩
    rcases set_pixel_cell v p.1 p.2.1 p.2.2 0 q.1 q.2.1 q.2.2 with h | h
    · rw [h]; exact h2
    · exfalso; apply hne
      obtain ⟨_, e1, e2, e3, _⟩ := h
      exact Prod.ext e1 (Prod.ext e2 e3)

/-- A path among the neighbours of `p` is a path in the volume without `p`. -/
theorem nbJoined_to_grid (v : Volume) (p : Point) (i j : Nat)
    (h : NbJoined (get_neighborhood v p.1 p.2.1 p.2.2) i j) :
    Joined (set_pixel v p.1 p.2.1 p.2.2 0) (shift p i) (shift p j) := by
  refine Relation.ReflTransGen.lift (shift p) ?_ h
  rintro a b ⟨ha, hb, ha13, hb13, ha1, hb1, hadj⟩
  rw [get_neighborhood_getD v _ _ _ a ha] at ha1
  rw [get_neighborhood_getD v _ _ _ b hb] at hb1
  exact ⟨(foreground_set_pixel v p _).2 ⟨ha1, shift_ne p a ha ha13⟩,
    (foreground_set_pixel v p _).2 ⟨hb1, shift_ne p b hb hb13⟩, adj_shift p a b hadj⟩

/-- Deleting a voxel that passes `is_simple_point` keeps every other pair of
joined foreground voxels joined. -/
theorem delete_preserves_joined (v : Volume) (hbin : Binary v) (p : Point)
    (hs : is_simple_point (toU8 (get_neighborhood v p.1 p.2.1 p.2.2)) = true)
    (a b : Point) (ha : Foreground (set_pixel v p.1 p.2.1 p.2.2 0) a)
    (hb : Foreground (set_pixel v p.1 p.2.1 p.2.2 0) b) (hab : Joined v a b) :
    Joined (set_pixel v p.1 p.2.1 p.2.2 0) a b := by
  rw [toU8_get_neighborhood v hbin, is_simple_point_iff] at hs
  have key : ∀ y, Joined v a y →
      (y ≠ p → Joined (set_pixel v p.1 p.2.1 p.2.2 0) a y) ∧
      (y = p → ∃ x, Foreground (set_pixel v p.1 p.2.1 p.2.2 0) x ∧ Adj26 x p ∧
        Joined (set_pixel v p.1 p.2.1 p.2.2 0) a x) := by
    intro y hy
    induction hy with
    | refl =>
      exact ⟨fun _ => Relation.ReflTransGen.refl,
        fun e => absurd e ((foreground_set_pixel v p a).1 ha).2⟩
    | @tail y z _ hstep ih =>
      obtain ⟨hfy, hfz, hadj⟩ := hstep
      constructor
      · intro hz
        by_cases hy : y = p
        · obtain ⟨x, hfx, hxp, hax⟩ := ih.2 hy
          obtain ⟨i, hi, hi13, hxi⟩ := adj_is_shift p x hxp
          obtain ⟨j, hj, hj13, hzj⟩ := adj_is_shift p z (by rw [← hy]; exact hadj.flip)
          have hi1 : (get_neighborhood v p.1 p.2.1 p.2.2).getD i 0 = 1 := by
            rw [get_neighborhood_getD v _ _ _ i hi, ← hxi]
            exact ((foreground_set_pixel v p x).1 hfx).1
          have hj1 : (get_neighborhood v p.1 p.2.1 p.2.2).getD j 0 = 1 := by
            rw [get_neighborhood_getD v _ _ _ j hj, ← hzj]
            exact hfz
          have := nbJoined_to_grid v p i j (hs i j hi hj hi13 hj13 hi1 hj1)
          rw [← hxi, ← hzj] at this
          exact hax.trans this
        · exact (ih.1 hy).tail ⟨(foreground_set_pixel v p y).2 ⟨hfy, hy⟩,
            (foreground_set_pixel v p z).2 ⟨hfz, hz⟩, hadj⟩
      · intro hz
        have hy : y ≠ p := by
          intro e; rw [e, hz] at hadj; exact hadj.1 rfl
        exact ⟨y, (foreground_set_pixel v p y).2 ⟨hfy, hy⟩, by rw [← hz]; exact hadj, ih.1 hy⟩
  exact (key b hab).1 ((foreground_set_pixel v p b).1 hb).2

/-- Thinning never separates two voxels it keeps. -/
theorem computeThinImage_keeps_joined (vol : Volume) (hbin : Binary vol) :
    Binary (computeThinImage vol) ∧ Shrinks vol (computeThinImage vol) ∧
      ∀ a b, Foreground (computeThinImage vol) a → Foreground (computeThinImage vol) b →
        Joined vol a b → Joined (computeThinImage vol) a b := by
  apply computeThinImage_induct
    (fun v => Binary v ∧ Shrinks vol v ∧
      ∀ a b, Foreground v a → Foreground v b → Joined vol a b → Joined v a b)
  · intro v0 bdir h0
    apply borderPass_induct
      (fun v => Binary v ∧ Shrinks vol v ∧
        ∀ a b, Foreground v a → Foreground v b → Joined vol a b → Joined v a b) v0 bdir
    · rintro v p _ ⟨hb, hsh, hj⟩ hs
      have hsh' := Shrinks.of_delete v p.1 p.2.1 p.2.2
      refine ⟨hsh'.binary_of hb, hsh.chain hsh', ?_⟩
      intro a b ha hb' hab
      exact delete_preserves_joined v hb p hs a b ha hb'
        (hj a b (hsh'.foreground_of a ha) (hsh'.foreground_of b hb') hab)
    · exact h0
  · exact ⟨hbin, Shrinks.same vol, fun a b _ _ h => h⟩


/-! ## The deletions of a run -/

theorem recheck_fold_false (cs : List Point) (v : Volume) :
    (cs.foldl recheckStep (v, false)).2 = false := by
  induction cs generalizing v with
  | nil => rfl
  | cons p t ih =>
    rw [List.foldl_cons]
    unfold recheckStep
    split
    · exact ih _
    · exact ih _

/-- The first candidate of a scan is always deleted, so a pass that reports
`noChange` had no candidate. -/
theorem borderPass_noChange_candidates (vol : Volume) (b : Nat)
    (h : (borderPass vol b).2 = true) : collectCandidates vol b = [] := by
  unfold borderPass at h
  cases hc : collectCandidates vol b with
  | nil => rfl
  | cons p t =>
    exfalso
    rw [hc, List.foldl_cons] at h
    have hp : p ∈ collectCandidates vol b := by rw [hc]; exact List.mem_cons_self _ _
    have hcand := ((mem_collectCandidates vol b p).1 hp).2
    have hs : is_simple_point (toU8 (get_neighborhood vol p.1 p.2.1 p.2.2)) = true := by
      unfold isCandidate at hcand
      by_contra hns
      simp [hns] at hcand
    have : recheckStep (vol, true) p = (set_pixel vol p.1 p.2.1 p.2.2 0, false) := by
      unfold recheckStep
      simp only [hs, if_true]
    rw [this, recheck_fold_false] at h
    exact Bool.noConfusion h

theorem mem_recheckTrace (sv : Volume) (b : Nat) (cs : List Point) :
    ∀ (v : Volume) (d : Deletion), d ∈ recheckTrace sv b v cs →
      d.scanVol = sv ∧ d.border = b ∧ d.point ∈ cs ∧
      is_simple_point (toU8 (get_neighborhood d.vol d.point.1 d.point.2.1 d.point.2.2)) = true := by
  induction cs with
  | nil => intro v d h; simp [recheckTrace] at h
  | cons p t ih =>
    intro v d h
    unfold recheckTrace at h
    split at h
    · rename_i hs
      rcases List.mem_cons.1 h with rfl | h'
      · exact ⟨rfl, rfl, List.mem_cons_self _ _, hs⟩
      · obtain ⟨h1, h2, h3, h4⟩ := ih _ d h'
        exact ⟨h1, h2, List.mem_cons_of_mem _ h3, h4⟩
    · obtain ⟨h1, h2, h3, h4⟩ := ih _ d h
      exact ⟨h1, h2, List.mem_cons_of_mem _ h3, h4⟩

/-- Replaying the logged deletions gives the volume the pass returns, and
`noChange` says that nothing was logged. -/
theorem recheckTrace_replay (sv : Volume) (b : Nat) (cs : List Point) :
    ∀ (v : Volume) (nc : Bool),
      (cs.foldl recheckStep (v, nc)).1 =
        (recheckTrace sv b v cs).foldl
          (fun w d => set_pixel w d.point.1 d.point.2.1 d.point.2.2 0) v ∧
      (cs.foldl recheckStep (v, nc)).2 = (nc && (recheckTrace sv b v cs).isEmpty) := by
  induction cs with
  | nil => intro v nc; simp [recheckTrace]
  | cons p t ih =>
    intro v nc
    rw [List.foldl_cons]
    by_cases hs : is_simple_point (toU8 (get_neighborhood v p.1 p.2.1 p.2.2)) = true
    · have e1 : recheckStep (v, nc) p = (set_pixel v p.1 p.2.1 p.2.2 0, false) := by
        simp only [recheckStep, hs, if_true]
      have e2 : recheckTrace sv b v (p :: t) =
          Deletion.mk sv b v p :: recheckTrace sv b (set_pixel v p.1 p.2.1 p.2.2 0) t := by
        simp only [recheckTrace, hs, if_true]
      obtain ⟨h1, h2⟩ := ih (set_pixel v p.1 p.2.1 p.2.2 0) false
      rw [e1, e2, h1, h2]
      simp
    · have e1 : recheckStep (v, nc) p = (v, nc) := by
        simp only [recheckStep, hs]
        rfl
      have e2 : recheckTrace sv b v (p :: t) = recheckTrace sv b v t := by
        simp only [recheckTrace, hs]
        rfl
      rw [e1, e2]
      exact ih v nc

/-- Every deletion of a pass removes a candidate of the scan of that pass. -/
theorem mem_passDeletions (vol : Volume) (b : Nat) (d : Deletion) (h : d ∈ passDeletions vol b) :
    d.scanVol = vol ∧ isCandidate d.scanVol d.border d.point = true ∧ InRange d.scanVol d.point ∧
      is_simple_point (toU8 (get_neighborhood d.vol d.point.1 d.point.2.1 d.point.2.2)) = true := by
  obtain ⟨h1, h2, h3, h4⟩ := mem_recheckTrace vol b _ vol d h
  have := (mem_collectCandidates vol b d.point).1 h3
  rw [h1, h2]
  exact ⟨rfl, this.2, this.1, h4⟩

theorem mem_dirsDeletions (dirs : List Nat) :
    ∀ (v : Volume) (d : Deletion), d ∈ dirsDeletions v dirs →
      isCandidate d.scanVol d.border d.point = true ∧ InRange d.scanVol d.point ∧
      is_simple_point (toU8 (get_neighborhood d.vol d.point.1 d.point.2.1 d.point.2.2)) = true := by
  induction dirs with
  | nil => intro v d h; simp [dirsDeletions] at h
  | cons b t ih =>
    intro v d h
    unfold dirsDeletions at h
    rcases List.mem_append.1 h with h' | h'
    · exact (mem_passDeletions v b d h').2
    · exact ih _ d h'

theorem mem_loopDeletions (fuel : Nat) :
    ∀ (v : Volume) (d : Deletion), d ∈ loopDeletions fuel v →
      isCandidate d.scanVol d.border d.point = true ∧ InRange d.scanVol d.point ∧
      is_simple_point (toU8 (get_neighborhood d.vol d.point.1 d.point.2.1 d.point.2.2)) = true := by
  induction fuel with
  | zero => intro v d h; simp [loopDeletions] at h
  | succ f ih =>
    intro v d h
    unfold loopDeletions at h
    rcases List.mem_append.1 h with h' | h'
    · exact mem_dirsDeletions _ v d h'
    · split at h'
      · exact ih _ d h'
      · simp at h'

/-- A voxel selected by a scan is foreground and does not have exactly one
foreground neighbour in the scanned volume. -/
theorem isCandidate_neighbourCount (v : Volume) (b : Nat) (p : Point) (hr : InRange v p)
    (h : isCandidate v b p = true) : Foreground v p ∧ neighbourCount v p ≠ 1 := by
  have hf : Foreground v p := (foreground_iff v p).2 ⟨hr, isCandidate_cell v b p h⟩
  refine ⟨hf, fun h1 => ?_⟩
  have := isCandidate_endpoint hf h1 b
  rw [h] at this
  exact Bool.noConfusion this

theorem borderStep_fold_full (dirs : List Nat) :
    ∀ st : Volume × Nat, (dirs.foldl borderStep st).2 = st.2 + dirs.length →
      ∀ b ∈ dirs, borderPass st.1 b = (st.1, true) := by
  induction dirs with
  | nil => intro st _ b hb; exact absurd hb (List.not_mem_nil _)
  | cons b t ih =>
    intro st h
    rw [List.foldl_cons] at h
    have hle := (borderStep_fold_spec t (borderStep st b)).1
    simp only [List.length_cons] at h
    cases hnc : (borderPass st.1 b).2 with
    | false =>
      have hu : (borderStep st b).2 = st.2 := by simp [borderStep, hnc]
      omega
    | true =>
      have hv : (borderStep st b).1 = st.1 := by
        simp only [borderStep]; exact borderPass_noChange _ _ hnc
      have hu : (borderStep st b).2 = st.2 + 1 := by
        simp only [borderStep, hnc, if_true]
      have hrec := ih (borderStep st b) (by omega)
      intro b' hb'
      rcases List.mem_cons.1 hb' with rfl | ht
      · exact Prod.ext (borderPass_noChange _ _ hnc) hnc
      · have := hrec b' ht
        rw [hv] at this
        exact this

/-- At a volume that one iteration leaves with `unchangedBorders = 6`, no
direction has a candidate. -/
theorem iteration_fixed (v : Volume) (h : iteration v = (v, 6)) :
    ∀ b ∈ [1, 2, 3, 4, 5, 6], borderPass v b = (v, true) ∧ collectCandidates v b = [] := by
  have h6 : ([1, 2, 3, 4, 5, 6].foldl borderStep (v, 0)).2 = (v, 0).2 + [1, 2, 3, 4, 5, 6].length := by
    have : (iteration v).2 = 6 := by rw [h]
    simpa [iteration] using this
  intro b hb
  have hp := borderStep_fold_full [1, 2, 3, 4, 5, 6] (v, 0) h6 b hb
  refine ⟨hp, borderPass_noChange_candidates v b ?_⟩
  rw [hp]

theorem dirsDeletions_nil (v : Volume) (dirs : List Nat)
    (h : ∀ b ∈ dirs, borderPass v b = (v, true) ∧ collectCandidates v b = []) :
    dirsDeletions v dirs = [] := by
  induction dirs with
  | nil => rfl
  | cons b t ih =>
    unfold dirsDeletions
    obtain ⟨h1, h2⟩ := h b (List.mem_cons_self _ _)
    have : passDeletions v b = [] := by
      unfold passDeletions; rw [h2]; rfl
    rw [this, h1]
    exact ih (fun b' hb' => h b' (List.mem_cons_of_mem _ hb'))

theorem deletions_of_fixed (v : Volume) (h : iteration v = (v, 6)) : deletions v = [] := by
  unfold deletions loopDeletions
  rw [dirsDeletions_nil v _ (iteration_fixed v h), h]
  rfl

theorem computeThinImageIter_of_fixed (v : Volume) (h : iteration v = (v, 6)) :
    computeThinImageIter v = (v, 1) := by
  unfold computeThinImageIter
  rw [thinLoop_succ, h]
  rfl

theorem binary_volumeOf (X Y Z : Nat) (fg : List Point) : Binary (volumeOf X Y Z fg) := by
  intro x y z _ _ _ _ _ _
  show (if (x, y, z) ∈ fg then (1 : Int) else 0) = 0 ∨ (if (x, y, z) ∈ fg then (1 : Int) else 0) = 1
  split
  · right; rfl
  · left; rfl


/-! ## Concrete volumes -/

theorem mem_foregroundCells (v : Volume) (p : Point) :
    p ∈ foregroundCells v ↔ Foreground v p := by
  unfold foregroundCells
  rw [List.mem_filter, mem_scanOrder, foreground_iff, decide_eq_true_eq]

set_option maxRecDepth 100000 in
theorem cornerVolume_thinned : foregroundCells (computeThinImage cornerVolume) = [] := by
  decide

theorem cornerVolume_foreground : foregroundCells cornerVolume = [(0, 0, 0), (1, 0, 0), (0, 0, 1)] := by
  decide

set_option maxRecDepth 100000 in
theorem cornerVolume_deletion :
    (deletions cornerVolume).any
      (fun d => decide (d.point = (1, 0, 0)) && decide (neighbourCount d.vol d.point = 1)) = true := by
  decide


/-- A volume whose only foreground voxel is `p` has no candidate. -/
theorem isCandidate_single (vol : Volume) (hbin : Binary vol) (p : Point)
    (hf : Foreground vol p) (hall : ∀ q, Foreground vol q → q = p) (b : Nat) (q : Point)
    (hq : InRange vol q) : isCandidate vol b q = false := by
  cases hc : isCandidate vol b q with
  | false => rfl
  | true =>
    have hfq : Foreground vol q := (foreground_iff vol q).2 ⟨hq, isCandidate_cell vol b q hc⟩
    have hqp := hall q hfq
    subst hqp
    have h0 : neighbourCount vol q = 0 := by
      unfold neighbourCount
      rw [List.countP_eq_zero]
      intro i hi
      have hi' := (mem_neighbourIndices i).1 hi
      simp only [decide_eq_true_eq]
      intro h1
      exact shift_ne q i hi'.1 hi'.2 (hall (shift q i) h1)
    rw [isCandidate_isolated hbin hf h0 b] at hc
    exact Bool.noConfusion hc


/-! ## The Euler table and the Euler characteristic -/

theorem any_and_eq_filter_any {α : Type} (l : List α) (S P : α → Bool) :
    (l.any fun i => S i && P i) = (l.filter P).any S := by
  induction l with
  | nil => rfl
  | cons a t ih =>
    simp only [List.any_cons, List.filter_cons, ih]
    cases hP : P a <;> simp

theorem covered_eq (S : Nat → Bool) (q : Cell) : covered S q = (voxelsOf q).any S :=
  any_and_eq_filter_any _ _ _

theorem orBit_eq (n : List Int) (i w v : Nat) (h : n.getD i 0 = 0 ∨ n.getD i 0 = 1) :
    orBit n i w v = if decide (n.getD i 0 = 1) then v ||| w else v := by
  unfold orBit
  rcases h with h | h <;> simp only [h] <;> simp

theorem uncovered_eq (S : Nat → Bool) (q : Cell) (vs : List Nat) (h : voxelsOf q = vs) :
    uncovered S q = if vs.any S then 0 else 1 := by
  unfold uncovered; rw [covered_eq, h]

theorem neighbourSet_centre (n : List Int) : neighbourSet n 13 = false := by
  simp [neighbourSet]

theorem neighbourSet_of_ne (n : List Int) (i : Nat) (h : i ≠ 13) :
    neighbourSet n i = decide (n.getD i 0 = 1) := by
  simp [neighbourSet, h]

/-- The table entry selected by `index_octant_NEB` is the contribution of
that octant of the centre voxel to eight times the change of the Euler
characteristic. -/
theorem octant_NEB (n : List Int) (h01 : ∀ i, n.getD i 0 = 0 ∨ n.getD i 0 = 1) :
    fill_euler_LUT.getD (index_octant_NEB n) 0 =
      octContribution (neighbourSet n)
        (4, 2, 2) (3, 2, 2) (4, 3, 2) (4, 2, 3) (4, 3, 3) (3, 2, 3) (3, 3, 2) := by
  unfold octContribution index_octant_NEB
  rw [uncovered_eq _ (4, 2, 2) [1, 2, 4, 5, 10, 11, 13, 14] (by decide),
    uncovered_eq _ (3, 2, 2) [1, 4, 10, 13] (by decide),
    uncovered_eq _ (4, 3, 2) [4, 5, 13, 14] (by decide),
    uncovered_eq _ (4, 2, 3) [10, 11, 13, 14] (by decide),
    uncovered_eq _ (4, 3, 3) [13, 14] (by decide),
    uncovered_eq _ (3, 2, 3) [10, 13] (by decide),
    uncovered_eq _ (3, 3, 2) [4, 13] (by decide)]
  simp only [List.any_cons, List.any_nil, neighbourSet_centre, Bool.or_false,
    neighbourSet_of_ne n 1 (by decide),
    neighbourSet_of_ne n 2 (by decide),
    neighbourSet_of_ne n 4 (by decide),
    neighbourSet_of_ne n 5 (by decide),
    neighbourSet_of_ne n 10 (by decide),
    neighbourSet_of_ne n 11 (by decide),
    neighbourSet_of_ne n 14 (by decide),
    orBit_eq n _ _ _ (h01 _)]
  generalize decide (n.getD 1 0 = 1) = b1
  generalize decide (n.getD 2 0 = 1) = b2
  generalize decide (n.getD 4 0 = 1) = b4
  generalize decide (n.getD 5 0 = 1) = b5
  generalize decide (n.getD 10 0 = 1) = b10
  generalize decide (n.getD 11 0 = 1) = b11
  generalize decide (n.getD 14 0 = 1) = b14
  revert b1 b2 b4 b5 b10 b11 b14
  decide

/-- The table entry selected by `index_octant_NWB` is the contribution of
that octant of the centre voxel to eight times the change of the Euler
characteristic. -/
theorem octant_NWB (n : List Int) (h01 : ∀ i, n.getD i 0 = 0 ∨ n.getD i 0 = 1) :
    fill_euler_LUT.getD (index_octant_NWB n) 0 =
      octContribution (neighbourSet n)
        (2, 2, 2) (3, 2, 2) (2, 3, 2) (2, 2, 3) (2, 3, 3) (3, 2, 3) (3, 3, 2) := by
  unfold octContribution index_octant_NWB
  rw [uncovered_eq _ (2, 2, 2) [0, 1, 3, 4, 9, 10, 12, 13] (by decide),
    uncovered_eq _ (3, 2, 2) [1, 4, 10, 13] (by decide),
    uncovered_eq _ (2, 3, 2) [3, 4, 12, 13] (by decide),
    uncovered_eq _ (2, 2, 3) [9, 10, 12, 13] (by decide),
    uncovered_eq _ (2, 3, 3) [12, 13] (by decide),
    uncovered_eq _ (3, 2, 3) [10, 13] (by decide),
    uncovered_eq _ (3, 3, 2) [4, 13] (by decide)]
  simp only [List.any_cons, List.any_nil, neighbourSet_centre, Bool.or_false,
    neighbourSet_of_ne n 0 (by decide),
    neighbourSet_of_ne n 1 (by decide),
    neighbourSet_of_ne n 3 (by decide),
    neighbourSet_of_ne n 4 (by decide),
    neighbourSet_of_ne n 9 (by decide),
    neighbourSet_of_ne n 10 (by decide),
    neighbourSet_of_ne n 12 (by decide),
    orBit_eq n _ _ _ (h01 _)]
  generalize decide (n.getD 0 0 = 1) = b0
  generalize decide (n.getD 1 0 = 1) = b1
  generalize decide (n.getD 3 0 = 1) = b3
  generalize decide (n.getD 4 0 = 1) = b4
  generalize decide (n.getD 9 0 = 1) = b9
  generalize decide (n.getD 10 0 = 1) = b10
  generalize decide (n.getD 12 0 = 1) = b12
  revert b0 b1 b3 b4 b9 b10 b12
  decide

/-- The table entry selected by `index_octant_SEB` is the contribution of
that octant of the centre voxel to eight times the change of the Euler
characteristic. -/
theorem octant_SEB (n : List Int) (h01 : ∀ i, n.getD i 0 = 0 ∨ n.getD i 0 = 1) :
    fill_euler_LUT.getD (index_octant_SEB n) 0 =
      octContribution (neighbourSet n)
        (4, 4, 2) (3, 4, 2) (4, 3, 2) (4, 4, 3) (4, 3, 3) (3, 4, 3) (3, 3, 2) := by
  unfold octContribution index_octant_SEB
  rw [uncovered_eq _ (4, 4, 2) [4, 5, 7, 8, 13, 14, 16, 17] (by decide),
    uncovered_eq _ (3, 4, 2) [4, 7, 13, 16] (by decide),
    uncovered_eq _ (4, 3, 2) [4, 5, 13, 14] (by decide),
    uncovered_eq _ (4, 4, 3) [13, 14, 16, 17] (by decide),
    uncovered_eq _ (4, 3, 3) [13, 14] (by decide),
    uncovered_eq _ (3, 4, 3) [13, 16] (by decide),
    uncovered_eq _ (3, 3, 2) [4, 13] (by decide)]
  simp only [List.any_cons, List.any_nil, neighbourSet_centre, Bool.or_false,
    neighbourSet_of_ne n 4 (by decide),
    neighbourSet_of_ne n 5 (by decide),
    neighbourSet_of_ne n 7 (by decide),
    neighbourSet_of_ne n 8 (by decide),
    neighbourSet_of_ne n 14 (by decide),
    neighbourSet_of_ne n 16 (by decide),
    neighbourSet_of_ne n 17 (by decide),
    orBit_eq n _ _ _ (h01 _)]
  generalize decide (n.getD 4 0 = 1) = b4
  generalize decide (n.getD 5 0 = 1) = b5
  generalize decide (n.getD 7 0 = 1) = b7
  generalize decide (n.getD 8 0 = 1) = b8
  generalize decide (n.getD 14 0 = 1) = b14
  generalize decide (n.getD 16 0 = 1) = b16
  generalize decide (n.getD 17 0 = 1) = b17
  revert b4 b5 b7 b8 b14 b16 b17
  decide

/-- The table entry selected by `index_octant_SWB` is the contribution of
that octant of the centre voxel to eight times the change of the Euler
characteristic. -/
theorem octant_SWB (n : List Int) (h01 : ∀ i, n.getD i 0 = 0 ∨ n.getD i 0 = 1) :
    fill_euler_LUT.getD (index_octant_SWB n) 0 =
      octContribution (neighbourSet n)
        (2, 4, 2) (3, 4, 2) (2, 3, 2) (2, 4, 3) (2, 3, 3) (3, 4, 3) (3, 3, 2) := by
  unfold octContribution index_octant_SWB
  rw [uncovered_eq _ (2, 4, 2) [3, 4, 6, 7, 12, 13, 15, 16] (by decide),
    uncovered_eq _ (3, 4, 2) [4, 7, 13, 16] (by decide),
    uncovered_eq _ (2, 3, 2) [3, 4, 12, 13] (by decide),
    uncovered_eq _ (2, 4, 3) [12, 13, 15, 16] (by decide),
    uncovered_eq _ (2, 3, 3) [12, 13] (by decide),
    uncovered_eq _ (3, 4, 3) [13, 16] (by decide),
    uncovered_eq _ (3, 3, 2) [4, 13] (by decide)]
  simp only [List.any_cons, List.any_nil, neighbourSet_centre, Bool.or_false,
    neighbourSet_of_ne n 3 (by decide),
    neighbourSet_of_ne n 4 (by decide),
    neighbourSet_of_ne n 6 (by decide),
    neighbourSet_of_ne n 7 (by decide),
    neighbourSet_of_ne n 12 (by decide),
    neighbourSet_of_ne n 15 (by decide),
    neighbourSet_of_ne n 16 (by decide),
    orBit_eq n _ _ _ (h01 _)]
  generalize decide (n.getD 3 0 = 1) = b3
  generalize decide (n.getD 4 0 = 1) = b4
  generalize decide (n.getD 6 0 = 1) = b6
  generalize decide (n.getD 7 0 = 1) = b7
  generalize decide (n.getD 12 0 = 1) = b12
  generalize decide (n.getD 15 0 = 1) = b15
  generalize decide (n.getD 16 0 = 1) = b16
  revert b3 b4 b6 b7 b12 b15 b16
  decide

/-- The table entry selected by `index_octant_NEU` is the contribution of
that octant of the centre voxel to eight times the change of the Euler
characteristic. -/
theorem octant_NEU (n : List Int) (h01 : ∀ i, n.getD i 0 = 0 ∨ n.getD i 0 = 1) :
    fill_euler_LUT.getD (index_octant_NEU n) 0 =
      octContribution (neighbourSet n)
        (4, 2, 4) (3, 2, 4) (4, 3, 4) (4, 2, 3) (4, 3, 3) (3, 2, 3) (3, 3, 4) := by
  unfold octContribution index_octant_NEU
  rw [uncovered_eq _ (4, 2, 4) [10, 11, 13, 14, 19, 20, 22, 23] (by decide),
    uncovered_eq _ (3, 2, 4) [10, 13, 19, 22] (by decide),
    uncovered_eq _ (4, 3, 4) [13, 14, 22, 23] (by decide),
    uncovered_eq _ (4, 2, 3) [10, 11, 13, 14] (by decide),
    uncovered_eq _ (4, 3, 3) [13, 14] (by decide),
    uncovered_eq _ (3, 2, 3) [10, 13] (by decide),
    uncovered_eq _ (3, 3, 4) [13, 22] (by decide)]
  simp only [List.any_cons, List.any_nil, neighbourSet_centre, Bool.or_false,
    neighbourSet_of_ne n 10 (by decide),
    neighbourSet_of_ne n 11 (by decide),
    neighbourSet_of_ne n 14 (by decide),
    neighbourSet_of_ne n 19 (by decide),
    neighbourSet_of_ne n 20 (by decide),
    neighbourSet_of_ne n 22 (by decide),
    neighbourSet_of_ne n 23 (by decide),
    orBit_eq n _ _ _ (h01 _)]
  generalize decide (n.getD 10 0 = 1) = b10
  generalize decide (n.getD 11 0 = 1) = b11
  generalize decide (n.getD 14 0 = 1) = b14
  generalize decide (n.getD 19 0 = 1) = b19
  generalize decide (n.getD 20 0 = 1) = b20
  generalize decide (n.getD 22 0 = 1) = b22
  generalize decide (n.getD 23 0 = 1) = b23
  revert b10 b11 b14 b19 b20 b22 b23
  decide

/-- The table entry selected by `index_octant_NWU` is the contribution of
that octant of the centre voxel to eight times the change of the Euler
characteristic. -/
theorem octant_NWU (n : List Int) (h01 : ∀ i, n.getD i 0 = 0 ∨ n.getD i 0 = 1) :
    fill_euler_LUT.getD (index_octant_NWU n) 0 =
      octContribution (neighbourSet n)
        (2, 2, 4) (3, 2, 4) (2, 3, 4) (2, 2, 3) (2, 3, 3) (3, 2, 3) (3, 3, 4) := by
  unfold octContribution index_octant_NWU
  rw [uncovered_eq _ (2, 2, 4) [9, 10, 12, 13, 18, 19, 21, 22] (by decide),
    uncovered_eq _ (3, 2, 4) [10, 13, 19, 22] (by decide),
    uncovered_eq _ (2, 3, 4) [12, 13, 21, 22] (by decide),
    uncovered_eq _ (2, 2, 3) [9, 10, 12, 13] (by decide),
    uncovered_eq _ (2, 3, 3) [12, 13] (by decide),
    uncovered_eq _ (3, 2, 3) [10, 13] (by decide),
    uncovered_eq _ (3, 3, 4) [13, 22] (by decide)]
  simp only [List.any_cons, List.any_nil, neighbourSet_centre, Bool.or_false,
    neighbourSet_of_ne n 9 (by decide),
    neighbourSet_of_ne n 10 (by decide),
    neighbourSet_of_ne n 12 (by decide),
    neighbourSet_of_ne n 18 (by decide),
    neighbourSet_of_ne n 19 (by decide),
    neighbourSet_of_ne n 21 (by decide),
    neighbourSet_of_ne n 22 (by decide),
    orBit_eq n _ _ _ (h01 _)]
  generalize decide (n.getD 9 0 = 1) = b9
  generalize decide (n.getD 10 0 = 1) = b10
  generalize decide (n.getD 12 0 = 1) = b12
  generalize decide (n.getD 18 0 = 1) = b18
  generalize decide (n.getD 19 0 = 1) = b19
  generalize decide (n.getD 21 0 = 1) = b21
  generalize decide (n.getD 22 0 = 1) = b22
  revert b9 b10 b12 b18 b19 b21 b22
  decide

/-- The table entry selected by `index_octant_SEU` is the contribution of
that octant of the centre voxel to eight times the change of the Euler
characteristic. -/
theorem octant_SEU (n : List Int) (h01 : ∀ i, n.getD i 0 = 0 ∨ n.getD i 0 = 1) :
    fill_euler_LUT.getD (index_octant_SEU n) 0 =
      octContribution (neighbourSet n)
        (4, 4, 4) (3, 4, 4) (4, 3, 4) (4, 4, 3) (4, 3, 3) (3, 4, 3) (3, 3, 4) := by
  unfold octContribution index_octant_SEU
  rw [uncovered_eq _ (4, 4, 4) [13, 14, 16, 17, 22, 23, 25, 26] (by decide),
    uncovered_eq _ (3, 4, 4) [13, 16, 22, 25] (by decide),
    uncovered_eq _ (4, 3, 4) [13, 14, 22, 23] (by decide),
    uncovered_eq _ (4, 4, 3) [13, 14, 16, 17] (by decide),
    uncovered_eq _ (4, 3, 3) [13, 14] (by decide),
    uncovered_eq _ (3, 4, 3) [13, 16] (by decide),
    uncovered_eq _ (3, 3, 4) [13, 22] (by decide)]
  simp only [List.any_cons, List.any_nil, neighbourSet_centre, Bool.or_false,
    neighbourSet_of_ne n 14 (by decide),
    neighbourSet_of_ne n 16 (by decide),
    neighbourSet_of_ne n 17 (by decide),
    neighbourSet_of_ne n 22 (by decide),
    neighbourSet_of_ne n 23 (by decide),
    neighbourSet_of_ne n 25 (by decide),
    neighbourSet_of_ne n 26 (by decide),
    orBit_eq n _ _ _ (h01 _)]
  generalize decide (n.getD 14 0 = 1) = b14
  generalize decide (n.getD 16 0 = 1) = b16
  generalize decide (n.getD 17 0 = 1) = b17
  generalize decide (n.getD 22 0 = 1) = b22
  generalize decide (n.getD 23 0 = 1) = b23
  generalize decide (n.getD 25 0 = 1) = b25
  generalize decide (n.getD 26 0 = 1) = b26
  revert b14 b16 b17 b22 b23 b25 b26
  decide

/-- The table entry selected by `index_octant_SWU` is the contribution of
that octant of the centre voxel to eight times the change of the Euler
characteristic. -/
theorem octant_SWU (n : List Int) (h01 : ∀ i, n.getD i 0 = 0 ∨ n.getD i 0 = 1) :
    fill_euler_LUT.getD (index_octant_SWU n) 0 =
      octContribution (neighbourSet n)
        (2, 4, 4) (3, 4, 4) (2, 3, 4) (2, 4, 3) (2, 3, 3) (3, 4, 3) (3, 3, 4) := by
  unfold octContribution index_octant_SWU
  rw [uncovered_eq _ (2, 4, 4) [12, 13, 15, 16, 21, 22, 24, 25] (by decide),
    uncovered_eq _ (3, 4, 4) [13, 16, 22, 25] (by decide),
    uncovered_eq _ (2, 3, 4) [12, 13, 21, 22] (by decide),
    uncovered_eq _ (2, 4, 3) [12, 13, 15, 16] (by decide),
    uncovered_eq _ (2, 3, 3) [12, 13] (by decide),
    uncovered_eq _ (3, 4, 3) [13, 16] (by decide),
    uncovered_eq _ (3, 3, 4) [13, 22] (by decide)]
  simp only [List.any_cons, List.any_nil, neighbourSet_centre, Bool.or_false,
    neighbourSet_of_ne n 12 (by decide),
    neighbourSet_of_ne n 15 (by decide),
    neighbourSet_of_ne n 16 (by decide),
    neighbourSet_of_ne n 21 (by decide),
    neighbourSet_of_ne n 22 (by decide),
    neighbourSet_of_ne n 24 (by decide),
    neighbourSet_of_ne n 25 (by decide),
    orBit_eq n _ _ _ (h01 _)]
  generalize decide (n.getD 12 0 = 1) = b12
  generalize decide (n.getD 15 0 = 1) = b15
  generalize decide (n.getD 16 0 = 1) = b16
  generalize decide (n.getD 21 0 = 1) = b21
  generalize decide (n.getD 22 0 = 1) = b22
  generalize decide (n.getD 24 0 = 1) = b24
  generalize decide (n.getD 25 0 = 1) = b25
  revert b12 b15 b16 b21 b22 b24 b25
  decide

theorem covered_withCentre (S : Nat → Bool) (q : Cell) :
    covered (withCentre S) q = (covered S q || voxelHasCell 13 q) := by
  rw [Bool.eq_iff_iff]
  simp only [covered, withCentre, List.any_eq_true, List.mem_range, Bool.and_eq_true,
    Bool.or_eq_true, decide_eq_true_eq]
  constructor
  · rintro ⟨i, hi, h1 | h1, h2⟩
    · subst h1; right; exact h2
    · left; exact ⟨i, hi, h1, h2⟩
  · rintro (⟨i, hi, h1, h2⟩ | h)
    · exact ⟨i, hi, Or.inr h1, h2⟩
    · exact ⟨13, by decide, Or.inl rfl, h⟩

theorem countP_split {α : Type} (l : List α) (A B C : α → Bool) :
    l.countP (fun q => A q && (B q || C q)) =
      l.countP (fun q => A q && B q) + (l.filter fun q => A q && C q).countP (fun q => !B q) := by
  induction l with
  | nil => rfl
  | cons a t ih =>
    rw [List.countP_cons, List.countP_cons, List.filter_cons, ih]
    cases hA : A a <;> cases hB : B a <;> cases hC : C a <;>
      simp [List.countP_cons, hB] <;> omega

theorem countP_uncovered (S : Nat → Bool) (l : List Cell) :
    ((l.countP fun q => !covered S q : Nat) : Int) = (l.map (uncovered S)).sum := by
  induction l with
  | nil => rfl
  | cons a t ih =>
    simp only [List.countP_cons, List.map_cons, List.sum_cons, uncovered]
    push_cast
    rw [ih]
    cases covered S a
    · simp; ring
    · simp

/-- The cells of dimension `d` of the centre voxel. -/
theorem centre_cells_0 :
    (blockCells.filter fun q => decide (cellDim q = 0) && voxelHasCell 13 q) =
      [(2, 2, 2), (2, 2, 4), (2, 4, 2), (2, 4, 4), (4, 2, 2), (4, 2, 4), (4, 4, 2), (4, 4, 4)] := by
  decide

theorem centre_cells_1 :
    (blockCells.filter fun q => decide (cellDim q = 1) && voxelHasCell 13 q) =
      [(2, 2, 3), (2, 3, 2), (2, 3, 4), (2, 4, 3), (3, 2, 2), (3, 2, 4), (3, 4, 2), (3, 4, 4),
        (4, 2, 3), (4, 3, 2), (4, 3, 4), (4, 4, 3)] := by
  decide

theorem centre_cells_2 :
    (blockCells.filter fun q => decide (cellDim q = 2) && voxelHasCell 13 q) =
      [(2, 3, 3), (3, 2, 3), (3, 3, 2), (3, 3, 4), (3, 4, 3), (4, 3, 3)] := by
  decide

theorem centre_cells_3 :
    (blockCells.filter fun q => decide (cellDim q = 3) && voxelHasCell 13 q) = [(3, 3, 3)] := by
  decide

theorem countCells_withCentre (S : Nat → Bool) (d : Nat) :
    countCells (withCentre S) d =
      countCells S d +
        (blockCells.filter fun q => decide (cellDim q = d) && voxelHasCell 13 q).countP
          (fun q => !covered S q) := by
  unfold countCells
  simp only [covered_withCentre]
  exact countP_split blockCells _ _ _

/-- Adding the centre changes the Euler characteristic by the signed number
of cells of the centre voxel that the other voxels leave uncovered. -/
theorem eulerCharacteristic_withCentre (S : Nat → Bool) (h13 : S 13 = false) :
    eulerCharacteristic (withCentre S) - eulerCharacteristic S =
      (uncovered S (2, 2, 2) + uncovered S (2, 2, 4) + uncovered S (2, 4, 2) +
        uncovered S (2, 4, 4) + uncovered S (4, 2, 2) + uncovered S (4, 2, 4) +
        uncovered S (4, 4, 2) + uncovered S (4, 4, 4)) -
      (uncovered S (2, 2, 3) + uncovered S (2, 3, 2) + uncovered S (2, 3, 4) +
        uncovered S (2, 4, 3) + uncovered S (3, 2, 2) + uncovered S (3, 2, 4) +
        uncovered S (3, 4, 2) + uncovered S (3, 4, 4) + uncovered S (4, 2, 3) +
        uncovered S (4, 3, 2) + uncovered S (4, 3, 4) + uncovered S (4, 4, 3)) +
      (uncovered S (2, 3, 3) + uncovered S (3, 2, 3) + uncovered S (3, 3, 2) +
        uncovered S (3, 3, 4) + uncovered S (3, 4, 3) + uncovered S (4, 3, 3)) - 1 := by
  have hc : uncovered S (3, 3, 3) = 1 := by
    rw [uncovered_eq S (3, 3, 3) [13] (by decide)]
    simp [h13]
  unfold eulerCharacteristic
  rw [countCells_withCentre S 0, countCells_withCentre S 1, countCells_withCentre S 2,
    countCells_withCentre S 3, centre_cells_0, centre_cells_1, centre_cells_2, centre_cells_3]
  push_cast
  rw [countP_uncovered, countP_uncovered, countP_uncovered, countP_uncovered]
  simp only [List.map_cons, List.map_nil, List.sum_cons, List.sum_nil, hc]
  ring

/-- The sum formed by `is_euler_invariant` is eight times the change of the
Euler characteristic of the block when the centre voxel is added to the
foreground neighbours. -/
theorem eulerChar_eq (n : List Int) (h01 : ∀ i, n.getD i 0 = 0 ∨ n.getD i 0 = 1) :
    eulerChar n fill_euler_LUT =
      8 * (eulerCharacteristic (withCentre (neighbourSet n)) -
        eulerCharacteristic (neighbourSet n)) := by
  unfold eulerChar
  rw [octant_SWU n h01, octant_SEU n h01, octant_NWU n h01, octant_NEU n h01,
    octant_SWB n h01, octant_SEB n h01, octant_NWB n h01, octant_NEB n h01,
    eulerCharacteristic_withCentre _ (neighbourSet_centre n)]
  unfold octContribution
  ring


theorem getD_zero_or_one (n : List Int) (h01 : ∀ v ∈ n, v = 0 ∨ v = 1) (i : Nat) :
    n.getD i 0 = 0 ∨ n.getD i 0 = 1 := by
  by_cases hi : i < n.length
  · rw [List.getD_eq_getElem _ _ hi]
    exact h01 _ (List.getElem_mem hi)
  · left
    exact List.getD_eq_default _ _ (not_lt.1 hi)

/-! ## The generic flood fill -/

theorem mem_adjacentPositions (i j : Nat) :
    j ∈ adjacentPositions i ↔ j < 27 ∧ j ≠ 13 ∧ Adj26 (offset i) (offset j) := by
  unfold adjacentPositions
  rw [List.mem_filter, mem_neighbourIndices, decide_eq_true_eq, and_assoc]

theorem Relabels.nbJoined {l : Int} {c c1 : List Int} (h : Relabels l c c1) (a b : Nat)
    (hc : NbJoined c1 a b) : NbJoined c a b := by
  refine Relation.ReflTransGen.mono ?_ hc
  rintro x y ⟨h1, h2, h3, h4, h5, h6, h7⟩
  exact ⟨h1, h2, h3, h4, h.one x h5, h.one y h6, h7⟩

theorem Relabels.onesAround_le {l : Int} {c c1 : List Int} (h : Relabels l c c1) :
    onesAround c1 ≤ onesAround c := by
  unfold onesAround
  apply countP_le_of_imp
  intro i _ hi
  simp only [decide_eq_true_eq] at hi ⊢
  exact h.one i hi

theorem onesAround_set_lt (l : Int) (hl : l ≠ 1) (c : List Int) (i : Nat)
    (hi : i ∈ neighbourIndices) (h : c.getD i 0 = 1) : onesAround (c.set i l) < onesAround c := by
  unfold onesAround
  apply countP_lt_of_imp _ _ _ _ i hi
  · simpa using h
  · show decide ((c.set i l).getD i 0 = 1) = false
    rw [getD_set_self c i l h]
    simpa using hl
  · intro j _ hj
    simp only [decide_eq_true_eq] at hj ⊢
    exact (Relabels.of_set l c i h).one j hj

theorem onesAround_le_cells (c : List Int) : onesAround c ≤ 26 := by
  unfold onesAround
  exact le_trans (List.countP_le_length _) (by decide)

theorem floodFill_succ (fuel : Nat) (l : Int) (c : List Int) (i : Nat) :
    floodFill (fuel + 1) l c i =
      if c.getD i 0 = 1 then
        (adjacentPositions i).foldl (fun c j => floodFill fuel l c j) (c.set i l)
      else c := rfl

theorem fills_fold_post (l : Int) (hl : l ≠ 1) (fuel : Nat)
    (ih : ∀ i c, i ∈ neighbourIndices → onesAround c < fuel →
      FillPost l i c (floodFill fuel l c i)) :
    ∀ (js : List Nat), (∀ j ∈ js, j ∈ neighbourIndices) →
      ∀ c : List Int, onesAround c < fuel →
        FillsPost l js c (js.foldl (fun c j => floodFill fuel l c j) c) := by
  intro js
  induction js with
  | nil =>
    intro _ c _
    refine ⟨Relabels.unchanged l c, fun j hj => absurd hj (List.not_mem_nil _), ?_, ?_⟩
    · intro j h1 h2; rw [List.foldl_nil, h1] at h2; exact absurd h2.symm hl
    · intro j h1 h2; rw [List.foldl_nil, h1] at h2; exact absurd h2.symm hl
  | cons j0 t iht =>
    intro hjs c hc
    have p1 := ih j0 c (hjs j0 (List.mem_cons_self _ _)) hc
    have p2 := iht (fun j hj => hjs j (List.mem_cons_of_mem _ hj)) (floodFill fuel l c j0)
      (lt_of_le_of_lt p1.relabels.onesAround_le hc)
    rw [List.foldl_cons]
    generalize floodFill fuel l c j0 = c1 at p1 p2
    generalize List.foldl (fun c j => floodFill fuel l c j) c1 t = c2 at p2
    refine ⟨p1.relabels.compose p2.relabels, ?_, ?_, ?_⟩
    · intro j hj
      rcases List.mem_cons.1 hj with rfl | ht
      · intro h2; exact p1.done (p2.relabels.one _ h2)
      · exact p2.done j ht
    · intro j h1 h2 k hk
      by_cases hj : c1.getD j 0 = 1
      · exact p2.closed j hj h2 k hk
      · intro hk2
        exact p1.closed j h1 (p1.relabels.labelled j h1 hj) k hk (p2.relabels.one k hk2)
    · intro j h1 h2
      by_cases hj : c1.getD j 0 = 1
      · obtain ⟨j1, hj1, hj1', hconn⟩ := p2.sound j hj h2
        exact ⟨j1, List.mem_cons_of_mem _ hj1, p1.relabels.one _ hj1',
          p1.relabels.nbJoined _ _ hconn⟩
      · by_cases hj0 : c.getD j0 0 = 1
        · exact ⟨j0, List.mem_cons_self _ _, hj0, p1.sound j h1 (p1.relabels.labelled j h1 hj)⟩
        · exfalso
          have := p1.sound j h1 (p1.relabels.labelled j h1 hj)
          rcases Relation.ReflTransGen.cases_head this with e | ⟨x, hstep, _⟩
          · rw [e] at hj0; exact hj0 h1
          · exact hj0 hstep.2.2.2.2.1

/-- The generic flood fill from a position relabels exactly the positions
joined to it, whenever the fuel exceeds the number of positions holding 1. -/
theorem floodFill_post (l : Int) (hl : l ≠ 1) :
    ∀ (fuel i : Nat) (c : List Int), i ∈ neighbourIndices → onesAround c < fuel →
      FillPost l i c (floodFill fuel l c i) := by
  intro fuel
  induction fuel with
  | zero => intro i c _ h; exact absurd h (Nat.not_lt_zero _)
  | succ f ih =>
    intro i c hi hc
    rw [floodFill_succ]
    by_cases h1 : c.getD i 0 = 1
    · simp only [h1, if_true]
      have hlt : onesAround (c.set i l) < f :=
        lt_of_lt_of_le (onesAround_set_lt l hl c i hi h1) (Nat.lt_succ_iff.1 hc)
      have p := fills_fold_post l hl f ih (adjacentPositions i)
        (fun j hj => (mem_neighbourIndices j).2
          ⟨((mem_adjacentPositions i j).1 hj).1, ((mem_adjacentPositions i j).1 hj).2.1⟩)
        (c.set i l) hlt
      generalize List.foldl (fun c j => floodFill f l c j) (c.set i l) (adjacentPositions i) = c2
        at p
      have R01 : Relabels l c (c.set i l) := Relabels.of_set l c i h1
      have hi2 : c2.getD i 0 = l := by
        rcases p.relabels i with h | ⟨h, _⟩
        · rw [h]; exact getD_set_self c i l h1
        · rw [getD_set_self c i l h1] at h; exact absurd h hl
      have hv := (mem_neighbourIndices i).1 hi
      refine ⟨R01.compose p.relabels, by rw [hi2]; exact hl, ?_, ?_⟩
      · intro j hj1 hj2 k hk
        by_cases hji : j = i
        · subst hji; exact p.done k hk
        · exact p.closed j (by rw [getD_set_ne c i j l hji]; exact hj1) hj2 k hk
      · intro j hj1 hj2
        by_cases hji : j = i
        · subst hji; exact Relation.ReflTransGen.refl
        · obtain ⟨j0, hj0, hj0', hconn⟩ :=
            p.sound j (by rw [getD_set_ne c i j l hji]; exact hj1) hj2
          have hm := (mem_adjacentPositions i j0).1 hj0
          have hstep : NbStep c i j0 :=
            ⟨hv.1, hm.1, hv.2, hm.2.1, h1, R01.one j0 hj0', hm.2.2⟩
          exact Relation.ReflTransGen.head hstep (R01.nbJoined _ _ hconn)
    · simp only [h1, if_false]
      refine ⟨Relabels.unchanged l c, h1, ?_, ?_⟩
      · intro j hj1 hj2; rw [hj1] at hj2; exact absurd hj2.symm hl
      · intro j hj1 hj2; rw [hj1] at hj2; exact absurd hj2.symm hl

theorem NbStep.mirror {c : List Int} {a b : Nat} (h : NbStep c a b) : NbStep c b a := by
  obtain ⟨h1, h2, h3, h4, h5, h6, h7⟩ := h
  exact ⟨h2, h1, h4, h3, h6, h5, h7.flip⟩

theorem componentLoop_ge (rest : List Nat) :
    ∀ (c : List Int) (count : Nat), count ≤ componentLoop c count rest := by
  induction rest with
  | nil => intro c count; exact le_refl _
  | cons i t ih =>
    intro c count
    unfold componentLoop
    split
    · exact le_trans (Nat.le_succ _) (ih _ _)
    · exact ih _ _

theorem componentLoop_after (rest : List Nat) :
    ∀ c : List Int, componentLoop c 1 rest ≤ 1 ↔ ∀ k ∈ rest, c.getD k 0 ≠ 1 := by
  induction rest with
  | nil => intro c; simp [componentLoop]
  | cons i t ih =>
    intro c
    unfold componentLoop
    by_cases hi : c.getD i 0 = 1
    · simp only [hi, if_true]
      constructor
      · intro h
        have := componentLoop_ge t (floodFill 27 ((1 : Nat) + 2) c i) (1 + 1)
        omega
      · intro h; exact absurd hi (h i (List.mem_cons_self _ _))
    · simp only [hi, if_false]
      rw [ih]
      constructor
      · intro h k hk
        rcases List.mem_cons.1 hk with rfl | hk'
        · exact hi
        · exact h k hk'
      · intro h k hk; exact h k (List.mem_cons_of_mem _ hk)

theorem filled_of_joined {l : Int} {i : Nat} {c c' : List Int} (p : FillPost l i c c')
    (hi1 : c.getD i 0 = 1) (y : Nat) (h : NbJoined c i y) :
    c.getD y 0 = 1 ∧ c'.getD y 0 = l := by
  induction h with
  | refl => exact ⟨hi1, p.relabels.labelled i hi1 p.done⟩
  | @tail a b _ hstep ih =>
    obtain ⟨_, h2, _, h4, _, h6, h7⟩ := hstep
    have hk : b ∈ adjacentPositions a := (mem_adjacentPositions a b).2 ⟨h2, h4, h7⟩
    exact ⟨h6, p.relabels.labelled _ h6 (p.closed a ih.1 ih.2 b hk)⟩

theorem componentLoop_iff (c : List Int) :
    ∀ rest : List Nat, (∀ k ∈ rest, k ∈ neighbourIndices) →
      (componentLoop c 0 rest ≤ 1 ↔
        ∀ a ∈ rest, ∀ b ∈ rest, c.getD a 0 = 1 → c.getD b 0 = 1 → NbJoined c a b) := by
  intro rest
  induction rest with
  | nil => intro _; simp [componentLoop]
  | cons i t ih =>
    intro hb
    have hbt : ∀ k ∈ t, k ∈ neighbourIndices := fun k hk => hb k (List.mem_cons_of_mem _ hk)
    unfold componentLoop
    by_cases hi : c.getD i 0 = 1
    · simp only [hi, if_true]
      have p := floodFill_post ((0 : Nat) + 2) (by decide) 27 i c (hb i (List.mem_cons_self _ _))
        (Nat.lt_succ_of_le (onesAround_le_cells c))
      generalize floodFill 27 ((0 : Nat) + 2) c i = c1 at p
      rw [show (0 : Nat) + 1 = 1 from rfl, componentLoop_after]
      constructor
      · intro h
        have hlab : ∀ a ∈ i :: t, c.getD a 0 = 1 → c1.getD a 0 = ((0 : Nat) : Int) + 2 := by
          intro a ha ha1
          apply p.relabels.labelled a ha1
          rcases List.mem_cons.1 ha with rfl | hat
          · exact p.done
          · exact h a hat
        intro a ha b hb' ha1 hb1
        have ja := p.sound a ha1 (hlab a ha ha1)
        have jb := p.sound b hb1 (hlab b hb' hb1)
        exact (Relation.ReflTransGen.symmetric (fun _ _ h => NbStep.mirror h) ja).trans jb
      · intro h k hk hk1
        have hck : c.getD k 0 = 1 := p.relabels.one k hk1
        have hconn := h i (List.mem_cons_self _ _) k (List.mem_cons_of_mem _ hk) hi hck
        have := (filled_of_joined p hi k hconn).2
        rw [hk1] at this
        exact absurd this (by decide)
    · simp only [hi, if_false]
      rw [ih hbt]
      constructor
      · intro h a ha b hb' ha1 hb1
        rcases List.mem_cons.1 ha with rfl | hat
        · exact absurd ha1 hi
        · rcases List.mem_cons.1 hb' with rfl | hbt'
          · exact absurd hb1 hi
          · exact h a hat b hbt' ha1 hb1
      · intro h a ha b hb' ha1 hb1
        exact h a (List.mem_cons_of_mem _ ha) b (List.mem_cons_of_mem _ hb') ha1 hb1

/-- The generic flood fill counts at most one component exactly when any two
non-centre entries equal to 1 are joined. -/
theorem componentCount_le_one_iff (n : List Int) :
    componentCount n ≤ 1 ↔ AtMostOneComponent n := by
  unfold componentCount
  rw [componentLoop_iff n neighbourIndices (fun k hk => hk)]
  constructor
  · intro h i j hi hj hi13 hj13
    exact h i ((mem_neighbourIndices i).2 ⟨hi, hi13⟩) j ((mem_neighbourIndices j).2 ⟨hj, hj13⟩)
  · intro h a ha b hb
    have ha' := (mem_neighbourIndices a).1 ha
    have hb' := (mem_neighbourIndices b).1 hb
    exact h a b ha'.1 hb'.1 ha'.2 hb'.2


/-! ## Octant index functions and endpoint count -/

/-- The non-centre entries equal to 1 of the neighbourhood are the foreground
neighbours. -/
theorem onesAround_get_neighborhood (vol : Volume) (x y z : Int) :
    onesAround (get_neighborhood vol x y z) = neighbourCount vol (x, y, z) := by
  unfold onesAround neighbourCount
  apply List.countP_congr
  intro i hi
  rw [get_neighborhood_getD vol x y z i ((mem_neighbourIndices i).1 hi).1]

/-- The seven `|=` lines on distinct bits add their weights. -/
theorem or_chain_bool : ∀ b1 b2 b3 b4 b5 b6 b7 : Bool,
    (let v7 := if b7 then 1 ||| 128 else 1
     let v6 := if b6 then v7 ||| 64 else v7
     let v5 := if b5 then v6 ||| 32 else v6
     let v4 := if b4 then v5 ||| 16 else v5
     let v3 := if b3 then v4 ||| 8 else v4
     let v2 := if b2 then v3 ||| 4 else v3
     if b1 then v2 ||| 2 else v2) =
    1 + ((if b1 then 2 else 0) + ((if b2 then 4 else 0) + ((if b3 then 8 else 0) +
      ((if b4 then 16 else 0) + ((if b5 then 32 else 0) + ((if b6 then 64 else 0) +
      ((if b7 then 128 else 0) + 0))))))) := by
  decide

/-- One plus any sum of distinct weights from 2..128 is odd and at most 255. -/
theorem sum_chain_bool : ∀ b1 b2 b3 b4 b5 b6 b7 : Bool,
    (1 + ((if b1 then 2 else 0) + ((if b2 then 4 else 0) + ((if b3 then 8 else 0) +
      ((if b4 then 16 else 0) + ((if b5 then 32 else 0) + ((if b6 then 64 else 0) +
      ((if b7 then 128 else 0) + 0)))))))) % 2 = 1 ∧
    1 ≤ 1 + ((if b1 then 2 else 0) + ((if b2 then 4 else 0) + ((if b3 then 8 else 0) +
      ((if b4 then 16 else 0) + ((if b5 then 32 else 0) + ((if b6 then 64 else 0) +
      ((if b7 then 128 else 0) + 0))))))) ∧
    1 + ((if b1 then 2 else 0) + ((if b2 then 4 else 0) + ((if b3 then 8 else 0) +
      ((if b4 then 16 else 0) + ((if b5 then 32 else 0) + ((if b6 then 64 else 0) +
      ((if b7 then 128 else 0) + 0))))))) ≤ 255 := by
  decide

/-- Seven nested `orBit` lines with the weights 2..128 starting from 1 add up. -/
theorem orBit_chain (n : List Int) (a b c d e f g : Nat) :
    orBit n a 2 (orBit n b 4 (orBit n c 8 (orBit n d 16 (orBit n e 32 (orBit n f 64
      (orBit n g 128 1)))))) =
    weightedSum n [(a, 2), (b, 4), (c, 8), (d, 16), (e, 32), (f, 64), (g, 128)] := by
  have key := or_chain_bool (decide (n.getD a 0 ≠ 0)) (decide (n.getD b 0 ≠ 0))
    (decide (n.getD c 0 ≠ 0)) (decide (n.getD d 0 ≠ 0)) (decide (n.getD e 0 ≠ 0))
    (decide (n.getD f 0 ≠ 0)) (decide (n.getD g 0 ≠ 0))
  simp only [decide_eq_true_eq] at key
  unfold orBit weightedSum
  simp only [List.map, List.sum_cons, List.sum_nil]
  exact key

theorem weightedSum_bounds (n : List Int) (a b c d e f g : Nat) :
    weightedSum n [(a, 2), (b, 4), (c, 8), (d, 16), (e, 32), (f, 64), (g, 128)] % 2 = 1 ∧
    1 ≤ weightedSum n [(a, 2), (b, 4), (c, 8), (d, 16), (e, 32), (f, 64), (g, 128)] ∧
    weightedSum n [(a, 2), (b, 4), (c, 8), (d, 16), (e, 32), (f, 64), (g, 128)] ≤ 255 := by
  have key := sum_chain_bool (decide (n.getD a 0 ≠ 0)) (decide (n.getD b 0 ≠ 0))
    (decide (n.getD c 0 ≠ 0)) (decide (n.getD d 0 ≠ 0)) (decide (n.getD e 0 ≠ 0))
    (decide (n.getD f 0 ≠ 0)) (decide (n.getD g 0 ≠ 0))
  simp only [decide_eq_true_eq] at key
  unfold weightedSum
  simp only [List.map, List.sum_cons, List.sum_nil]
  exact key

theorem readsOctant_of (f : List Int → Nat) (dx dy dz : Int) (a b c d e g h : Nat)
    (hf : ∀ n, f n = orBit n a 2 (orBit n b 4 (orBit n c 8 (orBit n d 16 (orBit n e 32
      (orBit n g 64 (orBit n h 128 1)))))))
    (hn : [a, b, c, d, e, g, h].Nodup)
    (hp : ∀ i ∈ [a, b, c, d, e, g, h], i ∈ octantPositions dx dy dz)
    (hq : ∀ i ∈ octantPositions dx dy dz, i ∈ [a, b, c, d, e, g, h]) :
    ReadsOctant f dx dy dz :=
  ⟨[(a, 2), (b, 4), (c, 8), (d, 16), (e, 32), (g, 64), (h, 128)], rfl, hn, by simp, by simp,
    fun i => ⟨hp i, hq i⟩, fun n => (hf n).trans (orBit_chain n a b c d e g h)⟩

theorem octant_index_bounds (f : List Int → Nat) (a b c d e g h : Nat)
    (hf : ∀ n, f n = orBit n a 2 (orBit n b 4 (orBit n c 8 (orBit n d 16 (orBit n e 32
      (orBit n g 64 (orBit n h 128 1))))))) (n : List Int) :
    f n % 2 = 1 ∧ 1 ≤ f n ∧ f n ≤ 255 := by
  rw [hf, orBit_chain]
  exact weightedSum_bounds _ _ _ _ _ _ _ _


/-! ## Euler characteristic of a grid -/

/-- A grid without foreground has Euler characteristic 0. -/
theorem gridEulerCharacteristic_empty (v : Volume) (h : foregroundCells v = []) :
    gridEulerCharacteristic v = 0 := by
  have h0 : ∀ d, gridCountCells v d = 0 := by
    intro d
    unfold gridCountCells
    rw [h, List.countP_eq_zero]
    intro q _
    simp [gridCovered]
  unfold gridEulerCharacteristic
  simp [h0]

set_option maxRecDepth 100000 in
/-- The three mutually adjacent voxels form a contractible set. -/
theorem cornerVolume_euler : gridEulerCharacteristic cornerVolume = 1 := by
  decide


/-! ## Box-shaped foregrounds -/

/-- Along one axis, the cell at offset `k - 1` from a box voxel is inside the
box exactly when the flag for that side says so. -/
theorem axis_side (lo x hi : Int) (h1 : lo ≤ x) (h2 : x ≤ hi) (k : Nat) (hk : k < 3) :
    (lo ≤ x + (((k : Nat) : Int) - 1) ∧ x + (((k : Nat) : Int) - 1) ≤ hi) ↔
      sideOK k (decide (lo < x)) (decide (x < hi)) = true := by
  interval_cases k <;> simp [sideOK] <;> omega

/-- Entry `i` of the pattern. -/
theorem boxPattern_getD (xm xp ym yp zm zp : Bool) (i : Nat) (hi : i < 27) :
    (boxPattern xm xp ym yp zm zp).getD i 0 = boxEntry xm xp ym yp zm zp i := by
  unfold boxPattern
  rw [List.getD_eq_getElem?_getD, List.getElem?_map, List.getElem?_range hi]
  rfl

/-- The neighbourhood read at a voxel of a box-shaped foreground is the
pattern of its six flags. -/
theorem box_neighbourhood {v : Volume} (hb : Binary v) {lo hi : Point} (hbox : IsBox v lo hi)
    {p : Point} (hp : InBox lo hi p) :
    get_neighborhood v p.1 p.2.1 p.2.2 =
      boxPattern (decide (lo.1 < p.1)) (decide (p.1 < hi.1)) (decide (lo.2.1 < p.2.1))
        (decide (p.2.1 < hi.2.1)) (decide (lo.2.2 < p.2.2)) (decide (p.2.2 < hi.2.2)) := by
  apply list_eq_of_getD _ _ 27 (get_neighborhood_length _ _ _ _) (by simp [boxPattern])
  intro i hlt
  rw [get_neighborhood_getD _ _ _ _ i hlt, boxPattern_getD _ _ _ _ _ _ i hlt]
  obtain ⟨h1, h2, h3, h4, h5, h6⟩ := hp
  have hx := axis_side lo.1 p.1 hi.1 h1 h2 (i % 3) (Nat.mod_lt _ (by decide))
  have hy := axis_side lo.2.1 p.2.1 hi.2.1 h3 h4 (i / 3 % 3) (Nat.mod_lt _ (by decide))
  have hz := axis_side lo.2.2 p.2.2 hi.2.2 h5 h6 (i / 9) (by omega)
  have hfg := hbox (shift (p.1, p.2.1, p.2.2) i)
  unfold boxEntry
  by_cases hin : InBox lo hi (shift (p.1, p.2.1, p.2.2) i)
  · have hf := hfg.2 hin
    unfold Foreground at hf
    rw [hf, if_pos]
    simp only [InBox, shift, offset] at hin
    simp only [Bool.and_eq_true]
    exact ⟨⟨hx.1 ⟨hin.1, hin.2.1⟩, hy.1 ⟨hin.2.2.1, hin.2.2.2.1⟩⟩,
      hz.1 ⟨hin.2.2.2.2.1, hin.2.2.2.2.2⟩⟩
  · have hf : ¬ Foreground v (shift (p.1, p.2.1, p.2.2) i) := fun h => hin (hfg.1 h)
    unfold Foreground at hf
    rcases hb.pixel01 (shift (p.1, p.2.1, p.2.2) i).1 (shift (p.1, p.2.1, p.2.2) i).2.1
      (shift (p.1, p.2.1, p.2.2) i).2.2 with h0 | h1'
    · rw [h0, if_neg]
      intro hc
      simp only [Bool.and_eq_true] at hc
      apply hin
      simp only [InBox, shift, offset]
      exact ⟨(hx.2 hc.1.1).1, (hx.2 hc.1.1).2, (hy.2 hc.1.2).1, (hy.2 hc.1.2).2,
        (hz.2 hc.2).1, (hz.2 hc.2).2⟩
    · exact absurd h1' hf

/-- A neighbourhood in which one foreground neighbour is adjacent to every
other foreground neighbour passes the simple-point test. -/
theorem simple_of_hub (n : List Int) (h : Nat) (hh : h < 27) (h13 : h ≠ 13)
    (hv : n.getD h 0 = 1)
    (hall : ∀ j, j < 27 → j ≠ 13 → n.getD j 0 = 1 → j = h ∨ Adj26 (offset j) (offset h)) :
    is_simple_point n = true := by
  rw [is_simple_point_iff]
  have to_hub : ∀ i, i < 27 → i ≠ 13 → n.getD i 0 = 1 → NbJoined n i h := by
    intro i hi hi13 hvi
    rcases hall i hi hi13 hvi with rfl | hadj
    · exact Relation.ReflTransGen.refl
    · exact Relation.ReflTransGen.single ⟨hi, hh, hi13, h13, hvi, hv, hadj⟩
  have from_hub : ∀ i, i < 27 → i ≠ 13 → n.getD i 0 = 1 → NbJoined n h i := by
    intro i hi hi13 hvi
    rcases hall i hi hi13 hvi with rfl | hadj
    · exact Relation.ReflTransGen.refl
    · exact Relation.ReflTransGen.single ⟨hh, hi, h13, hi13, hv, hvi, hadj.flip⟩
  intro i j hi hj hi13 hj13 hvi hvj
  exact Relation.ReflTransGen.trans (to_hub i hi hi13 hvi) (from_hub j hj hj13 hvj)

/-- The Boolean hub test implies the simple-point test. -/
theorem simple_of_hubOK (n : List Int) (h : Nat) (hh : h < 27) (h13 : h ≠ 13)
    (hok : hubOK n h = true) : is_simple_point n = true := by
  unfold hubOK at hok
  simp only [Bool.and_eq_true, decide_eq_true_eq, List.all_eq_true, List.mem_range,
    Bool.or_eq_true] at hok
  refine simple_of_hub n h hh h13 hok.1 (fun j hj hj13 hvj => ?_)
  rcases hok.2 j hj with ((h1 | h2) | h3) | h4
  · exact absurd h1 hj13
  · exact absurd hvj h2
  · exact Or.inl h3
  · exact Or.inr h4

set_option maxRecDepth 100000 in
/-- The hub of each one-sided pattern. -/
theorem box_hubs : ∀ a b c d : Bool,
    hubOK (boxPattern false true a b c d) 14 = true ∧
    hubOK (boxPattern true false a b c d) 12 = true ∧
    hubOK (boxPattern a b false true c d) 16 = true ∧
    hubOK (boxPattern a b true false c d) 10 = true ∧
    hubOK (boxPattern a b c d false true) 22 = true ∧
    hubOK (boxPattern a b c d true false) 4 = true := by
  decide!

/-- A box voxel with a one-sided axis passes the simple-point test: the
neighbour on that side is adjacent to all other foreground neighbours. -/
theorem box_simple (xm xp ym yp zm zp : Bool) (h : oneSided xm xp ym yp zm zp = true) :
    is_simple_point (boxPattern xm xp ym yp zm zp) = true := by
  unfold oneSided at h
  simp only [Bool.or_eq_true, bne_iff_ne, ne_eq] at h
  rcases h with (h | h) | h
  · cases xm <;> cases xp <;> first | exact absurd rfl h | skip
    · exact simple_of_hubOK _ 14 (by decide) (by decide) (box_hubs ym yp zm zp).1
    · exact simple_of_hubOK _ 12 (by decide) (by decide) (box_hubs ym yp zm zp).2.1
  · cases ym <;> cases yp <;> first | exact absurd rfl h | skip
    · exact simple_of_hubOK _ 16 (by decide) (by decide) (box_hubs xm xp zm zp).2.2.1
    · exact simple_of_hubOK _ 10 (by decide) (by decide) (box_hubs xm xp zm zp).2.2.2.1
  · cases zm <;> cases zp <;> first | exact absurd rfl h | skip
    · exact simple_of_hubOK _ 22 (by decide) (by decide) (box_hubs xm xp ym yp).2.2.2.2.1
    · exact simple_of_hubOK _ 4 (by decide) (by decide) (box_hubs xm xp ym yp).2.2.2.2.2

set_option maxRecDepth 100000 in
/-- The Euler test on the 64 patterns: it passes exactly on the one-sided ones. -/
theorem box_euler : ∀ xm xp ym yp zm zp : Bool,
    is_euler_invariant (boxPattern xm xp ym yp zm zp) fill_euler_LUT =
      oneSided xm xp ym yp zm zp := by
  decide!

set_option maxRecDepth 100000 in
/-- The endpoint count on the 64 patterns. -/
theorem box_endpoint : ∀ xm xp ym yp zm zp : Bool,
    decide ((List.range 27).foldl (fun count i =>
      if (boxPattern xm xp ym yp zm zp).getD i 0 = 1 then count + 1 else count) (-1 : Int) = 1) =
      decide (flagCount xm xp ym yp zm zp = 1) := by
  decide!

set_option maxRecDepth 100000 in
/-- The six face neighbours of the 64 patterns. -/
theorem box_border : ∀ xm xp ym yp zm zp : Bool,
    decide ((boxPattern xm xp ym yp zm zp).getD 10 0 ≤ 0) = !ym ∧
    decide ((boxPattern xm xp ym yp zm zp).getD 16 0 ≤ 0) = !yp ∧
    decide ((boxPattern xm xp ym yp zm zp).getD 14 0 ≤ 0) = !xp ∧
    decide ((boxPattern xm xp ym yp zm zp).getD 12 0 ≤ 0) = !xm ∧
    decide ((boxPattern xm xp ym yp zm zp).getD 22 0 ≤ 0) = !zp ∧
    decide ((boxPattern xm xp ym yp zm zp).getD 4 0 ≤ 0) = !zm := by
  decide!


/-- The scan tests at a voxel of a box-shaped foreground, in terms of its
flags. -/
theorem isCandidate_box {v : Volume} (hb : Binary v) {lo hi : Point} (hbox : IsBox v lo hi)
    {p : Point} (hp : InBox lo hi p) (b : Nat) :
    isCandidate v b p =
      (borderFlag b (decide (lo.1 < p.1)) (decide (p.1 < hi.1)) (decide (lo.2.1 < p.2.1))
          (decide (p.2.1 < hi.2.1)) (decide (lo.2.2 < p.2.2)) (decide (p.2.2 < hi.2.2)) &&
        !decide (flagCount (decide (lo.1 < p.1)) (decide (p.1 < hi.1)) (decide (lo.2.1 < p.2.1))
          (decide (p.2.1 < hi.2.1)) (decide (lo.2.2 < p.2.2)) (decide (p.2.2 < hi.2.2)) = 1) &&
        oneSided (decide (lo.1 < p.1)) (decide (p.1 < hi.1)) (decide (lo.2.1 < p.2.1))
          (decide (p.2.1 < hi.2.1)) (decide (lo.2.2 < p.2.2)) (decide (p.2.2 < hi.2.2))) := by
  have hf : Foreground v p := (hbox p).2 hp
  have hcell := hf.cell_eq
  have hn := box_neighbourhood hb hbox hp
  generalize decide (lo.1 < p.1) = xm at hn ⊢
  generalize decide (p.1 < hi.1) = xp at hn ⊢
  generalize decide (lo.2.1 < p.2.1) = ym at hn ⊢
  generalize decide (p.2.1 < hi.2.1) = yp at hn ⊢
  generalize decide (lo.2.2 < p.2.2) = zm at hn ⊢
  generalize decide (p.2.2 < hi.2.2) = zp at hn ⊢
  have hend : is_endpoint v p.1 p.2.1 p.2.2 = decide (flagCount xm xp ym yp zm zp = 1) := by
    unfold is_endpoint
    simp only [hn]
    exact box_endpoint xm xp ym yp zm zp
  have hbord : isBorderPoint v b p.1 p.2.1 p.2.2 = borderFlag b xm xp ym yp zm zp := by
    have e1 : N v p.1 p.2.1 p.2.2 = (get_neighborhood v p.1 p.2.1 p.2.2).getD 10 0 := rfl
    have e2 : S v p.1 p.2.1 p.2.2 = (get_neighborhood v p.1 p.2.1 p.2.2).getD 16 0 := rfl
    have e3 : E v p.1 p.2.1 p.2.2 = (get_neighborhood v p.1 p.2.1 p.2.2).getD 14 0 := rfl
    have e4 : W v p.1 p.2.1 p.2.2 = (get_neighborhood v p.1 p.2.1 p.2.2).getD 12 0 := rfl
    have e5 : U v p.1 p.2.1 p.2.2 = (get_neighborhood v p.1 p.2.1 p.2.2).getD 22 0 := rfl
    have e6 : B v p.1 p.2.1 p.2.2 = (get_neighborhood v p.1 p.2.1 p.2.2).getD 4 0 := rfl
    obtain ⟨b1, b2, b3, b4, b5, b6⟩ := box_border xm xp ym yp zm zp
    unfold isBorderPoint borderFlag
    rw [e1, e2, e3, e4, e5, e6, hn, b1, b2, b3, b4, b5, b6]
  have heul : is_euler_invariant (toU8 (get_neighborhood v p.1 p.2.1 p.2.2)) fill_euler_LUT =
      oneSided xm xp ym yp zm zp := by
    rw [toU8_get_neighborhood v hb, hn]
    exact box_euler xm xp ym yp zm zp
  have hsim : oneSided xm xp ym yp zm zp = true →
      is_simple_point (toU8 (get_neighborhood v p.1 p.2.1 p.2.2)) = true := by
    intro h
    rw [toU8_get_neighborhood v hb, hn]
    exact box_simple xm xp ym yp zm zp h
  unfold isCandidate
  simp only [get_pixel_nocheck, hcell, hend, hbord, heul]
  cases hB : borderFlag b xm xp ym yp zm zp <;>
    cases hE : decide (flagCount xm xp ym yp zm zp = 1) <;>
    cases hO : oneSided xm xp ym yp zm zp <;> simp
  exact hsim hO

/-- With flags on one axis only, the scan tests fail in every direction. -/
theorem thin_flags (b : Nat) : ∀ f1 f2 : Bool,
    (borderFlag b f1 f2 false false false false && !decide (flagCount f1 f2 false false false false = 1)
      && oneSided f1 f2 false false false false) = false ∧
    (borderFlag b false false f1 f2 false false && !decide (flagCount false false f1 f2 false false = 1)
      && oneSided false false f1 f2 false false) = false ∧
    (borderFlag b false false false false f1 f2 && !decide (flagCount false false false false f1 f2 = 1)
      && oneSided false false false false f1 f2) = false := by
  intro f1 f2
  cases f1 <;> cases f2 <;> simp [flagCount, oneSided]

/-- A box that is one voxel wide on two axes has no candidate. -/
theorem isCandidate_thin_box {v : Volume} (hb : Binary v) {lo hi : Point} (hbox : IsBox v lo hi)
    (hthin : (lo.1 = hi.1 ∧ lo.2.1 = hi.2.1) ∨ (lo.1 = hi.1 ∧ lo.2.2 = hi.2.2) ∨
      (lo.2.1 = hi.2.1 ∧ lo.2.2 = hi.2.2)) (b : Nat) (p : Point) (hin : InRange v p) :
    isCandidate v b p = false := by
  by_cases hp : InBox lo hi p
  · rw [isCandidate_box hb hbox hp b]
    have hp' := hp
    obtain ⟨h1, h2, h3, h4, h5, h6⟩ := hp'
    rcases hthin with ⟨e1, e2⟩ | ⟨e1, e2⟩ | ⟨e1, e2⟩
    · have a1 : decide (lo.1 < p.1) = false := by simp; omega
      have a2 : decide (p.1 < hi.1) = false := by simp; omega
      have a3 : decide (lo.2.1 < p.2.1) = false := by simp; omega
      have a4 : decide (p.2.1 < hi.2.1) = false := by simp; omega
      rw [a1, a2, a3, a4]
      exact (thin_flags b _ _).2.2
    · have a1 : decide (lo.1 < p.1) = false := by simp; omega
      have a2 : decide (p.1 < hi.1) = false := by simp; omega
      have a3 : decide (lo.2.2 < p.2.2) = false := by simp; omega
      have a4 : decide (p.2.2 < hi.2.2) = false := by simp; omega
      rw [a1, a2, a3, a4]
      exact (thin_flags b _ _).2.1
    · have a1 : decide (lo.2.1 < p.2.1) = false := by simp; omega
      have a2 : decide (p.2.1 < hi.2.1) = false := by simp; omega
      have a3 : decide (lo.2.2 < p.2.2) = false := by simp; omega
      have a4 : decide (p.2.2 < hi.2.2) = false := by simp; omega
      rw [a1, a2, a3, a4]
      exact (thin_flags b _ _).1
  · cases hc : isCandidate v b p with
    | false => rfl
    | true =>
      have hcell := isCandidate_cell v b p hc
      exact absurd ((hbox p).1 ((foreground_iff v p).2 ⟨hin, hcell⟩)) hp

/-! ## Rods -/

/-- A rod is the box between its first and last voxel. -/
theorem inBox_rod (p : Point) (axis n : Nat) (hn : 1 ≤ n) (q : Point) :
    InBox p (rodPoint p axis (n - 1)) q ↔ ∃ k, k < n ∧ q = rodPoint p axis k := by
  obtain ⟨px, py, pz⟩ := p
  obtain ⟨qx, qy, qz⟩ := q
  match axis with
  | 0 =>
    simp only [InBox, rodPoint, Prod.mk.injEq]
    constructor
    · intro h
      exact ⟨(qx - px).toNat, by omega, by omega, by omega, by omega⟩
    · rintro ⟨k, hk, h1, h2, h3⟩
      omega
  | 1 =>
    simp only [InBox, rodPoint, Prod.mk.injEq]
    constructor
    · intro h
      exact ⟨(qy - py).toNat, by omega, by omega, by omega, by omega⟩
    · rintro ⟨k, hk, h1, h2, h3⟩
      omega
  | _ + 2 =>
    simp only [InBox, rodPoint, Prod.mk.injEq]
    constructor
    · intro h
      exact ⟨(qz - pz).toNat, by omega, by omega, by omega, by omega⟩
    · rintro ⟨k, hk, h1, h2, h3⟩
      omega

/-- A rod is one voxel wide on two axes. -/
theorem rod_thin (p : Point) (axis k : Nat) :
    (p.1 = (rodPoint p axis k).1 ∧ p.2.1 = (rodPoint p axis k).2.1) ∨
    (p.1 = (rodPoint p axis k).1 ∧ p.2.2 = (rodPoint p axis k).2.2) ∨
    (p.2.1 = (rodPoint p axis k).2.1 ∧ p.2.2 = (rodPoint p axis k).2.2) := by
  match axis with
  | 0 => exact Or.inr (Or.inr ⟨rfl, rfl⟩)
  | 1 => exact Or.inr (Or.inl ⟨rfl, rfl⟩)
  | _ + 2 => exact Or.inl ⟨rfl, rfl⟩

/-- A rod has no candidate: the loop ends after one iteration with the rod
as it was. -/
theorem rod_unchanged (v : Volume) (hbin : Binary v) (p : Point) (axis n : Nat) (hn : 1 ≤ n)
    (hrod : IsRod v p axis n) : computeThinImageIter v = (v, 1) := by
  have hbox : IsBox v p (rodPoint p axis (n - 1)) := fun q =>
    (hrod q).trans (inBox_rod p axis n hn q).symm
  exact computeThinImageIter_of_no_candidates v
    (fun b q hq => isCandidate_thin_box hbin hbox (rod_thin p axis (n - 1)) b q hq)

set_option maxRecDepth 100000 in
/-- The five-voxel grid is a rod. -/
theorem rodVolume_isRod : IsRod rodVolume (0, 0, 0) 0 5 := by
  intro q
  rw [← mem_foregroundCells]
  have e : foregroundCells rodVolume = [(0, 0, 0), (1, 0, 0), (2, 0, 0), (3, 0, 0), (4, 0, 0)] := by
    decide
  rw [e]
  constructor
  · intro h
    simp only [List.mem_cons, List.mem_singleton, List.not_mem_nil, or_false] at h
    rcases h with rfl | rfl | rfl | rfl | rfl
    · exact ⟨0, by decide, rfl⟩
    · exact ⟨1, by decide, rfl⟩
    · exact ⟨2, by decide, rfl⟩
    · exact ⟨3, by decide, rfl⟩
    · exact ⟨4, by decide, rfl⟩
  · rintro ⟨k, hk, rfl⟩
    interval_cases k <;> decide


/-! ## Peeling a face layer -/

/-- The re-checking loop deletes every candidate of a layer `L` when each
layer voxel has a neighbour (position `h`) outside the layer that is adjacent
to all its other foreground neighbours. -/
theorem recheck_fold_peel (v : Volume) (hb : Binary v) (L : Point → Prop) (h : Nat)
    (hh : h < 27) (h13 : h ≠ 13)
    (hbehind : ∀ p, Foreground v p → L p → Foreground v (shift p h) ∧ ¬ L (shift p h))
    (hfront : ∀ p, Foreground v p → L p → ∀ j, j < 27 → j ≠ 13 → Foreground v (shift p j) →
      j = h ∨ Adj26 (offset j) (offset h)) :
    ∀ (cs : List Point) (st : Volume × Bool), (∀ c ∈ cs, Foreground v c ∧ L c) →
      Shrinks v st.1 → (∀ q, Foreground v q → ¬ L q → Foreground st.1 q) →
      Shrinks v (cs.foldl recheckStep st).1 ∧
      (∀ q, Foreground v q → ¬ L q → Foreground (cs.foldl recheckStep st).1 q) ∧
      (∀ q, ¬ Foreground st.1 q → ¬ Foreground (cs.foldl recheckStep st).1 q) ∧
      (∀ c ∈ cs, ¬ Foreground (cs.foldl recheckStep st).1 c) ∧
      (cs ≠ [] → (cs.foldl recheckStep st).2 = false) := by
  intro cs
  induction cs with
  | nil =>
    intro st _ hs hk
    exact ⟨hs, hk, fun _ hq => hq, fun c hc => absurd hc (List.not_mem_nil _),
      fun hc => absurd rfl hc⟩
  | cons c t ih =>
    intro st hcs hs hk
    obtain ⟨hfc, hLc⟩ := hcs c (List.mem_cons_self _ _)
    have hbw : Binary st.1 := hs.binary_of hb
    have hsimple : is_simple_point (toU8 (get_neighborhood st.1 c.1 c.2.1 c.2.2)) = true := by
      rw [toU8_get_neighborhood st.1 hbw]
      apply simple_of_hub _ h hh h13
      · rw [get_neighborhood_getD _ _ _ _ h hh]
        exact hk _ (hbehind c hfc hLc).1 (hbehind c hfc hLc).2
      · intro j hj hj13 hvj
        rw [get_neighborhood_getD _ _ _ _ j hj] at hvj
        exact hfront c hfc hLc j hj hj13 (hs.foreground_of _ hvj)
    have hstep : recheckStep st c = (set_pixel st.1 c.1 c.2.1 c.2.2 0, false) := by
      unfold recheckStep
      rw [if_pos hsimple]
    rw [List.foldl_cons, hstep]
    have hs' : Shrinks v (set_pixel st.1 c.1 c.2.1 c.2.2 0) :=
      hs.chain (Shrinks.of_delete _ _ _ _)
    have hk' : ∀ q, Foreground v q → ¬ L q → Foreground (set_pixel st.1 c.1 c.2.1 c.2.2 0) q := by
      intro q hq hLq
      rw [foreground_set_pixel]
      refine ⟨hk q hq hLq, ?_⟩
      rintro rfl
      exact hLq hLc
    obtain ⟨r1, r2, r3, r4, _⟩ := ih (set_pixel st.1 c.1 c.2.1 c.2.2 0, false)
      (fun d hd => hcs d (List.mem_cons_of_mem _ hd)) hs' hk'
    refine ⟨r1, r2, ?_, ?_, fun _ => recheck_fold_false t _⟩
    · intro q hq
      apply r3
      rw [foreground_set_pixel]
      exact fun hc => hq hc.1
    · intro d hd
      rcases List.mem_cons.1 hd with rfl | hd'
      · apply r3
        rw [foreground_set_pixel]
        exact fun hc => hc.2 rfl
      · exact r4 d hd'

/-- A pass whose candidates are exactly a layer `L` of the foreground, each
layer voxel backed by a neighbour outside the layer, deletes the whole layer
and nothing else. -/
theorem borderPass_peel (v : Volume) (hb : Binary v) (b : Nat) (L : Point → Prop) (h : Nat)
    (hh : h < 27) (h13 : h ≠ 13)
    (hcand : ∀ p, InRange v p → (isCandidate v b p = true ↔ Foreground v p ∧ L p))
    (hbehind : ∀ p, Foreground v p → L p → Foreground v (shift p h) ∧ ¬ L (shift p h))
    (hfront : ∀ p, Foreground v p → L p → ∀ j, j < 27 → j ≠ 13 → Foreground v (shift p j) →
      j = h ∨ Adj26 (offset j) (offset h))
    (hne : ∃ p, Foreground v p ∧ L p) :
    (borderPass v b).2 = false ∧ Binary (borderPass v b).1 ∧
    ∀ p, Foreground (borderPass v b).1 p ↔ Foreground v p ∧ ¬ L p := by
  have hmem : ∀ c ∈ collectCandidates v b, Foreground v c ∧ L c := by
    intro c hc
    obtain ⟨hr, hi⟩ := (mem_collectCandidates v b c).1 hc
    exact (hcand c hr).1 hi
  obtain ⟨r1, r2, _, r4, r5⟩ := recheck_fold_peel v hb L h hh h13 hbehind hfront
    (collectCandidates v b) (v, true) hmem (Shrinks.same v) (fun q hq _ => hq)
  refine ⟨?_, r1.binary_of hb, fun p => ⟨fun hp => ?_, fun hp => r2 p hp.1 hp.2⟩⟩
  · apply r5
    obtain ⟨p, hp, hL⟩ := hne
    intro he
    have : p ∈ collectCandidates v b :=
      (mem_collectCandidates v b p).2 ⟨hp.inRange, (hcand p hp.inRange).2 ⟨hp, hL⟩⟩
    rw [he] at this
    exact absurd this (List.not_mem_nil _)
  · have hv : Foreground v p := r1.foreground_of p hp
    refine ⟨hv, fun hL => ?_⟩
    exact r4 p ((mem_collectCandidates v b p).2 ⟨hv.inRange, (hcand p hv.inRange).2 ⟨hv, hL⟩⟩) hp

set_option maxRecDepth 100000 in
/-- On a box at least two voxels thick along the axis of the pass and along
one more axis, the voxels passing the scan tests are those of the face layer
of the direction. -/
theorem peel_flags : ∀ xm xp ym yp zm zp : Bool,
    ((ym || yp) = true → (xm || xp || zm || zp) = true →
      (borderFlag 1 xm xp ym yp zm zp && !decide (flagCount xm xp ym yp zm zp = 1) &&
        oneSided xm xp ym yp zm zp) = !ym) ∧
    ((ym || yp) = true → (xm || xp || zm || zp) = true →
      (borderFlag 2 xm xp ym yp zm zp && !decide (flagCount xm xp ym yp zm zp = 1) &&
        oneSided xm xp ym yp zm zp) = !yp) ∧
    ((xm || xp) = true → (ym || yp || zm || zp) = true →
      (borderFlag 3 xm xp ym yp zm zp && !decide (flagCount xm xp ym yp zm zp = 1) &&
        oneSided xm xp ym yp zm zp) = !xp) ∧
    ((xm || xp) = true → (ym || yp || zm || zp) = true →
      (borderFlag 4 xm xp ym yp zm zp && !decide (flagCount xm xp ym yp zm zp = 1) &&
        oneSided xm xp ym yp zm zp) = !xm) ∧
    ((zm || zp) = true → (xm || xp || ym || yp) = true →
      (borderFlag 5 xm xp ym yp zm zp && !decide (flagCount xm xp ym yp zm zp = 1) &&
        oneSided xm xp ym yp zm zp) = !zp) ∧
    ((zm || zp) = true → (xm || xp || ym || yp) = true →
      (borderFlag 6 xm xp ym yp zm zp && !decide (flagCount xm xp ym yp zm zp = 1) &&
        oneSided xm xp ym yp zm zp) = !zm) := by
  decide

set_option maxRecDepth 100000 in
/-- Every non-centre position that is not on the face of the block towards
direction 1 is the opposite face centre (16) or adjacent to it. -/
theorem front_face_N :
    ∀ j, j < 27 → j ≠ 13 → 0 ≤ (offset j).2.1 → j = 16 ∨ Adj26 (offset j) (offset 16) := by
  decide

set_option maxRecDepth 100000 in
/-- Every non-centre position that is not on the face of the block towards
direction 2 is the opposite face centre (10) or adjacent to it. -/
theorem front_face_S :
    ∀ j, j < 27 → j ≠ 13 → (offset j).2.1 ≤ 0 → j = 10 ∨ Adj26 (offset j) (offset 10) := by
  decide

set_option maxRecDepth 100000 in
/-- Every non-centre position that is not on the face of the block towards
direction 3 is the opposite face centre (12) or adjacent to it. -/
theorem front_face_E :
    ∀ j, j < 27 → j ≠ 13 → (offset j).1 ≤ 0 → j = 12 ∨ Adj26 (offset j) (offset 12) := by
  decide

set_option maxRecDepth 100000 in
/-- Every non-centre position that is not on the face of the block towards
direction 4 is the opposite face centre (14) or adjacent to it. -/
theorem front_face_W :
    ∀ j, j < 27 → j ≠ 13 → 0 ≤ (offset j).1 → j = 14 ∨ Adj26 (offset j) (offset 14) := by
  decide

set_option maxRecDepth 100000 in
/-- Every non-centre position that is not on the face of the block towards
direction 5 is the opposite face centre (4) or adjacent to it. -/
theorem front_face_U :
    ∀ j, j < 27 → j ≠ 13 → (offset j).2.2 ≤ 0 → j = 4 ∨ Adj26 (offset j) (offset 4) := by
  decide

set_option maxRecDepth 100000 in
/-- Every non-centre position that is not on the face of the block towards
direction 6 is the opposite face centre (22) or adjacent to it. -/
theorem front_face_B :
    ∀ j, j < 27 → j ≠ 13 → 0 ≤ (offset j).2.2 → j = 22 ∨ Adj26 (offset j) (offset 22) := by
  decide

/-- The pass towards north (`y - 1`) on a box at least two voxels thick on that
axis and on one more axis deletes exactly the face layer of the box. -/
theorem box_peel_N {v : Volume} (hb : Binary v) {lo hi : Point} (hbox : IsBox v lo hi)
    (hle : lo.1 ≤ hi.1 ∧ lo.2.1 ≤ hi.2.1 ∧ lo.2.2 ≤ hi.2.2)
    (hthick : lo.2.1 < hi.2.1) (hother : lo.1 < hi.1 ∨ lo.2.2 < hi.2.2) :
    (borderPass v 1).2 = false ∧ Binary (borderPass v 1).1 ∧
    IsBox (borderPass v 1).1 (lo.1, lo.2.1 + 1, lo.2.2) hi := by
  have hflag : ∀ p, InBox lo hi p → isCandidate v 1 p = !decide (lo.2.1 < p.2.1) := by
    intro p hp
    rw [isCandidate_box hb hbox hp 1]
    obtain ⟨h1, h2, h3, h4, h5, h6⟩ := hp
    apply (peel_flags _ _ _ _ _ _).1
    · simp only [Bool.or_eq_true, decide_eq_true_eq]; omega
    · simp only [Bool.or_eq_true, decide_eq_true_eq]; omega
  have hcand : ∀ p, InRange v p → (isCandidate v 1 p = true ↔ Foreground v p ∧ p.2.1 = lo.2.1) := by
    intro p hin
    by_cases hp : InBox lo hi p
    · rw [hflag p hp, hbox p]
      obtain ⟨h1, h2, h3, h4, h5, h6⟩ := hp
      simp only [Bool.not_eq_true', decide_eq_false_iff_not, InBox]
      constructor <;> intro h <;> omega
    · constructor
      · intro hc
        exact absurd ((hbox p).1 ((foreground_iff v p).2 ⟨hin, isCandidate_cell v 1 p hc⟩)) hp
      · intro hc
        exact absurd ((hbox p).1 hc.1) hp
  have hoff : offset 16 = (0, 1, 0) := by decide
  have hbehind : ∀ p, Foreground v p → p.2.1 = lo.2.1 →
      Foreground v (shift p 16) ∧ ¬ ((shift p 16).2.1 = lo.2.1) := by
    intro p hf hL
    obtain ⟨h1, h2, h3, h4, h5, h6⟩ := (hbox p).1 hf
    refine ⟨(hbox _).2 ?_, ?_⟩
    · simp only [InBox, shift, hoff]
      omega
    · simp only [shift, hoff]
      omega
  have hfront : ∀ p, Foreground v p → p.2.1 = lo.2.1 → ∀ j, j < 27 → j ≠ 13 →
      Foreground v (shift p j) → j = 16 ∨ Adj26 (offset j) (offset 16) := by
    intro p hf hL j hj hj13 hfj
    have hpj := (hbox _).1 hfj
    simp only [InBox, shift] at hpj
    exact front_face_N j hj hj13 (by omega)
  have hne : ∃ p, Foreground v p ∧ p.2.1 = lo.2.1 := by
    refine ⟨lo, (hbox _).2 ?_, rfl⟩
    simp only [InBox]
    omega
  obtain ⟨r1, r2, r3⟩ := borderPass_peel v hb 1 (fun p => p.2.1 = lo.2.1) 16 (by decide) (by decide)
    hcand hbehind hfront hne
  refine ⟨r1, r2, fun p => ?_⟩
  rw [r3, hbox p]
  simp only [InBox]
  constructor <;> intro h <;> omega

/-- The pass towards south (`y + 1`) on a box at least two voxels thick on that
axis and on one more axis deletes exactly the face layer of the box. -/
theorem box_peel_S {v : Volume} (hb : Binary v) {lo hi : Point} (hbox : IsBox v lo hi)
    (hle : lo.1 ≤ hi.1 ∧ lo.2.1 ≤ hi.2.1 ∧ lo.2.2 ≤ hi.2.2)
    (hthick : lo.2.1 < hi.2.1) (hother : lo.1 < hi.1 ∨ lo.2.2 < hi.2.2) :
    (borderPass v 2).2 = false ∧ Binary (borderPass v 2).1 ∧
    IsBox (borderPass v 2).1 lo (hi.1, hi.2.1 - 1, hi.2.2) := by
  have hflag : ∀ p, InBox lo hi p → isCandidate v 2 p = !decide (p.2.1 < hi.2.1) := by
    intro p hp
    rw [isCandidate_box hb hbox hp 2]
    obtain ⟨h1, h2, h3, h4, h5, h6⟩ := hp
    apply (peel_flags _ _ _ _ _ _).2.1
    · simp only [Bool.or_eq_true, decide_eq_true_eq]; omega
    · simp only [Bool.or_eq_true, decide_eq_true_eq]; omega
  have hcand : ∀ p, InRange v p → (isCandidate v 2 p = true ↔ Foreground v p ∧ p.2.1 = hi.2.1) := by
    intro p hin
    by_cases hp : InBox lo hi p
    · rw [hflag p hp, hbox p]
      obtain ⟨h1, h2, h3, h4, h5, h6⟩ := hp
      simp only [Bool.not_eq_true', decide_eq_false_iff_not, InBox]
      constructor <;> intro h <;> omega
    · constructor
      · intro hc
        exact absurd ((hbox p).1 ((foreground_iff v p).2 ⟨hin, isCandidate_cell v 2 p hc⟩)) hp
      · intro hc
        exact absurd ((hbox p).1 hc.1) hp
  have hoff : offset 10 = (0, -1, 0) := by decide
  have hbehind : ∀ p, Foreground v p → p.2.1 = hi.2.1 →
      Foreground v (shift p 10) ∧ ¬ ((shift p 10).2.1 = hi.2.1) := by
    intro p hf hL
    obtain ⟨h1, h2, h3, h4, h5, h6⟩ := (hbox p).1 hf
    refine ⟨(hbox _).2 ?_, ?_⟩
    · simp only [InBox, shift, hoff]
      omega
    · simp only [shift, hoff]
      omega
  have hfront : ∀ p, Foreground v p → p.2.1 = hi.2.1 → ∀ j, j < 27 → j ≠ 13 →
      Foreground v (shift p j) → j = 10 ∨ Adj26 (offset j) (offset 10) := by
    intro p hf hL j hj hj13 hfj
    have hpj := (hbox _).1 hfj
    simp only [InBox, shift] at hpj
    exact front_face_S j hj hj13 (by omega)
  have hne : ∃ p, Foreground v p ∧ p.2.1 = hi.2.1 := by
    refine ⟨hi, (hbox _).2 ?_, rfl⟩
    simp only [InBox]
    omega
  obtain ⟨r1, r2, r3⟩ := borderPass_peel v hb 2 (fun p => p.2.1 = hi.2.1) 10 (by decide) (by decide)
    hcand hbehind hfront hne
  refine ⟨r1, r2, fun p => ?_⟩
  rw [r3, hbox p]
  simp only [InBox]
  constructor <;> intro h <;> omega

/-- The pass towards east (`x + 1`) on a box at least two voxels thick on that
axis and on one more axis deletes exactly the face layer of the box. -/
theorem box_peel_E {v : Volume} (hb : Binary v) {lo hi : Point} (hbox : IsBox v lo hi)
    (hle : lo.1 ≤ hi.1 ∧ lo.2.1 ≤ hi.2.1 ∧ lo.2.2 ≤ hi.2.2)
    (hthick : lo.1 < hi.1) (hother : lo.2.1 < hi.2.1 ∨ lo.2.2 < hi.2.2) :
    (borderPass v 3).2 = false ∧ Binary (borderPass v 3).1 ∧
    IsBox (borderPass v 3).1 lo (hi.1 - 1, hi.2.1, hi.2.2) := by
  have hflag : ∀ p, InBox lo hi p → isCandidate v 3 p = !decide (p.1 < hi.1) := by
    intro p hp
    rw [isCandidate_box hb hbox hp 3]
    obtain ⟨h1, h2, h3, h4, h5, h6⟩ := hp
    apply (peel_flags _ _ _ _ _ _).2.2.1
    · simp only [Bool.or_eq_true, decide_eq_true_eq]; omega
    · simp only [Bool.or_eq_true, decide_eq_true_eq]; omega
  have hcand : ∀ p, InRange v p → (isCandidate v 3 p = true ↔ Foreground v p ∧ p.1 = hi.1) := by
    intro p hin
    by_cases hp : InBox lo hi p
    · rw [hflag p hp, hbox p]
      obtain ⟨h1, h2, h3, h4, h5, h6⟩ := hp
      simp only [Bool.not_eq_true', decide_eq_false_iff_not, InBox]
      constructor <;> intro h <;> omega
    · constructor
      · intro hc
        exact absurd ((hbox p).1 ((foreground_iff v p).2 ⟨hin, isCandidate_cell v 3 p hc⟩)) hp
      · intro hc
        exact absurd ((hbox p).1 hc.1) hp
  have hoff : offset 12 = (-1, 0, 0) := by decide
  have hbehind : ∀ p, Foreground v p → p.1 = hi.1 →
      Foreground v (shift p 12) ∧ ¬ ((shift p 12).1 = hi.1) := by
    intro p hf hL
    obtain ⟨h1, h2, h3, h4, h5, h6⟩ := (hbox p).1 hf
    refine ⟨(hbox _).2 ?_, ?_⟩
    · simp only [InBox, shift, hoff]
      omega
    · simp only [shift, hoff]
      omega
  have hfront : ∀ p, Foreground v p → p.1 = hi.1 → ∀ j, j < 27 → j ≠ 13 →
      Foreground v (shift p j) → j = 12 ∨ Adj26 (offset j) (offset 12) := by
    intro p hf hL j hj hj13 hfj
    have hpj := (hbox _).1 hfj
    simp only [InBox, shift] at hpj
    exact front_face_E j hj hj13 (by omega)
  have hne : ∃ p, Foreground v p ∧ p.1 = hi.1 := by
    refine ⟨hi, (hbox _).2 ?_, rfl⟩
    simp only [InBox]
    omega
  obtain ⟨r1, r2, r3⟩ := borderPass_peel v hb 3 (fun p => p.1 = hi.1) 12 (by decide) (by decide)
    hcand hbehind hfront hne
  refine ⟨r1, r2, fun p => ?_⟩
  rw [r3, hbox p]
  simp only [InBox]
  constructor <;> intro h <;> omega

/-- The pass towards west (`x - 1`) on a box at least two voxels thick on that
axis and on one more axis deletes exactly the face layer of the box. -/
theorem box_peel_W {v : Volume} (hb : Binary v) {lo hi : Point} (hbox : IsBox v lo hi)
    (hle : lo.1 ≤ hi.1 ∧ lo.2.1 ≤ hi.2.1 ∧ lo.2.2 ≤ hi.2.2)
    (hthick : lo.1 < hi.1) (hother : lo.2.1 < hi.2.1 ∨ lo.2.2 < hi.2.2) :
    (borderPass v 4).2 = false ∧ Binary (borderPass v 4).1 ∧
    IsBox (borderPass v 4).1 (lo.1 + 1, lo.2.1, lo.2.2) hi := by
  have hflag : ∀ p, InBox lo hi p → isCandidate v 4 p = !decide (lo.1 < p.1) := by
    intro p hp
    rw [isCandidate_box hb hbox hp 4]
    obtain ⟨h1, h2, h3, h4, h5, h6⟩ := hp
    apply (peel_flags _ _ _ _ _ _).2.2.2.1
    · simp only [Bool.or_eq_true, decide_eq_true_eq]; omega
    · simp only [Bool.or_eq_true, decide_eq_true_eq]; omega
  have hcand : ∀ p, InRange v p → (isCandidate v 4 p = true ↔ Foreground v p ∧ p.1 = lo.1) := by
    intro p hin
    by_cases hp : InBox lo hi p
    · rw [hflag p hp, hbox p]
      obtain ⟨h1, h2, h3, h4, h5, h6⟩ := hp
      simp only [Bool.not_eq_true', decide_eq_false_iff_not, InBox]
      constructor <;> intro h <;> omega
    · constructor
      · intro hc
        exact absurd ((hbox p).1 ((foreground_iff v p).2 ⟨hin, isCandidate_cell v 4 p hc⟩)) hp
      · intro hc
        exact absurd ((hbox p).1 hc.1) hp
  have hoff : offset 14 = (1, 0, 0) := by decide
  have hbehind : ∀ p, Foreground v p → p.1 = lo.1 →
      Foreground v (shift p 14) ∧ ¬ ((shift p 14).1 = lo.1) := by
    intro p hf hL
    obtain ⟨h1, h2, h3, h4, h5, h6⟩ := (hbox p).1 hf
    refine ⟨(hbox _).2 ?_, ?_⟩
    · simp only [InBox, shift, hoff]
      omega
    · simp only [shift, hoff]
      omega
  have hfront : ∀ p, Foreground v p → p.1 = lo.1 → ∀ j, j < 27 → j ≠ 13 →
      Foreground v (shift p j) → j = 14 ∨ Adj26 (offset j) (offset 14) := by
    intro p hf hL j hj hj13 hfj
    have hpj := (hbox _).1 hfj
    simp only [InBox, shift] at hpj
    exact front_face_W j hj hj13 (by omega)
  have hne : ∃ p, Foreground v p ∧ p.1 = lo.1 := by
    refine ⟨lo, (hbox _).2 ?_, rfl⟩
    simp only [InBox]
    omega
  obtain ⟨r1, r2, r3⟩ := borderPass_peel v hb 4 (fun p => p.1 = lo.1) 14 (by decide) (by decide)
    hcand hbehind hfront hne
  refine ⟨r1, r2, fun p => ?_⟩
  rw [r3, hbox p]
  simp only [InBox]
  constructor <;> intro h <;> omega

/-- The pass towards up (`z + 1`) on a box at least two voxels thick on that
axis and on one more axis deletes exactly the face layer of the box. -/
theorem box_peel_U {v : Volume} (hb : Binary v) {lo hi : Point} (hbox : IsBox v lo hi)
    (hle : lo.1 ≤ hi.1 ∧ lo.2.1 ≤ hi.2.1 ∧ lo.2.2 ≤ hi.2.2)
    (hthick : lo.2.2 < hi.2.2) (hother : lo.1 < hi.1 ∨ lo.2.1 < hi.2.1) :
    (borderPass v 5).2 = false ∧ Binary (borderPass v 5).1 ∧
    IsBox (borderPass v 5).1 lo (hi.1, hi.2.1, hi.2.2 - 1) := by
  have hflag : ∀ p, InBox lo hi p → isCandidate v 5 p = !decide (p.2.2 < hi.2.2) := by
    intro p hp
    rw [isCandidate_box hb hbox hp 5]
    obtain ⟨h1, h2, h3, h4, h5, h6⟩ := hp
    apply (peel_flags _ _ _ _ _ _).2.2.2.2.1
    · simp only [Bool.or_eq_true, decide_eq_true_eq]; omega
    · simp only [Bool.or_eq_true, decide_eq_true_eq]; omega
  have hcand : ∀ p, InRange v p → (isCandidate v 5 p = true ↔ Foreground v p ∧ p.2.2 = hi.2.2) := by
    intro p hin
    by_cases hp : InBox lo hi p
    · rw [hflag p hp, hbox p]
      obtain ⟨h1, h2, h3, h4, h5, h6⟩ := hp
      simp only [Bool.not_eq_true', decide_eq_false_iff_not, InBox]
      constructor <;> intro h <;> omega
    · constructor
      · intro hc
        exact absurd ((hbox p).1 ((foreground_iff v p).2 ⟨hin, isCandidate_cell v 5 p hc⟩)) hp
      · intro hc
        exact absurd ((hbox p).1 hc.1) hp
  have hoff : offset 4 = (0, 0, -1) := by decide
  have hbehind : ∀ p, Foreground v p → p.2.2 = hi.2.2 →
      Foreground v (shift p 4) ∧ ¬ ((shift p 4).2.2 = hi.2.2) := by
    intro p hf hL
    obtain ⟨h1, h2, h3, h4, h5, h6⟩ := (hbox p).1 hf
    refine ⟨(hbox _).2 ?_, ?_⟩
    · simp only [InBox, shift, hoff]
      omega
    · simp only [shift, hoff]
      omega
  have hfront : ∀ p, Foreground v p → p.2.2 = hi.2.2 → ∀ j, j < 27 → j ≠ 13 →
      Foreground v (shift p j) → j = 4 ∨ Adj26 (offset j) (offset 4) := by
    intro p hf hL j hj hj13 hfj
    have hpj := (hbox _).1 hfj
    simp only [InBox, shift] at hpj
    exact front_face_U j hj hj13 (by omega)
  have hne : ∃ p, Foreground v p ∧ p.2.2 = hi.2.2 := by
    refine ⟨hi, (hbox _).2 ?_, rfl⟩
    simp only [InBox]
    omega
  obtain ⟨r1, r2, r3⟩ := borderPass_peel v hb 5 (fun p => p.2.2 = hi.2.2) 4 (by decide) (by decide)
    hcand hbehind hfront hne
  refine ⟨r1, r2, fun p => ?_⟩
  rw [r3, hbox p]
  simp only [InBox]
  constructor <;> intro h <;> omega

/-- The pass towards bottom (`z - 1`) on a box at least two voxels thick on that
axis and on one more axis deletes exactly the face layer of the box. -/
theorem box_peel_B {v : Volume} (hb : Binary v) {lo hi : Point} (hbox : IsBox v lo hi)
    (hle : lo.1 ≤ hi.1 ∧ lo.2.1 ≤ hi.2.1 ∧ lo.2.2 ≤ hi.2.2)
    (hthick : lo.2.2 < hi.2.2) (hother : lo.1 < hi.1 ∨ lo.2.1 < hi.2.1) :
    (borderPass v 6).2 = false ∧ Binary (borderPass v 6).1 ∧
    IsBox (borderPass v 6).1 (lo.1, lo.2.1, lo.2.2 + 1) hi := by
  have hflag : ∀ p, InBox lo hi p → isCandidate v 6 p = !decide (lo.2.2 < p.2.2) := by
    intro p hp
    rw [isCandidate_box hb hbox hp 6]
    obtain ⟨h1, h2, h3, h4, h5, h6⟩ := hp
    apply (peel_flags _ _ _ _ _ _).2.2.2.2.2
    · simp only [Bool.or_eq_true, decide_eq_true_eq]; omega
    · simp only [Bool.or_eq_true, decide_eq_true_eq]; omega
  have hcand : ∀ p, InRange v p → (isCandidate v 6 p = true ↔ Foreground v p ∧ p.2.2 = lo.2.2) := by
    intro p hin
    by_cases hp : InBox lo hi p
    · rw [hflag p hp, hbox p]
      obtain ⟨h1, h2, h3, h4, h5, h6⟩ := hp
      simp only [Bool.not_eq_true', decide_eq_false_iff_not, InBox]
      constructor <;> intro h <;> omega
    · constructor
      · intro hc
        exact absurd ((hbox p).1 ((foreground_iff v p).2 ⟨hin, isCandidate_cell v 6 p hc⟩)) hp
      · intro hc
        exact absurd ((hbox p).1 hc.1) hp
  have hoff : offset 22 = (0, 0, 1) := by decide
  have hbehind : ∀ p, Foreground v p → p.2.2 = lo.2.2 →
      Foreground v (shift p 22) ∧ ¬ ((shift p 22).2.2 = lo.2.2) := by
    intro p hf hL
    obtain ⟨h1, h2, h3, h4, h5, h6⟩ := (hbox p).1 hf
    refine ⟨(hbox _).2 ?_, ?_⟩
    · simp only [InBox, shift, hoff]
      omega
    · simp only [shift, hoff]
      omega
  have hfront : ∀ p, Foreground v p → p.2.2 = lo.2.2 → ∀ j, j < 27 → j ≠ 13 →
      Foreground v (shift p j) → j = 22 ∨ Adj26 (offset j) (offset 22) := by
    intro p hf hL j hj hj13 hfj
    have hpj := (hbox _).1 hfj
    simp only [InBox, shift] at hpj
    exact front_face_B j hj hj13 (by omega)
  have hne : ∃ p, Foreground v p ∧ p.2.2 = lo.2.2 := by
    refine ⟨lo, (hbox _).2 ?_, rfl⟩
    simp only [InBox]
    omega
  obtain ⟨r1, r2, r3⟩ := borderPass_peel v hb 6 (fun p => p.2.2 = lo.2.2) 22 (by decide) (by decide)
    hcand hbehind hfront hne
  refine ⟨r1, r2, fun p => ?_⟩
  rw [r3, hbox p]
  simp only [InBox]
  constructor <;> intro h <;> omega

/-! ## The solid 5x5x5 cube -/

/-- A pass without candidates returns the volume and reports no change. -/
theorem borderPass_of_no_candidates (vol : Volume) (b : Nat)
    (h : ∀ p, InRange vol p → isCandidate vol b p = false) : borderPass vol b = (vol, true) := by
  have : collectCandidates vol b = [] := by
    unfold collectCandidates
    rw [List.filter_eq_nil_iff]
    intro p hp
    rw [h p ((mem_scanOrder vol p).1 hp)]
    exact Bool.false_ne_true
  unfold borderPass
  rw [this]
  rfl

/-- One iteration of the loop, given the outcome of its six passes. -/
theorem iteration_chain (v v1 v2 v3 v4 v5 v6 : Volume) (c1 c2 c3 c4 c5 c6 : Bool)
    (h1 : borderPass v 1 = (v1, c1)) (h2 : borderPass v1 2 = (v2, c2))
    (h3 : borderPass v2 3 = (v3, c3)) (h4 : borderPass v3 4 = (v4, c4))
    (h5 : borderPass v4 5 = (v5, c5)) (h6 : borderPass v5 6 = (v6, c6)) :
    iteration v =
      (v6, c1.toNat + c2.toNat + c3.toNat + c4.toNat + c5.toNat + c6.toNat) := by
  unfold iteration
  simp only [List.foldl_cons, List.foldl_nil, borderStep, h1, h2, h3, h4, h5, h6]
  cases c1 <;> cases c2 <;> cases c3 <;> cases c4 <;> cases c5 <;> cases c6 <;> rfl

/-- An iteration with fewer than six unchanged directions is followed by
another one. -/
theorem thinLoop_continue (f : Nat) (v w : Volume) (it n : Nat) (h : iteration v = (w, n))
    (hn : n < 6) : thinLoop (f + 1) v it = thinLoop f w (it + 1) := by
  rw [thinLoop_succ, h]
  exact if_pos hn

/-- An iteration with six unchanged directions ends the loop. -/
theorem thinLoop_stop (f : Nat) (v w : Volume) (it : Nat) (h : iteration v = (w, 6)) :
    thinLoop (f + 1) v it = some (w, it + 1) := by
  rw [thinLoop_succ, h]
  rfl

/-- The peel lemmas as transitions between box states. -/
theorem boxState_N {v : Volume} {lo hi : Point} (h : BoxState lo hi v)
    (hle : lo.1 ≤ hi.1 ∧ lo.2.1 ≤ hi.2.1 ∧ lo.2.2 ≤ hi.2.2)
    (hthick : lo.2.1 < hi.2.1) (hother : lo.1 < hi.1 ∨ lo.2.2 < hi.2.2) :
    ∃ w, borderPass v 1 = (w, false) ∧ BoxState (lo.1, lo.2.1 + 1, lo.2.2) hi w :=
  have p := box_peel_N h.1 h.2 hle hthick hother
  ⟨(borderPass v 1).1, Prod.ext rfl p.1, p.2.1, p.2.2⟩

theorem boxState_S {v : Volume} {lo hi : Point} (h : BoxState lo hi v)
    (hle : lo.1 ≤ hi.1 ∧ lo.2.1 ≤ hi.2.1 ∧ lo.2.2 ≤ hi.2.2)
    (hthick : lo.2.1 < hi.2.1) (hother : lo.1 < hi.1 ∨ lo.2.2 < hi.2.2) :
    ∃ w, borderPass v 2 = (w, false) ∧ BoxState lo (hi.1, hi.2.1 - 1, hi.2.2) w :=
  have p := box_peel_S h.1 h.2 hle hthick hother
  ⟨(borderPass v 2).1, Prod.ext rfl p.1, p.2.1, p.2.2⟩

theorem boxState_E {v : Volume} {lo hi : Point} (h : BoxState lo hi v)
    (hle : lo.1 ≤ hi.1 ∧ lo.2.1 ≤ hi.2.1 ∧ lo.2.2 ≤ hi.2.2)
    (hthick : lo.1 < hi.1) (hother : lo.2.1 < hi.2.1 ∨ lo.2.2 < hi.2.2) :
    ∃ w, borderPass v 3 = (w, false) ∧ BoxState lo (hi.1 - 1, hi.2.1, hi.2.2) w :=
  have p := box_peel_E h.1 h.2 hle hthick hother
  ⟨(borderPass v 3).1, Prod.ext rfl p.1, p.2.1, p.2.2⟩

theorem boxState_W {v : Volume} {lo hi : Point} (h : BoxState lo hi v)
    (hle : lo.1 ≤ hi.1 ∧ lo.2.1 ≤ hi.2.1 ∧ lo.2.2 ≤ hi.2.2)
    (hthick : lo.1 < hi.1) (hother : lo.2.1 < hi.2.1 ∨ lo.2.2 < hi.2.2) :
    ∃ w, borderPass v 4 = (w, false) ∧ BoxState (lo.1 + 1, lo.2.1, lo.2.2) hi w :=
  have p := box_peel_W h.1 h.2 hle hthick hother
  ⟨(borderPass v 4).1, Prod.ext rfl p.1, p.2.1, p.2.2⟩

theorem boxState_U {v : Volume} {lo hi : Point} (h : BoxState lo hi v)
    (hle : lo.1 ≤ hi.1 ∧ lo.2.1 ≤ hi.2.1 ∧ lo.2.2 ≤ hi.2.2)
    (hthick : lo.2.2 < hi.2.2) (hother : lo.1 < hi.1 ∨ lo.2.1 < hi.2.1) :
    ∃ w, borderPass v 5 = (w, false) ∧ BoxState lo (hi.1, hi.2.1, hi.2.2 - 1) w :=
  have p := box_peel_U h.1 h.2 hle hthick hother
  ⟨(borderPass v 5).1, Prod.ext rfl p.1, p.2.1, p.2.2⟩

theorem boxState_B {v : Volume} {lo hi : Point} (h : BoxState lo hi v)
    (hle : lo.1 ≤ hi.1 ∧ lo.2.1 ≤ hi.2.1 ∧ lo.2.2 ≤ hi.2.2)
    (hthick : lo.2.2 < hi.2.2) (hother : lo.1 < hi.1 ∨ lo.2.1 < hi.2.1) :
    ∃ w, borderPass v 6 = (w, false) ∧ BoxState (lo.1, lo.2.1, lo.2.2 + 1) hi w :=
  have p := box_peel_B h.1 h.2 hle hthick hother
  ⟨(borderPass v 6).1, Prod.ext rfl p.1, p.2.1, p.2.2⟩

/-- A pass on a box one voxel wide on two axes changes nothing. -/
theorem boxState_thin {v : Volume} {lo hi : Point} (h : BoxState lo hi v)
    (hthin : (lo.1 = hi.1 ∧ lo.2.1 = hi.2.1) ∨ (lo.1 = hi.1 ∧ lo.2.2 = hi.2.2) ∨
      (lo.2.1 = hi.2.1 ∧ lo.2.2 = hi.2.2)) (b : Nat) : borderPass v b = (v, true) :=
  borderPass_of_no_candidates v b (fun p hp => isCandidate_thin_box h.1 h.2 hthin b p hp)

/-- The run on a solid 5x5x5 cube: ten passes peel one face layer each, the
loop ends in its third iteration on the rod (2,2,1), (2,2,2), (2,2,3). -/
theorem cube_run (v : Volume) (h0 : BoxState (0, 0, 0) (4, 4, 4) v) :
    ∃ w, BoxState (2, 2, 1) (2, 2, 3) w ∧ ∀ fuel, thinLoop (fuel + 3) v 0 = some (w, 3) := by
  obtain ⟨v1, e1, s1⟩ := boxState_N h0 (by decide) (by decide) (by decide)
  have s1 : BoxState (0, 1, 0) (4, 4, 4) v1 := s1
  obtain ⟨v2, e2, s2⟩ := boxState_S s1 (by decide) (by decide) (by decide)
  have s2 : BoxState (0, 1, 0) (4, 3, 4) v2 := s2
  obtain ⟨v3, e3, s3⟩ := boxState_E s2 (by decide) (by decide) (by decide)
  have s3 : BoxState (0, 1, 0) (3, 3, 4) v3 := s3
  obtain ⟨v4, e4, s4⟩ := boxState_W s3 (by decide) (by decide) (by decide)
  have s4 : BoxState (1, 1, 0) (3, 3, 4) v4 := s4
  obtain ⟨v5, e5, s5⟩ := boxState_U s4 (by decide) (by decide) (by decide)
  have s5 : BoxState (1, 1, 0) (3, 3, 3) v5 := s5
  obtain ⟨v6, e6, s6⟩ := boxState_B s5 (by decide) (by decide) (by decide)
  have s6 : BoxState (1, 1, 1) (3, 3, 3) v6 := s6
  have it1 := iteration_chain v v1 v2 v3 v4 v5 v6 _ _ _ _ _ _ e1 e2 e3 e4 e5 e6
  obtain ⟨w1, f1, t1⟩ := boxState_N s6 (by decide) (by decide) (by decide)
  have t1 : BoxState (1, 2, 1) (3, 3, 3) w1 := t1
  obtain ⟨w2, f2, t2⟩ := boxState_S t1 (by decide) (by decide) (by decide)
  have t2 : BoxState (1, 2, 1) (3, 2, 3) w2 := t2
  obtain ⟨w3, f3, t3⟩ := boxState_E t2 (by decide) (by decide) (by decide)
  have t3 : BoxState (1, 2, 1) (2, 2, 3) w3 := t3
  obtain ⟨w4, f4, t4⟩ := boxState_W t3 (by decide) (by decide) (by decide)
  have t4 : BoxState (2, 2, 1) (2, 2, 3) w4 := t4
  have hthin : (((2 : Int), (2 : Int), (1 : Int)).1 = ((2 : Int), (2 : Int), (3 : Int)).1 ∧
      ((2 : Int), (2 : Int), (1 : Int)).2.1 = ((2 : Int), (2 : Int), (3 : Int)).2.1) ∨
      (((2 : Int), (2 : Int), (1 : Int)).1 = ((2 : Int), (2 : Int), (3 : Int)).1 ∧
      ((2 : Int), (2 : Int), (1 : Int)).2.2 = ((2 : Int), (2 : Int), (3 : Int)).2.2) ∨
      (((2 : Int), (2 : Int), (1 : Int)).2.1 = ((2 : Int), (2 : Int), (3 : Int)).2.1 ∧
      ((2 : Int), (2 : Int), (1 : Int)).2.2 = ((2 : Int), (2 : Int), (3 : Int)).2.2) :=
    Or.inl ⟨rfl, rfl⟩
  have g := boxState_thin t4 hthin
  have it2 := iteration_chain v6 w1 w2 w3 w4 w4 w4 _ _ _ _ _ _ f1 f2 f3 f4 (g 5) (g 6)
  have it3 := iteration_chain w4 w4 w4 w4 w4 w4 w4 _ _ _ _ _ _ (g 1) (g 2) (g 3) (g 4) (g 5) (g 6)
  refine ⟨w4, t4, fun fuel => ?_⟩
  rw [thinLoop_continue (fuel + 2) v v6 0 _ it1 (by decide),
    thinLoop_continue (fuel + 1) v6 w4 1 _ it2 (by decide),
    thinLoop_stop fuel w4 w4 2 it3]

/-- The loop on a solid 5x5x5 cube returns after three iterations. -/
theorem computeThinImageIter_cube (v : Volume) (h0 : BoxState (0, 0, 0) (4, 4, 4) v) :
    ∃ w, BoxState (2, 2, 1) (2, 2, 3) w ∧ computeThinImageIter v = (w, 3) := by
  obtain ⟨w, hw, hrun⟩ := cube_run v h0
  refine ⟨w, hw, ?_⟩
  unfold computeThinImageIter
  rw [← thinLoop_fuel v 0 (countForeground v + 3) (by omega), hrun]
  rfl


/-- A 5x5x5 grid of ones is a box state. -/
theorem boxState_of_solid (v : Volume) (hX : v.X = 5) (hY : v.Y = 5) (hZ : v.Z = 5)
    (hall : ∀ x y z : Int, InRange v (x, y, z) → v.cell x y z = 1) :
    BoxState (0, 0, 0) (4, 4, 4) v := by
  constructor
  · intro x y z h1 h2 h3 h4 h5 h6
    exact Or.inr (hall x y z ⟨h1, h2, h3, h4, h5, h6⟩)
  · intro p
    rw [foreground_iff]
    constructor
    · rintro ⟨hin, _⟩
      unfold InRange at hin
      rw [hX, hY, hZ] at hin
      simp only [InBox]
      omega
    · intro hp
      simp only [InBox] at hp
      have hin : InRange v p := by
        unfold InRange
        rw [hX, hY, hZ]
        omega
      exact ⟨hin, hall p.1 p.2.1 p.2.2 hin⟩

set_option maxRecDepth 100000 in
/-- The rod has three cells among the 125 of the scan. -/
theorem rod_count_in_cube :
    (scanOrder cubeVolume).countP (fun p => decide (InBox (2, 2, 1) (2, 2, 3) p)) = 3 := by
  decide

/-- A 5x5x5 volume whose foreground is the rod has three foreground cells. -/
theorem countForeground_rod (w : Volume) (hX : w.X = 5) (hY : w.Y = 5) (hZ : w.Z = 5)
    (hw : BoxState (2, 2, 1) (2, 2, 3) w) : countForeground w = 3 := by
  unfold countForeground
  rw [← rod_count_in_cube, ← scanOrder_congr cubeVolume w hX hY hZ]
  apply List.countP_congr
  intro p hp
  have hin := (mem_scanOrder w p).1 hp
  have h1 := foreground_iff w p
  have h2 := hw.2 p
  simp only [decide_eq_true_eq]
  constructor
  · intro hc
    exact h2.1 (h1.2 ⟨hin, hc⟩)
  · intro hb
    exact (h1.1 (h2.2 hb)).2

/-- The three voxels of the rod are joined. -/
theorem joined_rod (w : Volume) (hw : IsBox w (2, 2, 1) (2, 2, 3)) (p q : Point)
    (hp : Foreground w p) (hq : Foreground w q) : Joined w p q := by
  have mem : ∀ r, Foreground w r → r = (2, 2, 1) ∨ r = (2, 2, 2) ∨ r = (2, 2, 3) := by
    intro r hr
    obtain ⟨rx, ry, rz⟩ := r
    have h := (hw _).1 hr
    simp only [InBox] at h
    simp only [Prod.mk.injEq]
    omega
  have f1 : Foreground w (2, 2, 1) := (hw _).2 (by decide)
  have f2 : Foreground w (2, 2, 2) := (hw _).2 (by decide)
  have f3 : Foreground w (2, 2, 3) := (hw _).2 (by decide)
  have j12 : Joined w (2, 2, 1) (2, 2, 2) := Relation.ReflTransGen.single ⟨f1, f2, by decide⟩
  have j21 : Joined w (2, 2, 2) (2, 2, 1) := Relation.ReflTransGen.single ⟨f2, f1, by decide⟩
  have j23 : Joined w (2, 2, 2) (2, 2, 3) := Relation.ReflTransGen.single ⟨f2, f3, by decide⟩
  have j32 : Joined w (2, 2, 3) (2, 2, 2) := Relation.ReflTransGen.single ⟨f3, f2, by decide⟩
  rcases mem p hp with rfl | rfl | rfl <;> rcases mem q hq with rfl | rfl | rfl
  · exact Relation.ReflTransGen.refl
  · exact j12
  · exact j12.trans j23
  · exact j21
  · exact Relation.ReflTransGen.refl
  · exact j23
  · exact j32.trans j21
  · exact j32
  · exact Relation.ReflTransGen.refl

/-- The result of the run on a solid 5x5x5 cube. -/
theorem cube_result (v : Volume) (hX : v.X = 5) (hY : v.Y = 5) (hZ : v.Z = 5)
    (hall : ∀ x y z : Int, InRange v (x, y, z) → v.cell x y z = 1) :
    BoxState (2, 2, 1) (2, 2, 3) (computeThinImage v) ∧ (computeThinImageIter v).2 = 3 ∧
    countForeground (computeThinImage v) = 3 := by
  obtain ⟨w, hw, hrun⟩ := computeThinImageIter_cube v (boxState_of_solid v hX hY hZ hall)
  obtain ⟨sX, sY, sZ, _⟩ := computeThinImage_shrinks v
  have e : computeThinImage v = w := by
    show (computeThinImageIter v).1 = w
    rw [hrun]
  rw [e] at sX sY sZ ⊢
  exact ⟨hw, by rw [hrun], countForeground_rod w (sX.trans hX) (sY.trans hY) (sZ.trans hZ) hw⟩

/-! ## The fixed point reached by the loop -/

/-- Unfolding of `loopStates`. -/
theorem loopStates_succ (f : Nat) (vol : Volume) :
    loopStates (f + 1) vol =
      vol :: (if (iteration vol).2 < 6 then loopStates f (iteration vol).1 else []) := rfl

/-- The last iteration of the loop starts on the volume the loop returns. -/
theorem loopStates_last : ∀ (fuel : Nat) (vol : Volume) (it : Nat) (r : Volume × Nat),
    thinLoop fuel vol it = some r → (loopStates fuel vol).getLast? = some r.1 := by
  intro fuel
  induction fuel with
  | zero => intro vol it r h; simp [thinLoop] at h
  | succ f ih =>
    intro vol it r h
    rw [thinLoop_succ] at h
    rw [loopStates_succ]
    by_cases hu : (iteration vol).2 < 6
    · simp only [hu, if_true] at h ⊢
      have h2 := ih _ _ _ h
      generalize loopStates f (iteration vol).1 = l at h2
      cases l with
      | nil => simp at h2
      | cons a t => rw [List.getLast?_cons_cons]; exact h2
    · have he := iteration_noChange vol hu
      simp only [hu, if_false, Option.some.injEq] at h ⊢
      rw [he] at h
      subst h
      rfl

/-- The last iteration of the run starts on the result. -/
theorem computeThinImage_last_state (vol : Volume) :
    (loopStates (countForeground vol + 1) vol).getLast? = some (computeThinImage vol) := by
  obtain ⟨k, h1, _⟩ := computeThinImageIter_spec vol
  generalize computeThinImage vol = w at h1 ⊢
  exact loopStates_last _ vol 0 (w, k) h1

/-- On a binary volume the border test of pass `b` holds exactly when the
neighbour in that direction is not foreground. -/
theorem isBorderPoint_iff {v : Volume} (hb : Binary v) (b : Nat) (hdir : b ∈ [1, 2, 3, 4, 5, 6])
    (p : Point) :
    isBorderPoint v b p.1 p.2.1 p.2.2 = true ↔ ¬ Foreground v (towards b p) := by
  have h01 : ∀ x y z : Int, (get_pixel v x y z ≤ 0 ↔ ¬ get_pixel v x y z = 1) := by
    intro x y z
    rcases hb.pixel01 x y z with h | h <;> rw [h] <;> decide
  simp only [List.mem_cons, List.mem_singleton, List.not_mem_nil, or_false] at hdir
  unfold Foreground
  rcases hdir with rfl | rfl | rfl | rfl | rfl | rfl <;>
    simp [isBorderPoint, towards, N, S, E, W, U, B, h01]

/-- A foreground border voxel that is not queued fails one of the three
remaining scan tests. -/
theorem not_candidate_tests {v : Volume} {b : Nat} {p : Point} (hf : Foreground v p)
    (hbord : isBorderPoint v b p.1 p.2.1 p.2.2 = true) (hc : isCandidate v b p = false) :
    is_endpoint v p.1 p.2.1 p.2.2 = true ∨
    is_euler_invariant (toU8 (get_neighborhood v p.1 p.2.1 p.2.2)) fill_euler_LUT = false ∨
    is_simple_point (toU8 (get_neighborhood v p.1 p.2.1 p.2.2)) = false := by
  have hcell := hf.cell_eq
  unfold isCandidate at hc
  simp only [get_pixel_nocheck, hcell, hbord] at hc
  cases h1 : is_endpoint v p.1 p.2.1 p.2.2
  · cases h2 : is_euler_invariant (toU8 (get_neighborhood v p.1 p.2.1 p.2.2)) fill_euler_LUT
    · exact Or.inr (Or.inl rfl)
    · cases h3 : is_simple_point (toU8 (get_neighborhood v p.1 p.2.1 p.2.2))
      · exact Or.inr (Or.inr rfl)
      · simp [h1, h2, h3] at hc
  · exact Or.inl rfl

/-- A volume that an iteration leaves with six unchanged directions has no
candidate. -/
theorem fixed_no_candidate (v : Volume) (h : iteration v = (v, 6)) (b : Nat)
    (hdir : b ∈ [1, 2, 3, 4, 5, 6]) (p : Point) (hin : InRange v p) :
    isCandidate v b p = false := by
  have hnil := (iteration_fixed v h b hdir).2
  cases hc : isCandidate v b p with
  | false => rfl
  | true =>
    have : p ∈ collectCandidates v b := (mem_collectCandidates v b p).2 ⟨hin, hc⟩
    rw [hnil] at this
    exact absurd this (List.not_mem_nil _)

/-! ## The corner position of an octant -/

/-- The weighted sum depends only on which listed positions are non-zero. -/
theorem weightedSum_congr (n n' : List Int) (ps : List (Nat × Nat))
    (h : ∀ q ∈ ps, (n.getD q.1 0 ≠ 0 ↔ n'.getD q.1 0 ≠ 0)) :
    weightedSum n ps = weightedSum n' ps := by
  unfold weightedSum
  congr 1
  congr 1
  apply List.map_congr_left
  intro q hq
  exact if_congr (h q hq) rfl rfl

/-- The sum reaches 128 exactly when the weight 128 is present. -/
theorem corner_bit_bool : ∀ b1 b2 b3 b4 b5 b6 b7 : Bool,
    (128 ≤ 1 + ((if b1 then 2 else 0) + ((if b2 then 4 else 0) + ((if b3 then 8 else 0) +
      ((if b4 then 16 else 0) + ((if b5 then 32 else 0) + ((if b6 then 64 else 0) +
      ((if b7 then 128 else 0) + 0))))))) ↔ b7 = true) := by
  decide

theorem weightedSum_corner (n : List Int) (a b c d e f g : Nat) :
    128 ≤ weightedSum n [(a, 2), (b, 4), (c, 8), (d, 16), (e, 32), (f, 64), (g, 128)] ↔
      n.getD g 0 ≠ 0 := by
  have key := corner_bit_bool (decide (n.getD a 0 ≠ 0)) (decide (n.getD b 0 ≠ 0))
    (decide (n.getD c 0 ≠ 0)) (decide (n.getD d 0 ≠ 0)) (decide (n.getD e 0 ≠ 0))
    (decide (n.getD f 0 ≠ 0)) (decide (n.getD g 0 ≠ 0))
  simp only [decide_eq_true_eq] at key
  unfold weightedSum
  simp only [List.map, List.sum_cons, List.sum_nil]
  exact key

theorem readsCorner_of (f : List Int → Nat) (dx dy dz : Int) (a b c d e g h : Nat)
    (hf : ∀ n, f n = orBit n a 2 (orBit n b 4 (orBit n c 8 (orBit n d 16 (orBit n e 32
      (orBit n g 64 (orBit n h 128 1)))))))
    (hoff : offset h = (dx, dy, dz)) (h13 : 13 ∉ octantPositions dx dy dz)
    (hp : ∀ i ∈ [a, b, c, d, e, g, h], i ∈ octantPositions dx dy dz) :
    ReadsCorner f dx dy dz h := by
  refine ⟨hoff, hp h (by simp), h13, fun n n' hag => ?_, fun n => ?_⟩
  · rw [hf, hf, orBit_chain, orBit_chain]
    apply weightedSum_congr
    intro q hq
    apply hag
    apply hp
    simp only [List.mem_cons, List.mem_singleton, List.not_mem_nil, or_false] at hq ⊢
    rcases hq with rfl | rfl | rfl | rfl | rfl | rfl | rfl <;> simp
  · rw [hf, orBit_chain]
    exact weightedSum_corner n a b c d e g h

/-- Setting the corner entry 2 changes `index_octant_NEB` from 1 to 129. -/
theorem corner_changes_NEB :
    index_octant_NEB ((List.replicate 27 0).set 2 1) = 129 ∧
    index_octant_NEB (List.replicate 27 0) = 1 := by
  decide

/-! ## The endpoint counter -/

/-- The counter of `is_endpoint` ends at the number of entries equal to 1
minus one. -/
theorem is_endpoint_count27 (vol : Volume) (x y z : Int) :
    is_endpoint vol x y z = true ↔
      (List.range 27).countP (fun i => decide ((get_neighborhood vol x y z).getD i 0 = 1)) = 2 := by
  unfold is_endpoint
  simp only [decide_eq_true_eq]
  rw [foldl_count_range (fun i => (get_neighborhood vol x y z).getD i 0 = 1) 27 (-1)]
  omega

/-- The scan skips a cell that does not hold 1 before any test. -/
theorem isCandidate_of_background (vol : Volume) (b : Nat) (p : Point)
    (h : get_pixel_nocheck vol p.1 p.2.1 p.2.2 ≠ 1) : isCandidate vol b p = false := by
  unfold isCandidate
  rw [if_pos h]

/-! ## The wrapper `lee` -/

/-- With the extents of the volume the loops of `lee` visit its cells in scan
order. -/
theorem loopOrder_extents (v : Volume) : loopOrder v.X v.Y v.Z = scanOrder v := by
  unfold loopOrder scanOrder
  simp only [Int.toNat_ofNat]

/-- Volumes with equal extents and cells are equal. -/
theorem volume_ext (v w : Volume) (hX : v.X = w.X) (hY : v.Y = w.Y) (hZ : v.Z = w.Z)
    (hc : ∀ a b c, v.cell a b c = w.cell a b c) : v = w := by
  cases v; cases w
  simp only [Volume.mk.injEq] at *
  exact ⟨hX, hY, hZ, by funext a b c; exact hc a b c⟩

/-- The binarisation loop over a list of cells. -/
theorem binarise_fold (L : List Point) : ∀ v : Volume,
    ((L.foldl (fun v p =>
        if v.cell p.1 p.2.1 p.2.2 ≠ 0 then write v p.1 p.2.1 p.2.2 1
        else write v p.1 p.2.1 p.2.2 0) v).X = v.X ∧
     (L.foldl (fun v p =>
        if v.cell p.1 p.2.1 p.2.2 ≠ 0 then write v p.1 p.2.1 p.2.2 1
        else write v p.1 p.2.1 p.2.2 0) v).Y = v.Y ∧
     (L.foldl (fun v p =>
        if v.cell p.1 p.2.1 p.2.2 ≠ 0 then write v p.1 p.2.1 p.2.2 1
        else write v p.1 p.2.1 p.2.2 0) v).Z = v.Z) ∧
    ∀ a b c, (L.foldl (fun v p =>
        if v.cell p.1 p.2.1 p.2.2 ≠ 0 then write v p.1 p.2.1 p.2.2 1
        else write v p.1 p.2.1 p.2.2 0) v).cell a b c =
      if (a, b, c) ∈ L then (if v.cell a b c ≠ 0 then 1 else 0) else v.cell a b c := by
  induction L with
  | nil => intro v; exact ⟨⟨rfl, rfl, rfl⟩, fun a b c => by simp⟩
  | cons p t ih =>
    intro v
    rw [List.foldl_cons]
    obtain ⟨⟨e1, e2, e3⟩, e4⟩ := ih (if v.cell p.1 p.2.1 p.2.2 ≠ 0 then write v p.1 p.2.1 p.2.2 1
        else write v p.1 p.2.1 p.2.2 0)
    have hw : (if v.cell p.1 p.2.1 p.2.2 ≠ 0 then write v p.1 p.2.1 p.2.2 1
        else write v p.1 p.2.1 p.2.2 0) =
        write v p.1 p.2.1 p.2.2 (if v.cell p.1 p.2.1 p.2.2 ≠ 0 then 1 else 0) := by
      split <;> rfl
    rw [hw] at e1 e2 e3 e4 ⊢
    refine ⟨⟨e1, e2, e3⟩, fun a b c => ?_⟩
    rw [e4 a b c]
    obtain ⟨px, py, pz⟩ := p
    simp only [write, List.mem_cons, Prod.mk.injEq]
    by_cases hp : a = px ∧ b = py ∧ c = pz
    · obtain ⟨rfl, rfl, rfl⟩ := hp
      by_cases h0 : v.cell a b c ≠ 0 <;> by_cases ht : (a, b, c) ∈ t <;> simp [h0, ht]
    · by_cases ht : (a, b, c) ∈ t <;> simp [hp, ht]

/-- The copy loop over a list of cells. -/
theorem copy_fold (src : Volume) (L : List Point) : ∀ o : Volume,
    ((L.foldl (fun o p => write o p.1 p.2.1 p.2.2 (src.cell p.1 p.2.1 p.2.2)) o).X = o.X ∧
     (L.foldl (fun o p => write o p.1 p.2.1 p.2.2 (src.cell p.1 p.2.1 p.2.2)) o).Y = o.Y ∧
     (L.foldl (fun o p => write o p.1 p.2.1 p.2.2 (src.cell p.1 p.2.1 p.2.2)) o).Z = o.Z) ∧
    ∀ a b c, (L.foldl (fun o p => write o p.1 p.2.1 p.2.2 (src.cell p.1 p.2.1 p.2.2)) o).cell a b c =
      if (a, b, c) ∈ L then src.cell a b c else o.cell a b c := by
  induction L with
  | nil => intro o; exact ⟨⟨rfl, rfl, rfl⟩, fun a b c => by simp⟩
  | cons p t ih =>
    intro o
    rw [List.foldl_cons]
    obtain ⟨⟨e1, e2, e3⟩, e4⟩ := ih (write o p.1 p.2.1 p.2.2 (src.cell p.1 p.2.1 p.2.2))
    refine ⟨⟨e1, e2, e3⟩, fun a b c => ?_⟩
    rw [e4 a b c]
    obtain ⟨px, py, pz⟩ := p
    simp only [write, List.mem_cons, Prod.mk.injEq]
    by_cases hp : a = px ∧ b = py ∧ c = pz
    · obtain ⟨rfl, rfl, rfl⟩ := hp
      by_cases ht : (a, b, c) ∈ t <;> simp [ht]
    · by_cases ht : (a, b, c) ∈ t <;> simp [hp, ht]

/-- The binarisation loop of `lee` computes the binarisation. -/
theorem binarise_loop (v : Volume) :
    (scanOrder v).foldl (fun v p =>
        if v.cell p.1 p.2.1 p.2.2 ≠ 0 then write v p.1 p.2.1 p.2.2 1
        else write v p.1 p.2.1 p.2.2 0) v = binarise v := by
  obtain ⟨⟨e1, e2, e3⟩, e4⟩ := binarise_fold (scanOrder v) v
  refine volume_ext _ (binarise v) e1 e2 e3 (fun a b c => ?_)
  rw [e4 a b c]
  unfold binarise
  simp only [mem_scanOrder]

/-- The binarisation has cells 0 or 1. -/
theorem binary_binarise (v : Volume) : Binary (binarise v) := by
  intro x y z h1 h2 h3 h4 h5 h6
  have hin : InRange v (x, y, z) := ⟨h1, h2, h3, h4, h5, h6⟩
  simp only [binarise, if_pos hin]
  by_cases h0 : v.cell x y z ≠ 0
  · rw [if_pos h0]; exact Or.inr rfl
  · rw [if_neg h0]; exact Or.inl rfl

/-- Volumes with equal extents and equal cells inside them read the same. -/
theorem get_pixel_of_cells (v w : Volume) (hX : v.X = w.X) (hY : v.Y = w.Y) (hZ : v.Z = w.Z)
    (hc : ∀ a b c, InRange w (a, b, c) → v.cell a b c = w.cell a b c) (a b c : Int) :
    get_pixel v a b c = get_pixel w a b c := by
  unfold get_pixel
  rw [hX, hY, hZ]
  by_cases h : a ≥ 0 ∧ a < (w.X : Int) ∧ b ≥ 0 ∧ b < (w.Y : Int) ∧ c ≥ 0 ∧ c < (w.Z : Int)
  · rw [if_pos h, if_pos h]
    exact hc a b c ⟨h.1, h.2.1, h.2.2.1, h.2.2.2.1, h.2.2.2.2.1, h.2.2.2.2.2⟩
  · rw [if_neg h, if_neg h]

/-- Reading the object just assigned. -/
theorem assign_self (s : Store) (r : Nat) (v : Volume) : (s.assign r v) r = v := by
  simp [Store.assign]

/-- Reading another object than the one assigned. -/
theorem assign_other (s : Store) (r k : Nat) (v : Volume) (h : k ≠ r) :
    (s.assign r v) k = s k := by
  simp [Store.assign, h]

/-- A second assignment to the same object overrides the first. -/
theorem assign_assign (s : Store) (r : Nat) (v w : Volume) :
    (s.assign r v).assign r w = s.assign r w := by
  funext k
  by_cases h : k = r <;> simp [Store.assign, h]

/-- Assigning an object its own value changes nothing. -/
theorem assign_same (s : Store) (r : Nat) : s.assign r (s r) = s := by
  funext k
  by_cases h : k = r
  · subst h; simp [Store.assign]
  · simp [Store.assign, h]

/-- An assignment is forgotten once the same object is assigned again. -/
theorem assign_shadow (s : Store) (a b : Nat) (u v w : Volume) :
    ((s.assign a u).assign b v).assign a w = (s.assign b v).assign a w := by
  funext k
  by_cases h1 : k = a <;> by_cases h2 : k = b <;> simp [Store.assign, h1, h2]

/-- The binarisation loop of `lee` works on the object `inp` alone. -/
theorem binarise_store_fold (inp : Nat) (L : List Point) : ∀ t : Store,
    L.foldl (fun t p =>
        if (t inp).cell p.1 p.2.1 p.2.2 ≠ 0 then t.assign inp (write (t inp) p.1 p.2.1 p.2.2 1)
        else t.assign inp (write (t inp) p.1 p.2.1 p.2.2 0)) t =
      t.assign inp (L.foldl (fun v p =>
        if v.cell p.1 p.2.1 p.2.2 ≠ 0 then write v p.1 p.2.1 p.2.2 1
        else write v p.1 p.2.1 p.2.2 0) (t inp)) := by
  induction L with
  | nil => intro t; exact (assign_same t inp).symm
  | cons p l ih =>
    intro t
    have hstep : (if (t inp).cell p.1 p.2.1 p.2.2 ≠ 0 then
          t.assign inp (write (t inp) p.1 p.2.1 p.2.2 1)
        else t.assign inp (write (t inp) p.1 p.2.1 p.2.2 0)) =
        t.assign inp (if (t inp).cell p.1 p.2.1 p.2.2 ≠ 0 then write (t inp) p.1 p.2.1 p.2.2 1
          else write (t inp) p.1 p.2.1 p.2.2 0) := by
      split <;> rfl
    rw [List.foldl_cons, List.foldl_cons, hstep, ih, assign_self, assign_assign]

/-- The copy loop of `lee` between two different objects. -/
theorem copy_store_fold (inp out : Nat) (hne : inp ≠ out) (L : List Point) : ∀ t : Store,
    L.foldl (fun t p =>
        t.assign out (write (t out) p.1 p.2.1 p.2.2 ((t inp).cell p.1 p.2.1 p.2.2))) t =
      t.assign out (L.foldl (fun o p =>
        write o p.1 p.2.1 p.2.2 ((t inp).cell p.1 p.2.1 p.2.2)) (t out)) := by
  induction L with
  | nil => intro t; exact (assign_same t out).symm
  | cons p l ih =>
    intro t
    rw [List.foldl_cons, List.foldl_cons, ih]
    have h1 : (t.assign out (write (t out) p.1 p.2.1 p.2.2 ((t inp).cell p.1 p.2.1 p.2.2))) inp =
        t inp := assign_other _ out inp _ hne
    have h2 : (t.assign out (write (t out) p.1 p.2.1 p.2.2 ((t inp).cell p.1 p.2.1 p.2.2))) out =
        write (t out) p.1 p.2.1 p.2.2 ((t inp).cell p.1 p.2.1 p.2.2) := assign_self _ _ _
    rw [h1, h2, assign_assign]

/-- Writing a cell its own value changes nothing. -/
theorem write_same (v : Volume) (x y z : Int) : write v x y z (v.cell x y z) = v := by
  refine volume_ext _ v rfl rfl rfl (fun a b c => ?_)
  simp only [write]
  split
  · rename_i h; obtain ⟨rfl, rfl, rfl⟩ := h; rfl
  · rfl

/-- The copy loop of `lee` when both references name the same object: every
step assigns a cell to itself. -/
theorem copy_store_fold_same (r : Nat) (L : List Point) : ∀ t : Store,
    L.foldl (fun t p =>
        t.assign r (write (t r) p.1 p.2.1 p.2.2 ((t r).cell p.1 p.2.1 p.2.2))) t = t := by
  induction L with
  | nil => intro t; rfl
  | cons p l ih =>
    intro t
    rw [List.foldl_cons, write_same, assign_same, ih]

/-- The binarisation loop leaves a volume of zeros as it is. -/
theorem binarise_fresh (x y z : Int) (L : List Point) :
    L.foldl (fun v p =>
        if v.cell p.1 p.2.1 p.2.2 ≠ 0 then write v p.1 p.2.1 p.2.2 1
        else write v p.1 p.2.1 p.2.2 0) (freshVolume x y z) = freshVolume x y z := by
  obtain ⟨⟨e1, e2, e3⟩, e4⟩ := binarise_fold L (freshVolume x y z)
  refine volume_ext _ _ e1 e2 e3 (fun a b c => ?_)
  rw [e4 a b c]
  simp [freshVolume]

/-- A volume of zeros has no candidate and is returned as it is. -/
theorem computeThinImage_fresh (x y z : Int) :
    computeThinImage (freshVolume x y z) = freshVolume x y z := by
  have h := computeThinImageIter_of_no_candidates (freshVolume x y z)
    (fun b p _ => isCandidate_of_background _ b p (by simp [get_pixel_nocheck, freshVolume]))
  show (computeThinImageIter (freshVolume x y z)).1 = _
  rw [h]

/-- The loops of `lee` stay inside a volume of extents `(x, y, z)`. -/
theorem loopOrder_inRange (x y z : Int) (p : Point) (hp : p ∈ loopOrder x y z) :
    0 ≤ p.1 ∧ p.1 < ((x.toNat : Nat) : Int) ∧ 0 ≤ p.2.1 ∧ p.2.1 < ((y.toNat : Nat) : Int) ∧
      0 ≤ p.2.2 ∧ p.2.2 < ((z.toNat : Nat) : Int) := by
  have := (mem_scanOrder (freshVolume x y z) p).1 hp
  exact this

/-- A call of `lee` with both references naming the same object leaves that
object a volume of zeros: the assignment to `out` discards the input. -/
theorem lee_aliased (s : Store) (r : Nat) (x y z : Int) (hx : 0 ≤ x) (hy : 0 ≤ y) (hz : 0 ≤ z) :
    lee s r r x y z = some (s.assign r (freshVolume x y z)) := by
  have hneg : ¬ (x < 0 ∨ y < 0 ∨ z < 0) := by omega
  have hall : ∀ p ∈ loopOrder x y z,
      0 ≤ p.1 ∧ p.1 < ((s.assign r (freshVolume x y z)) r).X ∧
      0 ≤ p.2.1 ∧ p.2.1 < ((s.assign r (freshVolume x y z)) r).Y ∧
      0 ≤ p.2.2 ∧ p.2.2 < ((s.assign r (freshVolume x y z)) r).Z := by
    intro p hp
    rw [assign_self]
    exact loopOrder_inRange x y z p hp
  unfold lee
  rw [if_neg hneg]
  simp only []
  rw [if_neg (not_not.2 hall)]
  simp only [binarise_store_fold, assign_self, assign_assign, binarise_fresh,
    computeThinImage_fresh, copy_store_fold_same]

/-- What `lee` returns when its two references name different objects and
the extents are those of `in`. -/
theorem lee_distinct (s : Store) (inp out : Nat) (hne : inp ≠ out) :
    ∃ o, lee s inp out (s inp).X (s inp).Y (s inp).Z =
        some ((s.assign inp (computeThinImage (binarise (s inp)))).assign out o) ∧
      o.X = (s inp).X ∧ o.Y = (s inp).Y ∧ o.Z = (s inp).Z ∧
      ∀ a b c, InRange (s inp) (a, b, c) →
        o.cell a b c = (computeThinImage (binarise (s inp))).cell a b c := by
  have hneg : ¬ (((s inp).X : Int) < 0 ∨ ((s inp).Y : Int) < 0 ∨ ((s inp).Z : Int) < 0) := by
    omega
  have hin : (s.assign out (freshVolume (s inp).X (s inp).Y (s inp).Z)) inp = s inp :=
    assign_other _ out inp _ hne
  have hall : ∀ p ∈ loopOrder (s inp).X (s inp).Y (s inp).Z,
      0 ≤ p.1 ∧ p.1 < ((s.assign out (freshVolume (s inp).X (s inp).Y (s inp).Z)) inp).X ∧
      0 ≤ p.2.1 ∧ p.2.1 < ((s.assign out (freshVolume (s inp).X (s inp).Y (s inp).Z)) inp).Y ∧
      0 ≤ p.2.2 ∧ p.2.2 < ((s.assign out (freshVolume (s inp).X (s inp).Y (s inp).Z)) inp).Z := by
    intro p hp
    rw [hin]
    rw [loopOrder_extents] at hp
    exact (mem_scanOrder (s inp) p).1 hp
  obtain ⟨⟨e1, e2, e3⟩, e4⟩ := copy_fold (computeThinImage (binarise (s inp))) (scanOrder (s inp))
    (freshVolume (s inp).X (s inp).Y (s inp).Z)
  refine ⟨(scanOrder (s inp)).foldl
    (fun o p => write o p.1 p.2.1 p.2.2
      ((computeThinImage (binarise (s inp))).cell p.1 p.2.1 p.2.2))
    (freshVolume (s inp).X (s inp).Y (s inp).Z), ?_, ?_, ?_, ?_, ?_⟩
  · unfold lee
    rw [if_neg hneg]
    simp only []
    rw [if_neg (not_not.2 hall)]
    simp only [binarise_store_fold, copy_store_fold inp out hne, hin, assign_self, assign_assign,
      assign_other _ inp out _ (Ne.symm hne), loopOrder_extents, binarise_loop, assign_shadow]
  · rw [e1]; exact Int.toNat_ofNat _
  · rw [e2]; exact Int.toNat_ofNat _
  · rw [e3]; exact Int.toNat_ofNat _
  · intro a b c hr
    rw [e4 a b c, if_pos ((mem_scanOrder (s inp) (a, b, c)).2 hr)]


/-- The single non-zero cell of the 2x1x1 grid survives binarisation and
thinning. -/
theorem grayVolume_thinned : (computeThinImage (binarise grayVolume)).cell 0 0 0 = 1 := by
  decide

/-! ## Zero components -/

/-- The flood-fill scan started with count 0 ends at 0 exactly when no
scanned position holds 1. -/
theorem componentLoop_zero (rest : List Nat) :
    ∀ c : List Int, componentLoop c 0 rest = 0 ↔ ∀ k ∈ rest, c.getD k 0 ≠ 1 := by
  induction rest with
  | nil => intro c; simp [componentLoop]
  | cons i t ih =>
    intro c
    unfold componentLoop
    by_cases hi : c.getD i 0 = 1
    · simp only [hi, if_true]
      constructor
      · intro h
        have := componentLoop_ge t (floodFill 27 ((0 : Nat) + 2) c i) (0 + 1)
        omega
      · intro h; exact absurd hi (h i (List.mem_cons_self _ _))
    · simp only [hi, if_false]
      rw [ih]
      constructor
      · intro h k hk
        rcases List.mem_cons.1 hk with rfl | hk'
        · exact hi
        · exact h k hk'
      · intro h k hk; exact h k (List.mem_cons_of_mem _ hk)

/-- The flood fill counts no component exactly when no non-centre position
holds 1. -/
theorem componentCount_zero_iff (n : List Int) :
    componentCount n = 0 ↔ ∀ i, i < 27 → i ≠ 13 → n.getD i 0 ≠ 1 := by
  unfold componentCount
  rw [componentLoop_zero]
  constructor
  · intro h i hi h13
    exact h i ((mem_neighbourIndices i).2 ⟨hi, h13⟩)
  · intro h k hk
    exact h k ((mem_neighbourIndices k).1 hk).1 ((mem_neighbourIndices k).1 hk).2

/-! ## The claims -/

/-- C1: for every 27-entry neighbourhood whose entries are 0 or 1,
`is_simple_point` returns true if and only if the entries equal to 1 among
the 26 non-centre positions form at most one connected component under
26-adjacency, the centre (index 13) being excluded from the graph; and it
agrees with the generic flood fill, which counts at most one component in
exactly these neighbourhoods. -/
theorem C1_is_simple_point_iff_at_most_one_component (n : List Int) (_hlen : n.length = 27)
    (_h01 : ∀ v ∈ n, v = 0 ∨ v = 1) :
    (is_simple_point n = true ↔ AtMostOneComponent n) ∧
    is_simple_point n = decide (componentCount n ≤ 1) := by
  refine ⟨is_simple_point_iff n, ?_⟩
  rw [Bool.eq_iff_iff, decide_eq_true_eq, componentCount_le_one_iff]
  exact is_simple_point_iff n

/-- Witness for C1 at the neighbourhood whose only entries equal to 1 are the
two opposite corners 0 and 26. -/
theorem C1_witness :
    [1, 0, 0, 0, 0, 0, 0, 0, 0, 0, 0, 0, 0, 0, 0, 0, 0, 0, 0, 0, 0, 0, 0, 0, 0, 0, (1 : Int)].length = 27 ∧
    (∀ v ∈ [1, 0, 0, 0, 0, 0, 0, 0, 0, 0, 0, 0, 0, 0, 0, 0, 0, 0, 0, 0, 0, 0, 0, 0, 0, 0, (1 : Int)],
      v = 0 ∨ v = 1) ∧
    ((is_simple_point
        [1, 0, 0, 0, 0, 0, 0, 0, 0, 0, 0, 0, 0, 0, 0, 0, 0, 0, 0, 0, 0, 0, 0, 0, 0, 0, 1] = true ↔
      AtMostOneComponent
        [1, 0, 0, 0, 0, 0, 0, 0, 0, 0, 0, 0, 0, 0, 0, 0, 0, 0, 0, 0, 0, 0, 0, 0, 0, 0, 1]) ∧
    is_simple_point
        [1, 0, 0, 0, 0, 0, 0, 0, 0, 0, 0, 0, 0, 0, 0, 0, 0, 0, 0, 0, 0, 0, 0, 0, 0, 0, 1] =
      decide (componentCount
        [1, 0, 0, 0, 0, 0, 0, 0, 0, 0, 0, 0, 0, 0, 0, 0, 0, 0, 0, 0, 0, 0, 0, 0, 0, 0, 1] ≤ 1)) :=
  ⟨by decide, by decide,
    C1_is_simple_point_iff_at_most_one_component _ (by decide) (by decide)⟩

/-- C2: for every 27-entry neighbourhood `n` whose entries are 0 or 1,
`is_euler_invariant n (fill_euler_LUT ())` returns true if and only if the
Euler characteristic (vertices - edges + faces - cubes of the union of closed
unit cubes) of the foreground neighbours together with the centre equals that
of the foreground neighbours alone. -/
theorem C2_is_euler_invariant_iff (n : List Int) (_hlen : n.length = 27)
    (h01 : ∀ v ∈ n, v = 0 ∨ v = 1) :
    is_euler_invariant n fill_euler_LUT = true ↔
      eulerCharacteristic (withCentre (neighbourSet n)) = eulerCharacteristic (neighbourSet n) := by
  unfold is_euler_invariant
  rw [decide_eq_true_eq, eulerChar_eq n (getD_zero_or_one n h01)]
  constructor <;> intro h <;> omega

/-- Witness for C2 at the neighbourhood of an isolated voxel. -/
theorem C2_witness :
    [0, 0, 0, 0, 0, 0, 0, 0, 0, 0, 0, 0, 0, 1, 0, 0, 0, 0, 0, 0, 0, 0, 0, 0, 0, 0, (0 : Int)].length = 27 ∧
    (∀ v ∈ [0, 0, 0, 0, 0, 0, 0, 0, 0, 0, 0, 0, 0, 1, 0, 0, 0, 0, 0, 0, 0, 0, 0, 0, 0, 0, (0 : Int)],
      v = 0 ∨ v = 1) ∧
    (is_euler_invariant
        [0, 0, 0, 0, 0, 0, 0, 0, 0, 0, 0, 0, 0, 1, 0, 0, 0, 0, 0, 0, 0, 0, 0, 0, 0, 0, 0]
        fill_euler_LUT = true ↔
      eulerCharacteristic (withCentre (neighbourSet
        [0, 0, 0, 0, 0, 0, 0, 0, 0, 0, 0, 0, 0, 1, 0, 0, 0, 0, 0, 0, 0, 0, 0, 0, 0, 0, 0])) =
      eulerCharacteristic (neighbourSet
        [0, 0, 0, 0, 0, 0, 0, 0, 0, 0, 0, 0, 0, 1, 0, 0, 0, 0, 0, 0, 0, 0, 0, 0, 0, 0, 0])) :=
  ⟨by decide, by decide, C2_is_euler_invariant_iff _ (by decide) (by decide)⟩

/-- C3 (the code at the failing input): in the 2x1x2 grid whose foreground is
the three mutually adjacent voxels (0,0,0), (1,0,0), (0,0,1), the foreground
is one 26-connected component, and `computeThinImage` returns a grid with no
foreground voxel at all: one component before, none after. -/
theorem C3_component_deleted :
    Binary cornerVolume ∧ Foreground cornerVolume (0, 0, 0) ∧
    (∀ p q, Foreground cornerVolume p → Foreground cornerVolume q → Joined cornerVolume p q) ∧
    (∀ p, ¬ Foreground (computeThinImage cornerVolume) p) := by
  refine ⟨binary_volumeOf _ _ _ _, by decide, ?_, ?_⟩
  · intro p q hp hq
    have hp' := (mem_foregroundCells _ p).2 hp
    have hq' := (mem_foregroundCells _ q).2 hq
    rw [cornerVolume_foreground] at hp' hq'
    by_cases hpq : p = q
    · subst hpq; exact Relation.ReflTransGen.refl
    · apply Relation.ReflTransGen.single
      refine ⟨hp, hq, ?_⟩
      simp only [List.mem_cons, List.mem_singleton, List.not_mem_nil, or_false] at hp' hq'
      rcases hp' with rfl | rfl | rfl <;> rcases hq' with rfl | rfl | rfl <;>
        first | exact absurd rfl hpq | decide
  · intro p hp
    have := (mem_foregroundCells _ p).2 hp
    rw [cornerVolume_thinned] at this
    exact absurd this (List.not_mem_nil _)

/-- C4: for every finite grid whose cells are all 0 or 1, any two voxels that
are foreground in the output of `computeThinImage` and were joined by a
26-connected path of foreground voxels in the input are joined by a
26-connected path of foreground voxels in the output. -/
theorem C4_kept_voxels_stay_joined (vol : Volume) (hbin : Binary vol) (a b : Point)
    (ha : Foreground (computeThinImage vol) a) (hb : Foreground (computeThinImage vol) b)
    (hab : Joined vol a b) : Joined (computeThinImage vol) a b :=
  (computeThinImage_keeps_joined vol hbin).2.2 a b ha hb hab

set_option maxRecDepth 100000 in
/-- Witness for C4 on the two-voxel grid. -/
theorem C4_witness :
    Binary pairVolume ∧ Foreground (computeThinImage pairVolume) (0, 0, 0) ∧
    Foreground (computeThinImage pairVolume) (1, 0, 0) ∧
    Joined pairVolume (0, 0, 0) (1, 0, 0) ∧
    Joined (computeThinImage pairVolume) (0, 0, 0) (1, 0, 0) :=
  have hj : Joined pairVolume (0, 0, 0) (1, 0, 0) :=
    Relation.ReflTransGen.single ⟨by decide, by decide, by decide⟩
  ⟨binary_volumeOf _ _ _ _, by decide, by decide, hj,
    C4_kept_voxels_stay_joined pairVolume (binary_volumeOf _ _ _ _) (0, 0, 0) (1, 0, 0)
      (by decide) (by decide) hj⟩

/-- C5: for every finite grid whose cells are all 0 or 1, after
`computeThinImage` the extents are unchanged, every cell is 0 or 1, every
cell that is 1 in the output was 1 in the input, a cell that was 0 is still
0, and every cell either holds what it held or holds 0. -/
theorem C5_output_is_binary_subset (vol : Volume) (hbin : Binary vol) :
    (computeThinImage vol).X = vol.X ∧ (computeThinImage vol).Y = vol.Y ∧
    (computeThinImage vol).Z = vol.Z ∧ Binary (computeThinImage vol) ∧
    (∀ x y z : Int, InRange vol (x, y, z) →
      ((computeThinImage vol).cell x y z = 1 → vol.cell x y z = 1) ∧
      (vol.cell x y z = 0 → (computeThinImage vol).cell x y z = 0)) ∧
    (∀ x y z : Int, (computeThinImage vol).cell x y z = vol.cell x y z ∨
      (computeThinImage vol).cell x y z = 0) := by
  have hs := computeThinImage_shrinks vol
  obtain ⟨h1, h2, h3, h4⟩ := hs
  refine ⟨h1, h2, h3, (computeThinImage_shrinks vol).binary_of hbin, ?_, h4⟩
  intro x y z _
  rcases h4 x y z with h | h
  · rw [h]; exact ⟨id, id⟩
  · rw [h]; exact ⟨fun e => absurd e (by decide), fun _ => rfl⟩

/-- Witness for C5 on the three-voxel grid. -/
theorem C5_witness :
    Binary cornerVolume ∧ (computeThinImage cornerVolume).X = cornerVolume.X :=
  ⟨binary_volumeOf _ _ _ _, (C5_output_is_binary_subset cornerVolume (binary_volumeOf _ _ _ _)).1⟩

/-- C6: `computeThinImage` is idempotent: for every finite grid whose cells
are all 0 or 1, running it on its own result returns that result unchanged,
the second run ends after a single iteration of the outer loop, and it
deletes no voxel. -/
theorem C6_idempotent (g : Volume) (_hbin : Binary g) :
    computeThinImage (computeThinImage g) = computeThinImage g ∧
    (computeThinImageIter (computeThinImage g)).2 = 1 ∧
    deletions (computeThinImage g) = [] := by
  obtain ⟨k, _, _, _, _, hfix⟩ := computeThinImageIter_spec g
  have h := computeThinImageIter_of_fixed _ hfix
  refine ⟨?_, ?_, deletions_of_fixed _ hfix⟩
  · show (computeThinImageIter (computeThinImage g)).1 = _
    rw [h]
  · rw [h]

/-- Witness for C6 on the three-voxel grid. -/
theorem C6_witness :
    Binary cornerVolume ∧
    computeThinImage (computeThinImage cornerVolume) = computeThinImage cornerVolume :=
  ⟨binary_volumeOf _ _ _ _, (C6_idempotent cornerVolume (binary_volumeOf _ _ _ _)).1⟩

/-- C7: for every finite grid whose cells are all 0 or 1, `computeThinImage`
terminates: with `k` the number of foreground voxels of the input, the outer
loop returns within `k + 1` iterations (for every fuel above `k`, with the
same result); an iteration that does not end the loop deletes at least one
voxel; and `octree_labeling` returns on every cube for every label of at
least 2, whenever the fuel exceeds the number of cells equal to 1 (27
always does). -/
theorem C7_termination (vol : Volume) (_hbin : Binary vol) :
    (∃ iters, 1 ≤ iters ∧ iters ≤ countForeground vol + 1 ∧
      ∀ fuel, countForeground vol < fuel →
        thinLoop fuel vol 0 = some (computeThinImage vol, iters)) ∧
    (∀ v, (iteration v).2 < 6 → countForeground (iteration v).1 < countForeground v) ∧
    (∀ (label : Int) (octant : Nat) (cube : List Int) (fuel : Nat), 2 ≤ label →
      ones cube < fuel → ∃ c, octree_labeling_fuel fuel octant label cube = some c) ∧
    (∀ (label : Int) (octant : Nat) (cube : List Int), 2 ≤ label →
      octree_labeling_fuel 27 octant label cube = some (octree_labeling octant label cube)) := by
  refine ⟨?_, iteration_change, ?_, ?_⟩
  · obtain ⟨k, h1, _, h3, h4, _⟩ := computeThinImageIter_spec vol
    refine ⟨k, h3, h4, fun fuel hf => ?_⟩
    rw [thinLoop_fuel vol 0 fuel hf]
    exact h1
  · intro l o c fuel hl hf
    obtain ⟨c', e, _⟩ := octree_labeling_fuel_post l (by omega) fuel o c hf
    exact ⟨c', e⟩
  · intro l o c hl
    exact (octree_labeling_post l (by omega) o c).1

/-- Witness for C7 on the three-voxel grid. -/
theorem C7_witness :
    Binary cornerVolume ∧
    ∃ iters, 1 ≤ iters ∧ iters ≤ countForeground cornerVolume + 1 ∧
      ∀ fuel, countForeground cornerVolume < fuel →
        thinLoop fuel cornerVolume 0 = some (computeThinImage cornerVolume, iters) :=
  ⟨binary_volumeOf _ _ _ _, (C7_termination cornerVolume (binary_volumeOf _ _ _ _)).1⟩

/-- C8: for every finite grid whose cells are all 0 or 1, every voxel that is
foreground and has exactly one foreground voxel among its 26 neighbours in
the input grid is still foreground after `computeThinImage`. -/
theorem C8_input_endpoints_kept (vol : Volume) (hbin : Binary vol) (p : Point)
    (hf : Foreground vol p) (h1 : neighbourCount vol p = 1) :
    Foreground (computeThinImage vol) p :=
  computeThinImage_keeps_tip hbin hf (le_of_eq h1)

/-- Witness for C8 on the two-voxel grid. -/
theorem C8_witness :
    Binary pairVolume ∧ Foreground pairVolume (0, 0, 0) ∧
    neighbourCount pairVolume (0, 0, 0) = 1 ∧
    Foreground (computeThinImage pairVolume) (0, 0, 0) :=
  ⟨binary_volumeOf _ _ _ _, by decide, by decide,
    C8_input_endpoints_kept pairVolume (binary_volumeOf _ _ _ _) (0, 0, 0) (by decide) (by decide)⟩

/-- C9 fails as stated: in the run on the 2x1x2 grid with foreground
(0,0,0), (1,0,0), (0,0,1), the voxel (1,0,0) is deleted at a moment when it
has exactly one foreground voxel among its 26 neighbours. -/
theorem C9_counterexample :
    Binary cornerVolume ∧
    ∃ d ∈ deletions cornerVolume, d.point = (1, 0, 0) ∧ neighbourCount d.vol d.point = 1 := by
  refine ⟨binary_volumeOf _ _ _ _, ?_⟩
  obtain ⟨d, hd, h⟩ := List.any_eq_true.1 cornerVolume_deletion
  simp only [Bool.and_eq_true, decide_eq_true_eq] at h
  exact ⟨d, hd, h.1, h.2⟩

/-- C9 as amended: for every finite grid whose cells are all 0 or 1 and every
deletion performed during `computeThinImage`, the deleted voxel was
foreground and did not have exactly one foreground voxel among its 26
neighbours in the grid on which the scan of that direction selected it, and
at the moment it is set to 0 it passes `is_simple_point`. -/
theorem C9_deleted_not_endpoint_at_scan (vol : Volume) (_hbin : Binary vol) (d : Deletion)
    (hd : d ∈ deletions vol) :
    Foreground d.scanVol d.point ∧ neighbourCount d.scanVol d.point ≠ 1 ∧
    is_simple_point (toU8 (get_neighborhood d.vol d.point.1 d.point.2.1 d.point.2.2)) = true := by
  obtain ⟨h1, h2, h3⟩ := mem_loopDeletions _ vol d hd
  obtain ⟨h4, h5⟩ := isCandidate_neighbourCount d.scanVol d.border d.point h2 h1
  exact ⟨h4, h5, h3⟩


/-- C10: for every finite grid whose cells are all 0 or 1, every voxel that is
foreground in the input and has no foreground voxel among its 26 neighbours
is still foreground after `computeThinImage`; and a grid whose foreground is
a single voxel is returned unchanged. -/
theorem C10_isolated_voxel_kept (vol : Volume) (hbin : Binary vol) (p : Point)
    (hf : Foreground vol p) :
    (neighbourCount vol p = 0 → Foreground (computeThinImage vol) p) ∧
    ((∀ q, Foreground vol q → q = p) → computeThinImage vol = vol) := by
  refine ⟨fun h0 => computeThinImage_keeps_tip hbin hf (by omega), fun hall => ?_⟩
  have := computeThinImageIter_of_no_candidates vol
    (fun b q hq => isCandidate_single vol hbin p hf hall b q hq)
  show (computeThinImageIter vol).1 = vol
  rw [this]

/-- Witness for C10 on the single-voxel grid, which is returned unchanged. -/
theorem C10_witness :
    Binary singleVolume ∧ Foreground singleVolume (0, 0, 0) ∧
    computeThinImage singleVolume = singleVolume :=
  ⟨binary_volumeOf _ _ _ _, by decide,
    (C10_isolated_voxel_kept singleVolume (binary_volumeOf _ _ _ _) (0, 0, 0) (by decide)).2
      (fun q hq => by
        have h := (mem_foregroundCells _ q).2 hq
        have e : foregroundCells singleVolume = [(0, 0, 0)] := by decide
        rw [e] at h
        exact List.mem_singleton.1 h)⟩

/-- Witness for the amended C9: the voxel (1,0,0) of the three-voxel grid,
deleted with one neighbour left, had two neighbours when the scan selected
it. -/
theorem C9_witness :
    Binary cornerVolume ∧
    ∃ d ∈ deletions cornerVolume, d.point = (1, 0, 0) ∧ neighbourCount d.vol d.point = 1 ∧
      neighbourCount d.scanVol d.point ≠ 1 := by
  refine ⟨binary_volumeOf _ _ _ _, ?_⟩
  obtain ⟨d, hd, h⟩ := List.any_eq_true.1 cornerVolume_deletion
  simp only [Bool.and_eq_true, decide_eq_true_eq] at h
  exact ⟨d, hd, h.1, h.2,
    (C9_deleted_not_endpoint_at_scan cornerVolume (binary_volumeOf _ _ _ _) d hd).2.1⟩

/-- C11: for every `n ≥ 1`, every axis and every grid with cells 0 or 1 whose
foreground is exactly a straight, one voxel wide rod of `n` consecutive
voxels along that axis, `computeThinImage` returns the grid unchanged. -/
theorem C11_rod_unchanged (v : Volume) (hbin : Binary v) (p : Point) (axis n : Nat)
    (hn : 1 ≤ n) (_haxis : axis < 3) (hrod : IsRod v p axis n) :
    computeThinImage v = v := by
  show (computeThinImageIter v).1 = v
  rw [rod_unchanged v hbin p axis n hn hrod]

/-- Witness for C11: the rod of length 5 along `x`. -/
theorem C11_witness :
    Binary rodVolume ∧ 1 ≤ 5 ∧ 0 < 3 ∧ IsRod rodVolume (0, 0, 0) 0 5 ∧
    computeThinImage rodVolume = rodVolume :=
  ⟨binary_volumeOf _ _ _ _, by decide, by decide, rodVolume_isRod,
    C11_rod_unchanged rodVolume (binary_volumeOf _ _ _ _) (0, 0, 0) 0 5 (by decide) (by decide)
      rodVolume_isRod⟩

/-- C12 fails as stated: on the neighbourhood of an isolated voxel (only the
centre entry is 1) `is_simple_point` returns true although the generic flood
fill counts no component among the 26 non-centre positions: zero components,
not exactly one. -/
theorem C12_counterexample :
    is_simple_point [0, 0, 0, 0, 0, 0, 0, 0, 0, 0, 0, 0, 0, 1, 0, 0, 0, 0, 0, 0, 0, 0, 0, 0, 0, 0, 0] = true ∧
    componentCount [0, 0, 0, 0, 0, 0, 0, 0, 0, 0, 0, 0, 0, 1, 0, 0, 0, 0, 0, 0, 0, 0, 0, 0, 0, 0, 0] = 0 ∧
    ¬ (is_simple_point
        [0, 0, 0, 0, 0, 0, 0, 0, 0, 0, 0, 0, 0, 1, 0, 0, 0, 0, 0, 0, 0, 0, 0, 0, 0, 0, 0] = true ↔
      componentCount
        [0, 0, 0, 0, 0, 0, 0, 0, 0, 0, 0, 0, 0, 1, 0, 0, 0, 0, 0, 0, 0, 0, 0, 0, 0, 0, 0] = 1) := by
  decide

/-- C12 as amended: for every 27-entry neighbourhood whose entries are 0 or 1,
`is_simple_point` returns true if and only if the generic flood fill counts
zero or one component among the entries equal to 1 at the 26 non-centre
positions; it counts zero exactly when no non-centre entry equals 1, and one
exactly when some non-centre entry equals 1 and any two such entries are
joined under 26-adjacency; so when some non-centre entry equals 1,
`is_simple_point` returns true if and only if there is exactly one
component. -/
theorem C12_is_simple_point_iff_zero_or_one_component (n : List Int) (_hlen : n.length = 27)
    (_h01 : ∀ v ∈ n, v = 0 ∨ v = 1) :
    (is_simple_point n = true ↔ componentCount n = 0 ∨ componentCount n = 1) ∧
    (componentCount n = 0 ↔ ∀ i, i < 27 → i ≠ 13 → n.getD i 0 ≠ 1) ∧
    (componentCount n = 1 ↔
      (∃ i, i < 27 ∧ i ≠ 13 ∧ n.getD i 0 = 1) ∧ AtMostOneComponent n) ∧
    ((∃ i, i < 27 ∧ i ≠ 13 ∧ n.getD i 0 = 1) →
      (is_simple_point n = true ↔ componentCount n = 1)) := by
  have h1 : is_simple_point n = true ↔ componentCount n ≤ 1 := by
    rw [componentCount_le_one_iff]; exact is_simple_point_iff n
  have h0 := componentCount_zero_iff n
  have hex : (∃ i, i < 27 ∧ i ≠ 13 ∧ n.getD i 0 = 1) ↔ componentCount n ≠ 0 := by
    rw [Ne, h0]
    constructor
    · rintro ⟨i, hi, h13, hv⟩ h
      exact h i hi h13 hv
    · intro h
      by_contra hne
      exact h (fun i hi h13 hv => hne ⟨i, hi, h13, hv⟩)
  refine ⟨?_, h0, ?_, ?_⟩
  · rw [h1]; omega
  · rw [hex, ← componentCount_le_one_iff]; omega
  · intro he
    rw [h1]
    have := hex.1 he
    omega

/-- Witness for the amended C12 at a neighbourhood with the two adjacent
entries 0 and 1. -/
theorem C12_witness :
    [1, 1, 0, 0, 0, 0, 0, 0, 0, 0, 0, 0, 0, 1, 0, 0, 0, 0, 0, 0, 0, 0, 0, 0, 0, 0, (0 : Int)].length = 27 ∧
    (∀ v ∈ [1, 1, 0, 0, 0, 0, 0, 0, 0, 0, 0, 0, 0, 1, 0, 0, 0, 0, 0, 0, 0, 0, 0, 0, 0, 0, (0 : Int)],
      v = 0 ∨ v = 1) ∧
    (is_simple_point
        [1, 1, 0, 0, 0, 0, 0, 0, 0, 0, 0, 0, 0, 1, 0, 0, 0, 0, 0, 0, 0, 0, 0, 0, 0, 0, 0] = true ↔
      componentCount
        [1, 1, 0, 0, 0, 0, 0, 0, 0, 0, 0, 0, 0, 1, 0, 0, 0, 0, 0, 0, 0, 0, 0, 0, 0, 0, 0] = 0 ∨
      componentCount
        [1, 1, 0, 0, 0, 0, 0, 0, 0, 0, 0, 0, 0, 1, 0, 0, 0, 0, 0, 0, 0, 0, 0, 0, 0, 0, 0] = 1) :=
  ⟨by decide, by decide,
    (C12_is_simple_point_iff_zero_or_one_component _ (by decide) (by decide)).1⟩

/-- C13 (the code at the failing input): the foreground of the 2x1x2 grid
with the voxels (0,0,0), (1,0,0), (0,0,1) has Euler characteristic 1, and the
foreground of the grid returned by `computeThinImage` has Euler
characteristic 0. -/
theorem C13_euler_characteristic_changed :
    Binary cornerVolume ∧ gridEulerCharacteristic cornerVolume = 1 ∧
    gridEulerCharacteristic (computeThinImage cornerVolume) = 0 :=
  ⟨binary_volumeOf _ _ _ _, cornerVolume_euler,
    gridEulerCharacteristic_empty _ cornerVolume_thinned⟩

/-- C14 fails as stated: at the background cell (1,0,0) between the two
foreground voxels (0,0,0) and (2,0,0) of a 3x1x1 grid, `is_endpoint` returns
true although two of the 26 non-centre entries equal 1. -/
theorem C14_counterexample :
    is_endpoint gapVolume 1 0 0 = true ∧ onesAround (get_neighborhood gapVolume 1 0 0) = 2 ∧
    ¬ (is_endpoint gapVolume 1 0 0 = true ↔ onesAround (get_neighborhood gapVolume 1 0 0) = 1) := by
  decide

/-- C14 as amended: for every grid and every coordinate, when the cell
`(x,y,z)` itself reads 1, `is_endpoint` returns true if and only if exactly
one of the 26 non-centre entries of `get_neighborhood` equals 1; when it does
not read 1, `is_endpoint` returns true if and only if exactly two of them
equal 1 (the counter starts at -1 and counts the centre entry too). -/
theorem C14_is_endpoint_counts_centre (vol : Volume) (x y z : Int) :
    (get_pixel vol x y z = 1 →
      (is_endpoint vol x y z = true ↔ onesAround (get_neighborhood vol x y z) = 1)) ∧
    (get_pixel vol x y z ≠ 1 →
      (is_endpoint vol x y z = true ↔ onesAround (get_neighborhood vol x y z) = 2)) := by
  rw [is_endpoint_eq, onesAround_get_neighborhood, decide_eq_true_eq]
  constructor
  · intro h
    rw [if_pos h]; omega
  · intro h
    rw [if_neg h]; omega

/-- C15: for every grid, every coordinate `(x,y,z)` and every index `i` in
0..26, the neighbourhood has 27 entries, entry `i` equals
`get_pixel(vol, x + i mod 3 - 1, y + (i div 3) mod 3 - 1, z + i div 9 - 1)`,
entry 13 is `get_pixel(vol, x, y, z)`, and an entry whose position lies
outside the grid is 0. The function returns a value and no grid, so the grid
is not modified. -/
theorem C15_get_neighborhood_entries (vol : Volume) (x y z : Int) (i : Nat) (hi : i < 27) :
    (get_neighborhood vol x y z).length = 27 ∧
    (get_neighborhood vol x y z).getD i 0 =
      get_pixel vol (x + ((i % 3 : Nat) : Int) - 1) (y + ((i / 3 % 3 : Nat) : Int) - 1)
        (z + ((i / 9 : Nat) : Int) - 1) ∧
    (get_neighborhood vol x y z).getD 13 0 = get_pixel vol x y z ∧
    (¬ InRange vol (x + ((i % 3 : Nat) : Int) - 1, y + ((i / 3 % 3 : Nat) : Int) - 1,
        z + ((i / 9 : Nat) : Int) - 1) → (get_neighborhood vol x y z).getD i 0 = 0) := by
  have e : (get_neighborhood vol x y z).getD i 0 =
      get_pixel vol (x + ((i % 3 : Nat) : Int) - 1) (y + ((i / 3 % 3 : Nat) : Int) - 1)
        (z + ((i / 9 : Nat) : Int) - 1) := by
    rw [get_neighborhood_getD vol x y z i hi]
    simp only [shift, offset]
    congr 1 <;> omega
  refine ⟨rfl, e, rfl, fun h => ?_⟩
  rw [e]
  unfold get_pixel
  rw [if_neg]
  intro h'
  exact h ⟨h'.1, h'.2.1, h'.2.2.1, h'.2.2.2.1, h'.2.2.2.2.1, h'.2.2.2.2.2⟩

/-- Witness for C15 at entry 0 of the neighbourhood of (0,0,0) in the
two-voxel grid. -/
theorem C15_witness :
    (0 : Nat) < 27 ∧
    (get_neighborhood pairVolume 0 0 0).getD 0 0 =
      get_pixel pairVolume (0 + ((0 % 3 : Nat) : Int) - 1) (0 + ((0 / 3 % 3 : Nat) : Int) - 1)
        (0 + ((0 / 9 : Nat) : Int) - 1) :=
  ⟨by decide, (C15_get_neighborhood_entries pairVolume 0 0 0 0 (by decide)).2.1⟩

/-- C16: each of the eight octant index functions returns 1 plus the sum,
over seven distinct neighbourhood positions, of a distinct weight from
2, 4, 8, 16, 32, 64, 128 for each position whose entry is non-zero; the seven
positions are exactly the non-centre positions of the corner sub-cube of the
octant (N = y-1, S = y+1, E = x+1, W = x-1, U = z+1, B = z-1); and every
octant index is odd and lies in 1..255. -/
theorem C16_octant_index_structure :
    ReadsOctant index_octant_NEB 1 (-1) (-1) ∧ ReadsOctant index_octant_NWB (-1) (-1) (-1) ∧
    ReadsOctant index_octant_SEB 1 1 (-1) ∧ ReadsOctant index_octant_SWB (-1) 1 (-1) ∧
    ReadsOctant index_octant_NEU 1 (-1) 1 ∧ ReadsOctant index_octant_NWU (-1) (-1) 1 ∧
    ReadsOctant index_octant_SEU 1 1 1 ∧ ReadsOctant index_octant_SWU (-1) 1 1 ∧
    ∀ n : List Int, ∀ f ∈ [index_octant_NEB, index_octant_NWB, index_octant_SEB,
      index_octant_SWB, index_octant_NEU, index_octant_NWU, index_octant_SEU, index_octant_SWU],
      f n % 2 = 1 ∧ 1 ≤ f n ∧ f n ≤ 255 := by
  refine ⟨readsOctant_of _ _ _ _ _ _ _ _ _ _ _ (fun _ => rfl) (by decide) (by decide) (by decide),
    readsOctant_of _ _ _ _ _ _ _ _ _ _ _ (fun _ => rfl) (by decide) (by decide) (by decide),
    readsOctant_of _ _ _ _ _ _ _ _ _ _ _ (fun _ => rfl) (by decide) (by decide) (by decide),
    readsOctant_of _ _ _ _ _ _ _ _ _ _ _ (fun _ => rfl) (by decide) (by decide) (by decide),
    readsOctant_of _ _ _ _ _ _ _ _ _ _ _ (fun _ => rfl) (by decide) (by decide) (by decide),
    readsOctant_of _ _ _ _ _ _ _ _ _ _ _ (fun _ => rfl) (by decide) (by decide) (by decide),
    readsOctant_of _ _ _ _ _ _ _ _ _ _ _ (fun _ => rfl) (by decide) (by decide) (by decide),
    readsOctant_of _ _ _ _ _ _ _ _ _ _ _ (fun _ => rfl) (by decide) (by decide) (by decide), ?_⟩
  intro n f hf
  simp only [List.mem_cons, List.mem_singleton, List.not_mem_nil, or_false] at hf
  rcases hf with rfl | rfl | rfl | rfl | rfl | rfl | rfl | rfl <;>
    exact octant_index_bounds _ _ _ _ _ _ _ _ (fun _ => rfl) n


set_option maxRecDepth 100000 in
/-- C17: the table of `fill_euler_LUT` has 256 entries, every even index
holds 0, every entry lies in [-7, 5], and the entries at 1, 9, 105 and 129
are 1, -3, 5 and -7. -/
theorem C17_euler_LUT_entries :
    fill_euler_LUT.length = 256 ∧
    (∀ i, i < 256 → i % 2 = 0 → fill_euler_LUT.getD i 0 = 0) ∧
    (∀ i, i < 256 → -7 ≤ fill_euler_LUT.getD i 0 ∧ fill_euler_LUT.getD i 0 ≤ 5) ∧
    fill_euler_LUT.getD 1 0 = 1 ∧ fill_euler_LUT.getD 9 0 = -3 ∧
    fill_euler_LUT.getD 105 0 = 5 ∧ fill_euler_LUT.getD 129 0 = -7 := by
  decide

/-- C18: for every grid and all integers `x`, `y`, `z`, `get_pixel` returns
the stored cell when the coordinate is inside the extents and 0 otherwise.
It is a total function of the grid and returns no grid. -/
theorem C18_get_pixel_total (vol : Volume) (x y z : Int) :
    (InRange vol (x, y, z) → get_pixel vol x y z = vol.cell x y z) ∧
    (¬ InRange vol (x, y, z) → get_pixel vol x y z = 0) := by
  unfold get_pixel InRange
  constructor
  · intro h
    rw [if_pos ⟨h.1, h.2.1, h.2.2.1, h.2.2.2.1, h.2.2.2.2.1, h.2.2.2.2.2⟩]
  · intro h
    rw [if_neg]
    intro h'
    exact h ⟨h'.1, h'.2.1, h'.2.2.1, h'.2.2.2.1, h'.2.2.2.2.1, h'.2.2.2.2.2⟩

/-- C19: for every grid, all integers `x`, `y`, `z` and every value: outside
the grid `set_pixel` returns the grid as it is; inside, `get_pixel` at
`(x,y,z)` then returns the value, every other cell reads as before and the
extents are unchanged. -/
theorem C19_set_pixel_frame (vol : Volume) (x y z value : Int) :
    (¬ InRange vol (x, y, z) → set_pixel vol x y z value = vol) ∧
    (InRange vol (x, y, z) →
      get_pixel (set_pixel vol x y z value) x y z = value ∧
      (∀ a b c : Int, (a, b, c) ≠ (x, y, z) →
        (set_pixel vol x y z value).cell a b c = vol.cell a b c ∧
        get_pixel (set_pixel vol x y z value) a b c = get_pixel vol a b c) ∧
      (set_pixel vol x y z value).X = vol.X ∧ (set_pixel vol x y z value).Y = vol.Y ∧
      (set_pixel vol x y z value).Z = vol.Z) := by
  constructor
  · intro h
    unfold set_pixel
    rw [if_neg]
    intro h'
    exact h ⟨h'.1, h'.2.1, h'.2.2.1, h'.2.2.2.1, h'.2.2.2.2.1, h'.2.2.2.2.2⟩
  · intro h
    have hc : ∀ a b c : Int, (a, b, c) ≠ (x, y, z) →
        (set_pixel vol x y z value).cell a b c = vol.cell a b c := by
      intro a b c hne
      rcases set_pixel_cell vol x y z value a b c with e | ⟨_, e1, e2, e3, _⟩
      · exact e
      · exact absurd (by rw [e1, e2, e3]) hne
    refine ⟨?_, ?_, set_pixel_X _ _ _ _ _, set_pixel_Y _ _ _ _ _, set_pixel_Z _ _ _ _ _⟩
    · have h' := h
      unfold InRange at h'
      unfold get_pixel
      rw [set_pixel_X, set_pixel_Y, set_pixel_Z,
        if_pos ⟨h'.1, h'.2.1, h'.2.2.1, h'.2.2.2.1, h'.2.2.2.2.1, h'.2.2.2.2.2⟩]
      exact set_pixel_cell_self vol x y z value h
    · intro a b c hne
      refine ⟨hc a b c hne, ?_⟩
      unfold get_pixel
      rw [set_pixel_X, set_pixel_Y, set_pixel_Z, hc a b c hne]

/-- C20: for every grid of extents 5x5x5 in which every cell is 1, the output
of `computeThinImage` is non-empty, any two of its foreground voxels are
joined by a 26-connected path of foreground voxels, and it has strictly fewer
than 125 foreground voxels: its foreground is exactly the three voxels
(2,2,1), (2,2,2), (2,2,3). -/
theorem C20_solid_cube_thinned (v : Volume) (hX : v.X = 5) (hY : v.Y = 5) (hZ : v.Z = 5)
    (hall : ∀ x y z : Int, InRange v (x, y, z) → v.cell x y z = 1) :
    (∃ p, Foreground (computeThinImage v) p) ∧
    (∀ p q, Foreground (computeThinImage v) p → Foreground (computeThinImage v) q →
      Joined (computeThinImage v) p q) ∧
    countForeground (computeThinImage v) < 125 ∧
    (∀ p, Foreground (computeThinImage v) p ↔ p = (2, 2, 1) ∨ p = (2, 2, 2) ∨ p = (2, 2, 3)) ∧
    countForeground (computeThinImage v) = 3 := by
  obtain ⟨hbox, _, hcount⟩ := cube_result v hX hY hZ hall
  generalize computeThinImage v = w at hbox hcount ⊢
  refine ⟨⟨(2, 2, 2), (hbox.2 _).2 (by decide)⟩, joined_rod w hbox.2, by omega, fun p => ?_, hcount⟩
  rw [hbox.2 p]
  obtain ⟨px, py, pz⟩ := p
  simp only [InBox, Prod.mk.injEq]
  omega

/-- Witness for C20: the 5x5x5 grid of ones. -/
theorem C20_witness :
    cubeVolume.X = 5 ∧ cubeVolume.Y = 5 ∧ cubeVolume.Z = 5 ∧
    (∀ x y z : Int, InRange cubeVolume (x, y, z) → cubeVolume.cell x y z = 1) ∧
    (∃ p, Foreground (computeThinImage cubeVolume) p) ∧
    countForeground (computeThinImage cubeVolume) < 125 :=
  ⟨rfl, rfl, rfl, fun _ _ _ _ => rfl,
    (C20_solid_cube_thinned cubeVolume rfl rfl rfl (fun _ _ _ _ => rfl)).1,
    (C20_solid_cube_thinned cubeVolume rfl rfl rfl (fun _ _ _ _ => rfl)).2.2.1⟩

/-- C21: when `computeThinImage` returns on a grid whose cells are all 0 or 1,
then for each of the six directions every foreground voxel of the result
whose neighbour in that direction is not foreground is an endpoint, or is not
Euler-invariant, or is not a simple point; no cell passes the scan tests, no
direction collects a candidate and every pass returns the grid unchanged; an
iteration on the result leaves it as it is with six unchanged directions;
and the last iteration of the loop started on that very grid. -/
theorem C21_result_is_fixed_point (vol : Volume) (hbin : Binary vol) :
    (∀ b ∈ [1, 2, 3, 4, 5, 6], ∀ p, Foreground (computeThinImage vol) p →
      ¬ Foreground (computeThinImage vol) (towards b p) →
      is_endpoint (computeThinImage vol) p.1 p.2.1 p.2.2 = true ∨
      is_euler_invariant (toU8 (get_neighborhood (computeThinImage vol) p.1 p.2.1 p.2.2))
        fill_euler_LUT = false ∨
      is_simple_point (toU8 (get_neighborhood (computeThinImage vol) p.1 p.2.1 p.2.2)) = false) ∧
    (∀ b ∈ [1, 2, 3, 4, 5, 6], ∀ p, InRange (computeThinImage vol) p →
      isCandidate (computeThinImage vol) b p = false) ∧
    (∀ b ∈ [1, 2, 3, 4, 5, 6], collectCandidates (computeThinImage vol) b = [] ∧
      borderPass (computeThinImage vol) b = (computeThinImage vol, true)) ∧
    iteration (computeThinImage vol) = (computeThinImage vol, 6) ∧
    (loopStates (countForeground vol + 1) vol).getLast? = some (computeThinImage vol) := by
  obtain ⟨k, _, _, _, _, hfix⟩ := computeThinImageIter_spec vol
  have hlast := computeThinImage_last_state vol
  have hb : Binary (computeThinImage vol) := (computeThinImage_shrinks vol).binary_of hbin
  generalize computeThinImage vol = w at hfix hlast hb ⊢
  refine ⟨fun b hdir p hf hn => ?_, fun b hdir p hin => fixed_no_candidate w hfix b hdir p hin,
    fun b hdir => ⟨(iteration_fixed w hfix b hdir).2, (iteration_fixed w hfix b hdir).1⟩,
    hfix, hlast⟩
  exact not_candidate_tests hf ((isBorderPoint_iff hb b hdir p).2 hn)
    (fixed_no_candidate w hfix b hdir p hf.inRange)

/-- Witness for C21 on the two-voxel grid. -/
theorem C21_witness :
    Binary pairVolume ∧
    iteration (computeThinImage pairVolume) = (computeThinImage pairVolume, 6) :=
  ⟨binary_volumeOf _ _ _ _, (C21_result_is_fixed_point pairVolume (binary_volumeOf _ _ _ _)).2.2.2.1⟩

/-- C22 fails as stated: `index_octant_NEB` reads the corner position 2 of
the block; two neighbourhoods that differ only there give the indices 129
and 1. -/
theorem C22_counterexample :
    (2 ∈ [0, 2, 6, 8, 18, 20, 24, 26]) ∧
    index_octant_NEB ((List.replicate 27 0).set 2 1) = 129 ∧
    index_octant_NEB (List.replicate 27 0) = 1 ∧
    ¬ (∀ n n' : List Int, (∀ i, i ≠ 2 → n.getD i 0 = n'.getD i 0) →
      index_octant_NEB n = index_octant_NEB n') := by
  refine ⟨by decide, corner_changes_NEB.1, corner_changes_NEB.2, fun h => ?_⟩
  have e := h ((List.replicate 27 0).set 2 1) (List.replicate 27 0)
    (fun i hi => getD_set_ne _ 2 i 1 hi)
  rw [corner_changes_NEB.1, corner_changes_NEB.2] at e
  exact absurd e (by decide)

/-- C22 as amended: each of the eight octant index functions depends only on
the seven non-centre positions of its corner sub-cube, so neither on the
centre (index 13) nor on a position outside the sub-cube; the corner of the
block in the octant (2, 0, 8, 6, 20, 18, 26, 24 for NEB, NWB, SEB, SWB, NEU,
NWU, SEU, SWU) is one of the seven and carries the weight 128: the index is
at least 128 exactly when the corner entry is non-zero. -/
theorem C22_octant_reads_corner :
    ReadsCorner index_octant_NEB 1 (-1) (-1) 2 ∧ ReadsCorner index_octant_NWB (-1) (-1) (-1) 0 ∧
    ReadsCorner index_octant_SEB 1 1 (-1) 8 ∧ ReadsCorner index_octant_SWB (-1) 1 (-1) 6 ∧
    ReadsCorner index_octant_NEU 1 (-1) 1 20 ∧ ReadsCorner index_octant_NWU (-1) (-1) 1 18 ∧
    ReadsCorner index_octant_SEU 1 1 1 26 ∧ ReadsCorner index_octant_SWU (-1) 1 1 24 :=
  ⟨readsCorner_of _ _ _ _ _ _ _ _ _ _ _ (fun _ => rfl) (by decide) (by decide) (by decide),
    readsCorner_of _ _ _ _ _ _ _ _ _ _ _ (fun _ => rfl) (by decide) (by decide) (by decide),
    readsCorner_of _ _ _ _ _ _ _ _ _ _ _ (fun _ => rfl) (by decide) (by decide) (by decide),
    readsCorner_of _ _ _ _ _ _ _ _ _ _ _ (fun _ => rfl) (by decide) (by decide) (by decide),
    readsCorner_of _ _ _ _ _ _ _ _ _ _ _ (fun _ => rfl) (by decide) (by decide) (by decide),
    readsCorner_of _ _ _ _ _ _ _ _ _ _ _ (fun _ => rfl) (by decide) (by decide) (by decide),
    readsCorner_of _ _ _ _ _ _ _ _ _ _ _ (fun _ => rfl) (by decide) (by decide) (by decide),
    readsCorner_of _ _ _ _ _ _ _ _ _ _ _ (fun _ => rfl) (by decide) (by decide) (by decide)⟩

/-- C23: for every grid and every coordinate, `is_endpoint` returns true if
and only if exactly two of the 27 entries of the neighbourhood, the centre
included, equal 1; when the cell itself reads 1 it returns true exactly when
one of the 26 neighbours is 1; and the scan of `computeThinImage` goes on to
its tests only at cells holding 1. -/
theorem C23_is_endpoint_two_of_27 (vol : Volume) (x y z : Int) :
    (is_endpoint vol x y z = true ↔
      (List.range 27).countP
        (fun i => decide ((get_neighborhood vol x y z).getD i 0 = 1)) = 2) ∧
    (get_pixel vol x y z = 1 →
      (is_endpoint vol x y z = true ↔ neighbourCount vol (x, y, z) = 1)) ∧
    (∀ b : Nat, isCandidate vol b (x, y, z) = true → get_pixel_nocheck vol x y z = 1) ∧
    (∀ b : Nat, get_pixel_nocheck vol x y z ≠ 1 → isCandidate vol b (x, y, z) = false) := by
  refine ⟨is_endpoint_count27 vol x y z, fun h => ?_, fun b h => isCandidate_cell vol b _ h,
    fun b h => isCandidate_of_background vol b (x, y, z) h⟩
  rw [is_endpoint_eq, decide_eq_true_eq, if_pos h]
  omega

/-- C24 fails as stated: called with both references naming the same 2x1x1
volume holding 7 and 0, and with its extents, `lee` leaves it a volume of
zeros, while `computeThinImage` of the binarisation of the original input
keeps the cell (0,0,0) at 1. -/
theorem C24_counterexample :
    (2 : Int) = grayVolume.X ∧ (1 : Int) = grayVolume.Y ∧ (1 : Int) = grayVolume.Z ∧
    (computeThinImage (binarise grayVolume)).cell 0 0 0 = 1 ∧
    ∃ s1, lee (fun _ => grayVolume) 0 0 2 1 1 = some s1 ∧ (s1 0).cell 0 0 0 = 0 ∧
      s1 0 ≠ computeThinImage (binarise grayVolume) := by
  refine ⟨rfl, rfl, rfl, grayVolume_thinned, _,
    lee_aliased (fun _ => grayVolume) 0 2 1 1 (by decide) (by decide) (by decide), rfl, ?_⟩
  intro h
  have h1 := congrArg (fun v : Volume => v.cell 0 0 0) h
  simp only [grayVolume_thinned] at h1
  exact absurd h1 (by decide)

/-- C24 as amended: for every store, every two references and extents
`(x, y, z)` equal to the extents of `in`: when `in` and `out` are different
objects, `lee(in, out, x, y, z)` returns, `in` equals `computeThinImage` of
the binarisation of the original input and keeps its extents, `out` has
extents `(x, y, z)` and equals `in` cell for cell, every cell of both is 0 or
1, and no other object changes; when `in` and `out` are the same object, it
is left a volume of zeros of extents `(x, y, z)`. -/
theorem C24_lee_distinct_objects (s : Store) (inp out : Nat) (x y z : Int)
    (hx : x = (s inp).X) (hy : y = (s inp).Y) (hz : z = (s inp).Z) :
    (inp ≠ out → ∃ s1, lee s inp out x y z = some s1 ∧
      s1 inp = computeThinImage (binarise (s inp)) ∧
      ((s1 inp).X = (s inp).X ∧ (s1 inp).Y = (s inp).Y ∧ (s1 inp).Z = (s inp).Z) ∧
      (((s1 out).X : Int) = x ∧ ((s1 out).Y : Int) = y ∧ ((s1 out).Z : Int) = z) ∧
      (∀ a b c, InRange (s1 out) (a, b, c) → (s1 out).cell a b c = (s1 inp).cell a b c) ∧
      (∀ a b c, get_pixel (s1 out) a b c = get_pixel (s1 inp) a b c) ∧
      Binary (s1 inp) ∧ Binary (s1 out) ∧
      (∀ k, k ≠ inp → k ≠ out → s1 k = s k)) ∧
    (inp = out → lee s inp out x y z = some (s.assign out (freshVolume x y z))) := by
  subst hx hy hz
  constructor
  · intro hne
    obtain ⟨o, h1, h2, h3, h4, h5⟩ := lee_distinct s inp out hne
    have hs := computeThinImage_shrinks (binarise (s inp))
    have hb : Binary (computeThinImage (binarise (s inp))) := hs.binary_of (binary_binarise _)
    obtain ⟨s1, s2, s3, _⟩ := hs
    have s1' : (computeThinImage (binarise (s inp))).X = (s inp).X := s1
    have s2' : (computeThinImage (binarise (s inp))).Y = (s inp).Y := s2
    have s3' : (computeThinImage (binarise (s inp))).Z = (s inp).Z := s3
    generalize computeThinImage (binarise (s inp)) = w at h1 h5 hb s1' s2' s3'
    have ein : ((s.assign inp w).assign out o) inp = w := by
      rw [assign_other _ out inp _ hne, assign_self]
    have eout : ((s.assign inp w).assign out o) out = o := assign_self _ _ _
    have hcell : ∀ a b c, InRange w (a, b, c) → o.cell a b c = w.cell a b c := by
      intro a b c hin
      apply h5
      unfold InRange at hin ⊢
      rw [s1', s2', s3'] at hin
      exact hin
    refine ⟨_, h1, ein, ?_, ?_, ?_, ?_, ?_, ?_, ?_⟩
    · rw [ein]; exact ⟨s1', s2', s3'⟩
    · rw [eout]; exact ⟨by rw [h2], by rw [h3], by rw [h4]⟩
    · rw [ein, eout]
      intro a b c hin
      apply h5
      unfold InRange at hin ⊢
      rw [h2, h3, h4] at hin
      exact hin
    · rw [ein, eout]
      exact get_pixel_of_cells o w (h2.trans s1'.symm) (h3.trans s2'.symm) (h4.trans s3'.symm)
        hcell
    · rw [ein]; exact hb
    · rw [eout]
      intro a b c q1 q2 q3 q4 q5 q6
      rw [h2, h3, h4] at *
      have hin : InRange w (a, b, c) := by
        unfold InRange
        rw [s1', s2', s3']
        exact ⟨q1, q2, q3, q4, q5, q6⟩
      rw [hcell a b c hin]
      unfold InRange at hin
      exact hb a b c hin.1 hin.2.1 hin.2.2.1 hin.2.2.2.1 hin.2.2.2.2.1 hin.2.2.2.2.2
    · intro k k1 k2
      rw [assign_other _ out k _ k2, assign_other _ inp k _ k1]
  · intro he
    subst he
    exact lee_aliased s inp _ _ _ (by omega) (by omega) (by omega)

/-- Witness for the amended C24: a 2x1x1 grid holding 7 and 0 as `in` and a
different object as `out`. -/
theorem C24_witness :
    (2 : Int) = ((fun _ => grayVolume : Store) 0).X ∧ (1 : Int) = ((fun _ => grayVolume : Store) 0).Y ∧
    (1 : Int) = ((fun _ => grayVolume : Store) 0).Z ∧ (0 : Nat) ≠ 1 ∧
    ∃ s1, lee (fun _ => grayVolume) 0 1 2 1 1 = some s1 ∧
      s1 0 = computeThinImage (binarise grayVolume) := by
  obtain ⟨s1, h1, h2, _⟩ :=
    (C24_lee_distinct_objects (fun _ => grayVolume) 0 1 2 1 1 rfl rfl rfl).1 (by decide)
  exact ⟨rfl, rfl, rfl, by decide, s1, h1, h2⟩

end Lee94
